import Mathlib

/-!
# Thread scheduler policies (`Threading-Scheduler/threads_sched.c`)

A shallow embedding of the five policies `schedule_default`, `schedule_hrrn`,
`schedule_priority_rr`, `schedule_dm` and `schedule_edf_cbs` together with
their helpers.

Memory model.  The C code works on `struct thread *` pointers: the run queue is
an intrusive linked list of threads and every release-queue entry holds a
pointer `thrd`.  Pointers are natural numbers here, the heap is a total map
from pointers to thread records, the run queue is the list of the pointers in
list order and `NULL` is `none`.  Two pointers alias exactly when they are
equal numbers, so the "mutate, compare, restore" passages of the source are
kept literally.

Integers.  C `int` is embedded as `Int`; `INT_MAX` is the 32-bit constant of
`<limits.h>`.  The flags `is_hard_rt` and `is_throttled` are C integers, true
when non-zero.  Every policy with arithmetic comes in two forms: with exact
arithmetic (`schedule_hrrn`, `schedule_dm`, `schedule_edf_cbs`), for the
properties stated in exact arithmetic, and with every `int` operation reduced
to 32 bits (`schedule_hrrn_int32`, `schedule_dm_int32`,
`schedule_edf_cbs_int32`); the two forms agree wherever no operation
overflows.
-/

namespace ThreadsSched

/-- Modelled from the spec: the `cbs` member of `struct thread`, declared in
`user/threads.h` (not part of the sources at hand); the fields are those the
scheduler reads and writes. -/
structure cbs_t where
  budget : Int
  remaining_budget : Int
  is_hard_rt : Int
  is_throttled : Int
  throttled_arrived_time : Int
deriving DecidableEq, Repr

/-- Modelled from the spec: `struct thread` of `user/threads.h` (not part of the
sources at hand), restricted to the scheduling fields of the data model. -/
structure thread where
  ID : Int
  arrival_time : Int
  processing_time : Int
  remaining_time : Int
  priority : Int
  period : Int
  deadline : Int
  current_deadline : Int
  cbs : cbs_t
deriving DecidableEq, Repr

/-- The heap: contents of every `struct thread`, by pointer. -/
abbrev Heap := Nat → thread

/-- Store through a thread pointer: `*p = t`. -/
def Heap.set (m : Heap) (p : Nat) (t : thread) : Heap :=
  fun q => if q = p then t else m q

/-- Modelled from the spec: `struct release_queue_entry` of `user/threads.h`:
a release time and the pointer `thrd` to the thread that will arrive. -/
structure release_queue_entry where
  release_time : Int
  thrd : Nat
deriving DecidableEq, Repr

/-- Modelled from the spec: `struct threads_sched_args` of
`user/threads_sched.h`. -/
structure threads_sched_args where
  current_time : Int
  run_queue : List Nat
  release_queue : List release_queue_entry
deriving DecidableEq, Repr

/-- Modelled from the spec: `struct threads_sched_result` of
`user/threads_sched.h`.  `scheduled_thread_list_member` is `some p` for
`&p->thread_list` and `none` for the run-queue head `args.run_queue` (idle). -/
structure threads_sched_result where
  scheduled_thread_list_member : Option Nat
  allocated_time : Int
deriving DecidableEq, Repr

/-- `INT_MAX` of `<limits.h>` for a 32-bit `int`. -/
def INT_MAX : Int := 2147483647

/-! ## `__check_deadline_miss` -/

/-- Body of the loop of `__check_deadline_miss`. -/
def check_deadline_miss_step (m : Heap) (current_time : Int)
    (thread_missing_deadline : Option Nat) (th : Nat) : Option Nat :=
  if (m th).current_deadline ≤ current_time then
    match thread_missing_deadline with
    | none => some th
    | some q => if (m th).ID < (m q).ID then some th else some q
  else thread_missing_deadline

/-- `__check_deadline_miss(run_queue, current_time)`. -/
def __check_deadline_miss (m : Heap) (run_queue : List Nat) (current_time : Int) :
    Option Nat :=
  run_queue.foldl (check_deadline_miss_step m current_time) none

/-- The idle wake-up time: the `earliest_arrival` loop of the empty-run-queue
branch, shared by `schedule_dm` and `schedule_edf_cbs`. -/
def earliest_arrival (release_queue : List release_queue_entry) : Int :=
  release_queue.foldl
    (fun ea entry => if entry.release_time < ea then entry.release_time else ea) INT_MAX

/-- The decision of the empty-run-queue branch. -/
def idle_result (release_queue : List release_queue_entry) (current_time : Int) :
    threads_sched_result :=
  let ea := earliest_arrival release_queue
  if ea ≠ INT_MAX then
    let sleep_time := ea - current_time
    ⟨none, if sleep_time > 0 then sleep_time else 1⟩
  else ⟨none, 1⟩

/-! ## Deadline monotonic -/

/-- `__dm_thread_cmp(a, b)`: `1` when `a` has priority over `b`, else `-1`. -/
def __dm_thread_cmp (a b : thread) : Int :=
  if a.deadline < b.deadline then 1
  else if a.deadline > b.deadline then -1
  else if a.ID < b.ID then 1 else -1

/-- Body of the `best_thread` loop of `schedule_dm`. -/
def dm_best_step (m : Heap) (best_thread : Option Nat) (th : Nat) : Option Nat :=
  match best_thread with
  | none => some th
  | some b => if __dm_thread_cmp (m th) (m b) > 0 then some th else some b

/-- The `best_thread` loop of `schedule_dm` (step 3). -/
def dm_best_thread (m : Heap) (run_queue : List Nat) : Option Nat :=
  run_queue.foldl (dm_best_step m) none

/-- The `next_arrival_entry` / `next_arrival_time` loop of `schedule_dm`
(step 4). -/
def dm_next_arrival (release_queue : List release_queue_entry) :
    Option release_queue_entry × Int :=
  release_queue.foldl
    (fun acc entry => if entry.release_time < acc.2 then (some entry, entry.release_time) else acc)
    (none, INT_MAX)

/-- Step 5 of `schedule_dm`: the allocation for the chosen `best_thread`, in
exact arithmetic.  `dm_allocate_int32` is the same step with a 32-bit sum. -/
def dm_allocate (m : Heap) (current_time : Int) (best_thread : Nat)
    (next : Option release_queue_entry × Int) : Int :=
  let next_arrival_time := next.2
  match next.1 with
  | none => (m best_thread).remaining_time
  | some next_arrival_entry =>
    if next_arrival_time ≤ current_time then 1
    else if next_arrival_time < current_time + (m best_thread).remaining_time then
      let next_thread := m next_arrival_entry.thrd
      if next_thread.deadline < (m best_thread).deadline ∨
          (next_thread.deadline = (m best_thread).deadline ∧
            next_thread.ID < (m best_thread).ID) then
        let time_until_preemption := next_arrival_time - current_time
        if time_until_preemption > 0 then time_until_preemption else 1
      else (m best_thread).remaining_time
    else (m best_thread).remaining_time

/-- `schedule_dm(args)`.  The policy writes no thread field, so only the
decision is returned.  The last `none` branch is dead code: the loop over a
non-empty run queue always sets `best_thread`. -/
def schedule_dm (m : Heap) (args : threads_sched_args) : threads_sched_result :=
  match __check_deadline_miss m args.run_queue args.current_time with
  | some missed_deadline_thread => ⟨some missed_deadline_thread, 0⟩
  | none =>
    if args.run_queue = [] then idle_result args.release_queue args.current_time
    else
      match dm_best_thread m args.run_queue with
      | some best_thread =>
        ⟨some best_thread,
          dm_allocate m args.current_time best_thread (dm_next_arrival args.release_queue)⟩
      | none => ⟨none, 1⟩

/-! ## EDF with CBS -/

/-- `__edf_thread_cmp(a, b)`: `1` when `a` has priority over `b`, else `-1`. -/
def __edf_thread_cmp (a b : thread) : Int :=
  if a.current_deadline < b.current_deadline then 1
  else if a.current_deadline > b.current_deadline then -1
  else if a.ID < b.ID then 1 else -1

/-- Body of the first loop of `schedule_edf_cbs` (step 1): a throttled soft
thread whose deadline is reached gets its budget back, its deadline moved by one
period and its throttling cleared. -/
def edf_unthrottle_step (current_time : Int) (m : Heap) (th : Nat) : Heap :=
  if (m th).cbs.is_hard_rt = 0 ∧ (m th).cbs.is_throttled ≠ 0 ∧
      current_time ≥ (m th).current_deadline then
    m.set th
      { m th with
        cbs := { (m th).cbs with remaining_budget := (m th).cbs.budget, is_throttled := 0 }
        current_deadline := (m th).current_deadline + (m th).period }
  else m

/-- Step 1 of `schedule_edf_cbs`. -/
def edf_unthrottle (current_time : Int) (m : Heap) (run_queue : List Nat) : Heap :=
  run_queue.foldl (edf_unthrottle_step current_time) m

/-- Body of the throttling loop of `schedule_edf_cbs` (source lines 334-339). -/
def edf_throttle_step (current_time : Int) (m : Heap) (th : Nat) : Heap :=
  if (m th).cbs.is_hard_rt = 0 ∧ (m th).cbs.is_throttled = 0 ∧
      (m th).cbs.remaining_budget ≤ 0 then
    m.set th
      { m th with
        cbs := { (m th).cbs with is_throttled := 1, throttled_arrived_time := current_time } }
  else m

/-- The throttling loop of `schedule_edf_cbs`. -/
def edf_throttle (current_time : Int) (m : Heap) (run_queue : List Nat) : Heap :=
  run_queue.foldl (edf_throttle_step current_time) m

/-- Body of the selection loop inside the `do ... while` of `schedule_edf_cbs`:
throttled soft threads are skipped. -/
def edf_select_step (m : Heap) (best_thread : Option Nat) (th : Nat) : Option Nat :=
  if (m th).cbs.is_hard_rt = 0 ∧ (m th).cbs.is_throttled ≠ 0 then best_thread
  else
    match best_thread with
    | none => some th
    | some b => if __edf_thread_cmp (m th) (m b) > 0 then some th else some b

/-- The selection loop inside the `do ... while` of `schedule_edf_cbs`. -/
def edf_select (m : Heap) (run_queue : List Nat) : Option Nat :=
  run_queue.foldl (edf_select_step m) none

/-- The test of the bandwidth-preservation loop on the selected thread, in
exact arithmetic: it is soft, has budget left, and its deadline has passed or
its bandwidth would be exceeded.  `edf_must_postpone_int32` is the same test
with 32-bit products. -/
def edf_must_postpone (current_time : Int) (t : thread) : Prop :=
  t.cbs.is_hard_rt = 0 ∧ t.cbs.remaining_budget > 0 ∧
    (t.current_deadline - current_time ≤ 0 ∨
      t.cbs.remaining_budget * t.period > t.cbs.budget * (t.current_deadline - current_time))

instance (current_time : Int) (t : thread) : Decidable (edf_must_postpone current_time t) := by
  unfold edf_must_postpone; infer_instance

/-- The postponement: `current_deadline = current_time + period` and
`remaining_budget = budget`. -/
def edf_postpone (current_time : Int) (t : thread) : thread :=
  { t with
    current_deadline := current_time + t.period
    cbs := { t.cbs with remaining_budget := t.cbs.budget } }

/-- The `do ... while (changes_made)` loop of `schedule_edf_cbs`.  One unit of
fuel is one iteration; `none` is fuel exhaustion.  The result is the final
`best_thread` and the heap. -/
def edf_cbs_loop (current_time : Int) (run_queue : List Nat) :
    Nat → Heap → Option (Option Nat × Heap)
  | 0, _ => none
  | fuel + 1, m =>
    match edf_select m run_queue with
    | none => some (none, m)
    | some best_thread =>
      if edf_must_postpone current_time (m best_thread) then
        edf_cbs_loop current_time run_queue fuel
          (m.set best_thread (edf_postpone current_time (m best_thread)))
      else some (some best_thread, m)

/-- Step 7 of `schedule_edf_cbs`: the budget cap of the tentative allocation. -/
def edf_budget_cap (t : thread) : Int :=
  if t.cbs.is_hard_rt = 0 then
    (if t.remaining_time < t.cbs.remaining_budget then t.remaining_time
     else t.cbs.remaining_budget)
  else t.remaining_time

/-- Body of the release-queue loop (step 8.1).  The state is the heap and
`min_preemption_time`.  The arriving thread's deadline is overwritten for the
comparison and then restored, as in the source. -/
def edf_arrival_step (current_time : Int) (best_thread : Nat) (st : Heap × Int)
    (entry : release_queue_entry) : Heap × Int :=
  let m := st.1
  let min_preemption_time := st.2
  if entry.release_time ≥ current_time ∧
      entry.release_time < current_time + min_preemption_time then
    let arrival_thread := entry.thrd
    let original_deadline := (m arrival_thread).current_deadline
    let m1 := m.set arrival_thread
      { m arrival_thread with
        current_deadline := entry.release_time + (m arrival_thread).period }
    let mpt :=
      if __edf_thread_cmp (m1 arrival_thread) (m1 best_thread) > 0 then
        let time_until_arrival := entry.release_time - current_time
        if time_until_arrival < min_preemption_time then
          (if time_until_arrival > 0 then time_until_arrival else 1)
        else min_preemption_time
      else min_preemption_time
    (m1.set arrival_thread { m1 arrival_thread with current_deadline := original_deadline },
      mpt)
  else st

/-- Body of the throttled-thread loop (step 8.2).  The thread is provisionally
replenished for the comparison and then restored, as in the source. -/
def edf_replenish_step (current_time : Int) (best_thread : Nat) (st : Heap × Int)
    (th : Nat) : Heap × Int :=
  let m := st.1
  let min_preemption_time := st.2
  if (m th).cbs.is_hard_rt = 0 ∧ (m th).cbs.is_throttled ≠ 0 then
    if (m th).current_deadline ≥ current_time ∧
        (m th).current_deadline < current_time + min_preemption_time then
      let original_throttled := (m th).cbs.is_throttled
      let original_budget := (m th).cbs.remaining_budget
      let original_deadline := (m th).current_deadline
      let m1 := m.set th
        { m th with
          cbs := { (m th).cbs with is_throttled := 0, remaining_budget := (m th).cbs.budget }
          current_deadline := (m th).current_deadline + (m th).period }
      let mpt :=
        if __edf_thread_cmp (m1 th) (m1 best_thread) > 0 ∧ th ≠ best_thread then
          let time_until_replenish := original_deadline - current_time
          if time_until_replenish < min_preemption_time then
            (if time_until_replenish > 0 then time_until_replenish else 1)
          else min_preemption_time
        else min_preemption_time
      (m1.set th
        { m1 th with
          cbs := { (m1 th).cbs with
                   is_throttled := original_throttled, remaining_budget := original_budget }
          current_deadline := original_deadline },
        mpt)
    else st
  else st

/-- Steps 7 and 8 of `schedule_edf_cbs`: heap and `min_preemption_time` after
both lookahead loops. -/
def edf_lookahead (current_time : Int) (m : Heap) (args : threads_sched_args)
    (best_thread : Nat) : Heap × Int :=
  let allocated_time := edf_budget_cap (m best_thread)
  let st1 := args.release_queue.foldl (edf_arrival_step current_time best_thread)
    (m, allocated_time)
  args.run_queue.foldl (edf_replenish_step current_time best_thread) st1

/-- `schedule_edf_cbs(args)`, returning the decision and the heap it leaves.
`fuel` bounds the iterations of the `do ... while` loop; the result is `none`
only when the fuel runs out. -/
def schedule_edf_cbs (fuel : Nat) (m : Heap) (args : threads_sched_args) :
    Option (threads_sched_result × Heap) :=
  let current_time := args.current_time
  let m1 := edf_unthrottle current_time m args.run_queue
  match __check_deadline_miss m1 args.run_queue current_time with
  | some missed_deadline_thread => some (⟨some missed_deadline_thread, 0⟩, m1)
  | none =>
    if args.run_queue = [] then
      some (idle_result args.release_queue current_time, m1)
    else
      let m2 := edf_throttle current_time m1 args.run_queue
      match edf_cbs_loop current_time args.run_queue fuel m2 with
      | none => none
      | some (none, m3) => some (⟨none, 1⟩, m3)
      | some (some best_thread, m3) =>
        let st := edf_lookahead current_time m3 args best_thread
        let allocated_time := st.2
        some (⟨some best_thread, if allocated_time > 0 then allocated_time else 1⟩, st.1)

/-! ## Default policy -/

/-- Body of the loop of `schedule_default`. -/
def default_step (m : Heap) (thread_with_smallest_id : Option Nat) (th : Nat) : Option Nat :=
  match thread_with_smallest_id with
  | none => some th
  | some s => if (m th).ID < (m s).ID then some th else some s

/-- `schedule_default(args)`.  The policy writes nothing. -/
def schedule_default (m : Heap) (args : threads_sched_args) : threads_sched_result :=
  match args.run_queue.foldl (default_step m) none with
  | some thread_with_smallest_id =>
    ⟨some thread_with_smallest_id, (m thread_with_smallest_id).remaining_time⟩
  | none => ⟨none, 1⟩

/-! ## Highest response ratio next -/

/-- The loop variables of `schedule_hrrn`. -/
structure hrrn_state where
  selected_thread : Option Nat
  highest_ratio_numerator : Int
  highest_ratio_denominator : Int
deriving DecidableEq, Repr

/-- Body of the loop of `schedule_hrrn`, in exact arithmetic.  The `ID`
comparison reads `selected_thread` only when it is not `NULL`, as the
short-circuit `||` of the source does.  `hrrn_step_int32` is the same body with
32-bit products. -/
def hrrn_step (m : Heap) (current_time : Int) (st : hrrn_state) (th : Nat) : hrrn_state :=
  let waiting_time := current_time - (m th).arrival_time
  let ratio_numerator := waiting_time + (m th).processing_time
  let ratio_denominator := (m th).processing_time
  match st.selected_thread with
  | none => ⟨some th, ratio_numerator, ratio_denominator⟩
  | some selected_thread =>
    if ratio_numerator * st.highest_ratio_denominator >
          st.highest_ratio_numerator * ratio_denominator ∨
        (ratio_numerator * st.highest_ratio_denominator =
            st.highest_ratio_numerator * ratio_denominator ∧
          (m th).ID < (m selected_thread).ID) then
      ⟨some th, ratio_numerator, ratio_denominator⟩
    else st

/-- The loop of `schedule_hrrn`, started from `selected_thread = NULL`,
numerator 0 and denominator 1. -/
def hrrn_loop (m : Heap) (current_time : Int) (run_queue : List Nat) : hrrn_state :=
  run_queue.foldl (hrrn_step m current_time) ⟨none, 0, 1⟩

/-- `schedule_hrrn(args)`.  The policy writes nothing. -/
def schedule_hrrn (m : Heap) (args : threads_sched_args) : threads_sched_result :=
  match (hrrn_loop m args.current_time args.run_queue).selected_thread with
  | some selected_thread => ⟨some selected_thread, (m selected_thread).remaining_time⟩
  | none => ⟨none, 1⟩

/-! ## Priority round-robin -/

/-- Modelled from the spec: `list_move_tail(node, head)` of `user/list.h` (not
part of the sources at hand): the node is unlinked and linked again as the last
entry of the list. -/
def list_move_tail (node : Nat) (head : List Nat) : List Nat :=
  head.erase node ++ [node]

/-- The `best_pri` loop of `schedule_priority_rr` (step 2). -/
def rr_best_pri (m : Heap) (run_queue : List Nat) : Int :=
  run_queue.foldl
    (fun best_pri th => if (m th).priority < best_pri then (m th).priority else best_pri)
    INT_MAX

/-- The `chosen` loop of `schedule_priority_rr` (step 3): the first thread of
the queue with priority `best_pri`, `NULL` if there is none. -/
def rr_chosen (m : Heap) (best_pri : Int) (run_queue : List Nat) : Option Nat :=
  run_queue.find? (fun th => decide ((m th).priority = best_pri))

/-- The `group_cnt` loop of `schedule_priority_rr` (step 4). -/
def rr_group_cnt (m : Heap) (best_pri : Int) (run_queue : List Nat) : Nat :=
  run_queue.countP (fun th => decide ((m th).priority = best_pri))

/-- `schedule_priority_rr(args)`, returning the decision and the run queue it
leaves; no thread field is written.  The result is `none` when the source
would dereference `chosen == NULL`, which needs a priority above `INT_MAX` and
so cannot happen for C `int` fields. -/
def schedule_priority_rr (m : Heap) (args : threads_sched_args) :
    Option (threads_sched_result × List Nat) :=
  if args.run_queue = [] then some (⟨none, 1⟩, args.run_queue)
  else
    let best_pri := rr_best_pri m args.run_queue
    let group_cnt := rr_group_cnt m best_pri args.run_queue
    match rr_chosen m best_pri args.run_queue with
    | none => none
    | some chosen =>
      let run_queue :=
        if group_cnt > 1 then list_move_tail chosen args.run_queue else args.run_queue
      let quantum : Int := 2
      let allocated_time :=
        if group_cnt = 1 then (m chosen).remaining_time
        else (if (m chosen).remaining_time < quantum then (m chosen).remaining_time
              else quantum)
      some (⟨some chosen, allocated_time⟩, run_queue)

/-- Consecutive calls of `schedule_priority_rr`, one per listed heap and time,
each on the run queue left by the call before it: the decisions in order, and
the run queue left at the end. -/
def priority_rr_calls (release_queue : List release_queue_entry) :
    List (Heap × Int) → List Nat → List threads_sched_result × List Nat
  | [], run_queue => ([], run_queue)
  | (m, current_time) :: rest, run_queue =>
    match schedule_priority_rr m ⟨current_time, run_queue, release_queue⟩ with
    | none => ([], run_queue)
    | some (r, run_queue1) =>
      let tail := priority_rr_calls release_queue rest run_queue1
      (r :: tail.1, tail.2)

/-! ## The postponement loop with a record of its postponements -/

/-- The `do ... while (changes_made)` loop of `schedule_edf_cbs` as in
`edf_cbs_loop`, which in addition records every postponement it makes, in
order: the postponed pointer and the thread record just before the assignment
of the new deadline.  One unit of fuel is one iteration. -/
def edf_cbs_loop_log (current_time : Int) (run_queue : List Nat) :
    Nat → Heap → Option (List (Nat × thread) × Option Nat × Heap)
  | 0, _ => none
  | fuel + 1, m =>
    match edf_select m run_queue with
    | none => some ([], none, m)
    | some best_thread =>
      if edf_must_postpone current_time (m best_thread) then
        match edf_cbs_loop_log current_time run_queue fuel
            (m.set best_thread (edf_postpone current_time (m best_thread))) with
        | none => none
        | some res => some ((best_thread, m best_thread) :: res.1, res.2)
      else some ([], some best_thread, m)

/-- The postponements made by one call `schedule_edf_cbs(args)`, in order; the
paths that return before the loop make none. -/
def schedule_edf_cbs_log (fuel : Nat) (m : Heap) (args : threads_sched_args) :
    Option (List (Nat × thread)) :=
  let current_time := args.current_time
  let m1 := edf_unthrottle current_time m args.run_queue
  match __check_deadline_miss m1 args.run_queue current_time with
  | some _ => some []
  | none =>
    if args.run_queue = [] then some []
    else
      let m2 := edf_throttle current_time m1 args.run_queue
      match edf_cbs_loop_log current_time args.run_queue fuel m2 with
      | none => none
      | some res => some res.1

/-! ## 32-bit machine arithmetic

The definitions above compute with exact integers, as the claims that speak of
exact arithmetic do.  The definitions marked `_int32` below follow the same
source lines and reduce the result of every addition, subtraction and
multiplication to the range of a 32-bit two's-complement `int`, so that they
also describe the inputs on which the machine arithmetic wraps around. -/

/-- `INT_MIN` of `<limits.h>` for a 32-bit `int`. -/
def INT_MIN : Int := -2147483648

/-- The value of a C `int` operation whose mathematical result is `x`: `x`
reduced modulo `2^32` to the range `INT_MIN .. INT_MAX`. -/
def int32 (x : Int) : Int := (x + 2147483648) % 4294967296 - 2147483648

/-- The mathematical result `x` is representable as a 32-bit `int`: computing it
does not overflow. -/
def fits_int32 (x : Int) : Prop := -2147483648 ≤ x ∧ x ≤ 2147483647

instance (x : Int) : Decidable (fits_int32 x) := by
  unfold fits_int32; infer_instance

/-! ### Highest response ratio next, 32-bit -/

/-- Body of the loop of `schedule_hrrn` (source lines 46-65) with 32-bit
arithmetic: the waiting time, the numerator and both cross products are `int`
operations. -/
def hrrn_step_int32 (m : Heap) (current_time : Int) (st : hrrn_state) (th : Nat) :
    hrrn_state :=
  let waiting_time := int32 (current_time - (m th).arrival_time)
  let ratio_numerator := int32 (waiting_time + (m th).processing_time)
  let ratio_denominator := (m th).processing_time
  match st.selected_thread with
  | none => ⟨some th, ratio_numerator, ratio_denominator⟩
  | some selected_thread =>
    if int32 (ratio_numerator * st.highest_ratio_denominator) >
          int32 (st.highest_ratio_numerator * ratio_denominator) ∨
        (int32 (ratio_numerator * st.highest_ratio_denominator) =
            int32 (st.highest_ratio_numerator * ratio_denominator) ∧
          (m th).ID < (m selected_thread).ID) then
      ⟨some th, ratio_numerator, ratio_denominator⟩
    else st

/-- The loop of `schedule_hrrn` with 32-bit arithmetic. -/
def hrrn_loop_int32 (m : Heap) (current_time : Int) (run_queue : List Nat) : hrrn_state :=
  run_queue.foldl (hrrn_step_int32 m current_time) ⟨none, 0, 1⟩

/-- `schedule_hrrn(args)` with 32-bit arithmetic. -/
def schedule_hrrn_int32 (m : Heap) (args : threads_sched_args) : threads_sched_result :=
  match (hrrn_loop_int32 m args.current_time args.run_queue).selected_thread with
  | some selected_thread => ⟨some selected_thread, (m selected_thread).remaining_time⟩
  | none => ⟨none, 1⟩

/-! ### Deadline monotonic, 32-bit -/

/-- The decision of the empty-run-queue branch with 32-bit arithmetic:
`sleep_time = earliest_arrival - current_time` is an `int` subtraction. -/
def idle_result_int32 (release_queue : List release_queue_entry) (current_time : Int) :
    threads_sched_result :=
  let ea := earliest_arrival release_queue
  if ea ≠ INT_MAX then
    let sleep_time := int32 (ea - current_time)
    ⟨none, if sleep_time > 0 then sleep_time else 1⟩
  else ⟨none, 1⟩

/-- Body of the first loop of `schedule_edf_cbs` (step 1) with 32-bit
arithmetic: `current_deadline + period` is an `int` addition. -/
def edf_unthrottle_step_int32 (current_time : Int) (m : Heap) (th : Nat) : Heap :=
  if (m th).cbs.is_hard_rt = 0 ∧ (m th).cbs.is_throttled ≠ 0 ∧
      current_time ≥ (m th).current_deadline then
    m.set th
      { m th with
        cbs := { (m th).cbs with remaining_budget := (m th).cbs.budget, is_throttled := 0 }
        current_deadline := int32 ((m th).current_deadline + (m th).period) }
  else m

/-- Step 1 of `schedule_edf_cbs` with 32-bit arithmetic. -/
def edf_unthrottle_int32 (current_time : Int) (m : Heap) (run_queue : List Nat) : Heap :=
  run_queue.foldl (edf_unthrottle_step_int32 current_time) m

/-- The test of the bandwidth-preservation loop (source lines 377-385) with
32-bit arithmetic: `time_until_deadline` and both products are `int`
operations. -/
def edf_must_postpone_int32 (current_time : Int) (t : thread) : Prop :=
  t.cbs.is_hard_rt = 0 ∧ t.cbs.remaining_budget > 0 ∧
    (int32 (t.current_deadline - current_time) ≤ 0 ∨
      int32 (t.cbs.remaining_budget * t.period) >
        int32 (t.cbs.budget * int32 (t.current_deadline - current_time)))

instance (current_time : Int) (t : thread) :
    Decidable (edf_must_postpone_int32 current_time t) := by
  unfold edf_must_postpone_int32; infer_instance

/-- The postponement with 32-bit arithmetic: `current_time + period` is an
`int` addition. -/
def edf_postpone_int32 (current_time : Int) (t : thread) : thread :=
  { t with
    current_deadline := int32 (current_time + t.period)
    cbs := { t.cbs with remaining_budget := t.cbs.budget } }

/-- The `do ... while (changes_made)` loop of `schedule_edf_cbs` with 32-bit
arithmetic.  One unit of fuel is one iteration. -/
def edf_cbs_loop_int32 (current_time : Int) (run_queue : List Nat) :
    Nat → Heap → Option (Option Nat × Heap)
  | 0, _ => none
  | fuel + 1, m =>
    match edf_select m run_queue with
    | none => some (none, m)
    | some best_thread =>
      if edf_must_postpone_int32 current_time (m best_thread) then
        edf_cbs_loop_int32 current_time run_queue fuel
          (m.set best_thread (edf_postpone_int32 current_time (m best_thread)))
      else some (some best_thread, m)

/-- The loop `edf_cbs_loop_int32` with a record of its postponements, in order:
the postponed pointer and the thread record just before the assignment of the
new deadline. -/
def edf_cbs_loop_log_int32 (current_time : Int) (run_queue : List Nat) :
    Nat → Heap → Option (List (Nat × thread) × Option Nat × Heap)
  | 0, _ => none
  | fuel + 1, m =>
    match edf_select m run_queue with
    | none => some ([], none, m)
    | some best_thread =>
      if edf_must_postpone_int32 current_time (m best_thread) then
        match edf_cbs_loop_log_int32 current_time run_queue fuel
            (m.set best_thread (edf_postpone_int32 current_time (m best_thread))) with
        | none => none
        | some res => some ((best_thread, m best_thread) :: res.1, res.2)
      else some ([], some best_thread, m)

/-- Body of the release-queue loop (step 8.1) with 32-bit arithmetic. -/
def edf_arrival_step_int32 (current_time : Int) (best_thread : Nat) (st : Heap × Int)
    (entry : release_queue_entry) : Heap × Int :=
  let m := st.1
  let min_preemption_time := st.2
  if entry.release_time ≥ current_time ∧
      entry.release_time < int32 (current_time + min_preemption_time) then
    let arrival_thread := entry.thrd
    let original_deadline := (m arrival_thread).current_deadline
    let m1 := m.set arrival_thread
      { m arrival_thread with
        current_deadline := int32 (entry.release_time + (m arrival_thread).period) }
    let mpt :=
      if __edf_thread_cmp (m1 arrival_thread) (m1 best_thread) > 0 then
        let time_until_arrival := int32 (entry.release_time - current_time)
        if time_until_arrival < min_preemption_time then
          (if time_until_arrival > 0 then time_until_arrival else 1)
        else min_preemption_time
      else min_preemption_time
    (m1.set arrival_thread { m1 arrival_thread with current_deadline := original_deadline },
      mpt)
  else st

/-- Body of the throttled-thread loop (step 8.2) with 32-bit arithmetic. -/
def edf_replenish_step_int32 (current_time : Int) (best_thread : Nat) (st : Heap × Int)
    (th : Nat) : Heap × Int :=
  let m := st.1
  let min_preemption_time := st.2
  if (m th).cbs.is_hard_rt = 0 ∧ (m th).cbs.is_throttled ≠ 0 then
    if (m th).current_deadline ≥ current_time ∧
        (m th).current_deadline < int32 (current_time + min_preemption_time) then
      let original_throttled := (m th).cbs.is_throttled
      let original_budget := (m th).cbs.remaining_budget
      let original_deadline := (m th).current_deadline
      let m1 := m.set th
        { m th with
          cbs := { (m th).cbs with is_throttled := 0, remaining_budget := (m th).cbs.budget }
          current_deadline := int32 ((m th).current_deadline + (m th).period) }
      let mpt :=
        if __edf_thread_cmp (m1 th) (m1 best_thread) > 0 ∧ th ≠ best_thread then
          let time_until_replenish := int32 (original_deadline - current_time)
          if time_until_replenish < min_preemption_time then
            (if time_until_replenish > 0 then time_until_replenish else 1)
          else min_preemption_time
        else min_preemption_time
      (m1.set th
        { m1 th with
          cbs := { (m1 th).cbs with
                   is_throttled := original_throttled, remaining_budget := original_budget }
          current_deadline := original_deadline },
        mpt)
    else st
  else st

/-- Steps 7 and 8 of `schedule_edf_cbs` with 32-bit arithmetic. -/
def edf_lookahead_int32 (current_time : Int) (m : Heap) (args : threads_sched_args)
    (best_thread : Nat) : Heap × Int :=
  let allocated_time := edf_budget_cap (m best_thread)
  let st1 := args.release_queue.foldl (edf_arrival_step_int32 current_time best_thread)
    (m, allocated_time)
  args.run_queue.foldl (edf_replenish_step_int32 current_time best_thread) st1

/-- `schedule_edf_cbs(args)` with 32-bit arithmetic, returning the decision and
the heap it leaves; `none` only when the fuel runs out. -/
def schedule_edf_cbs_int32 (fuel : Nat) (m : Heap) (args : threads_sched_args) :
    Option (threads_sched_result × Heap) :=
  let current_time := args.current_time
  let m1 := edf_unthrottle_int32 current_time m args.run_queue
  match __check_deadline_miss m1 args.run_queue current_time with
  | some missed_deadline_thread => some (⟨some missed_deadline_thread, 0⟩, m1)
  | none =>
    if args.run_queue = [] then
      some (idle_result_int32 args.release_queue current_time, m1)
    else
      let m2 := edf_throttle current_time m1 args.run_queue
      match edf_cbs_loop_int32 current_time args.run_queue fuel m2 with
      | none => none
      | some (none, m3) => some (⟨none, 1⟩, m3)
      | some (some best_thread, m3) =>
        let st := edf_lookahead_int32 current_time m3 args best_thread
        let allocated_time := st.2
        some (⟨some best_thread, if allocated_time > 0 then allocated_time else 1⟩, st.1)

/-- The postponements made by one call of `schedule_edf_cbs` with 32-bit
arithmetic, in order. -/
def schedule_edf_cbs_log_int32 (fuel : Nat) (m : Heap) (args : threads_sched_args) :
    Option (List (Nat × thread)) :=
  let current_time := args.current_time
  let m1 := edf_unthrottle_int32 current_time m args.run_queue
  match __check_deadline_miss m1 args.run_queue current_time with
  | some _ => some []
  | none =>
    if args.run_queue = [] then some []
    else
      let m2 := edf_throttle current_time m1 args.run_queue
      match edf_cbs_loop_log_int32 current_time args.run_queue fuel m2 with
      | none => none
      | some res => some res.1

/-- No `int` operation that steps 1 and 5 of `schedule_edf_cbs` can perform on
the thread `t` at time `current_time` overflows: the deadline one period
later, the postponed deadline, the time until the deadline (before and after a
replenishment) and the products of the bandwidth test. -/
def edf_fits (current_time : Int) (t : thread) : Prop :=
  fits_int32 (t.current_deadline + t.period) ∧
  fits_int32 (current_time + t.period) ∧
  fits_int32 t.period ∧
  fits_int32 (t.current_deadline - current_time) ∧
  fits_int32 (t.current_deadline + t.period - current_time) ∧
  fits_int32 (t.cbs.remaining_budget * t.period) ∧
  fits_int32 (t.cbs.budget * t.period) ∧
  fits_int32 (t.cbs.budget * (t.current_deadline - current_time)) ∧
  fits_int32 (t.cbs.budget * (t.current_deadline + t.period - current_time))

instance (current_time : Int) (t : thread) : Decidable (edf_fits current_time t) := by
  unfold edf_fits; infer_instance

/-! ## A policy call as a transition of the memory -/

/-- What step 1 of `schedule_edf_cbs` does to one thread record. -/
def unthrottle_thread (current_time : Int) (t : thread) : thread :=
  if t.cbs.is_hard_rt = 0 ∧ t.cbs.is_throttled ≠ 0 ∧ current_time ≥ t.current_deadline then
    { t with
      cbs := { t.cbs with remaining_budget := t.cbs.budget, is_throttled := 0 }
      current_deadline := t.current_deadline + t.period }
  else t

/-- What the throttling loop of `schedule_edf_cbs` does to one thread record. -/
def throttle_thread (current_time : Int) (t : thread) : thread :=
  if t.cbs.is_hard_rt = 0 ∧ t.cbs.is_throttled = 0 ∧ t.cbs.remaining_budget ≤ 0 then
    { t with
      cbs := { t.cbs with is_throttled := 1, throttled_arrived_time := current_time } }
  else t

/-- A thread the selection loop of `schedule_edf_cbs` does not skip: it is not
a throttled soft thread. -/
def edf_eligible (t : thread) : Prop :=
  ¬ (t.cbs.is_hard_rt = 0 ∧ t.cbs.is_throttled ≠ 0)

instance (t : thread) : Decidable (edf_eligible t) := by
  unfold edf_eligible; infer_instance

/-- The EDF order: earlier `current_deadline`, or the same one and an `ID` that
is not larger. -/
def edf_before (a b : thread) : Prop :=
  a.current_deadline < b.current_deadline ∨
    (a.current_deadline = b.current_deadline ∧ a.ID ≤ b.ID)

/-- The DM order: smaller relative `deadline`, or the same one and an `ID` that
is not larger. -/
def dm_before (a b : thread) : Prop :=
  a.deadline < b.deadline ∨ (a.deadline = b.deadline ∧ a.ID ≤ b.ID)

/-- State of a thread just after a postponement that cannot be followed by
another one: budget replenished, deadline one period ahead, and a positive
period unless the nominal budget is not positive. -/
def edf_settled (current_time : Int) (t : thread) : Prop :=
  t.cbs.remaining_budget = t.cbs.budget ∧ t.current_deadline = current_time + t.period ∧
    (t.cbs.budget ≤ 0 ∨ 0 < t.period)

/-- Number of run-queue threads the bandwidth test would postpone. -/
def edf_pending (current_time : Int) (m : Heap) (run_queue : List Nat) : Nat :=
  run_queue.countP (fun p => decide (edf_must_postpone current_time (m p)))

/-- Erase the budget fields of a hard real-time thread; a soft thread is left
as it is. -/
def forget_hard_budget (t : thread) : thread :=
  if t.cbs.is_hard_rt = 0 then t
  else { t with cbs := { t.cbs with budget := 0, remaining_budget := 0 } }

/-- The heap with the budget fields of every hard real-time thread erased. -/
def Heap.forget (m : Heap) : Heap := fun p => forget_hard_budget (m p)

/-- What step 1 of `schedule_edf_cbs` does to one thread record, with 32-bit
arithmetic. -/
def unthrottle_thread_int32 (current_time : Int) (t : thread) : thread :=
  if t.cbs.is_hard_rt = 0 ∧ t.cbs.is_throttled ≠ 0 ∧ current_time ≥ t.current_deadline then
    { t with
      cbs := { t.cbs with remaining_budget := t.cbs.budget, is_throttled := 0 }
      current_deadline := int32 (t.current_deadline + t.period) }
  else t

/-- The `int` operations of the bandwidth test and of the postponement on the
thread `t` do not overflow, before and after a postponement. -/
def edf_test_fits (current_time : Int) (t : thread) : Prop :=
  fits_int32 (current_time + t.period) ∧
  fits_int32 t.period ∧
  fits_int32 (t.current_deadline - current_time) ∧
  fits_int32 (t.cbs.remaining_budget * t.period) ∧
  fits_int32 (t.cbs.budget * t.period) ∧
  fits_int32 (t.cbs.budget * (t.current_deadline - current_time))

/-! ## The allocation formula of the specification (EDF+CBS, step 7) -/

/-- The pair `(d1, i1)` is lexicographically smaller than `(d2, i2)`. -/
def lex_smaller (d1 i1 d2 i2 : Int) : Prop := d1 < d2 ∨ (d1 = d2 ∧ i1 < i2)

instance (d1 i1 d2 i2 : Int) : Decidable (lex_smaller d1 i1 d2 i2) := by
  unfold lex_smaller; infer_instance

/-- Specification side: the caps contributed by the release queue, one value
`max (r - current_time) 1` for every entry `(r, th)` with `r ≥ current_time`
whose thread, once given the deadline `r + th.period`, would outrank `b`. -/
def spec_arrival_caps (m : Heap) (current_time : Int) (b : thread)
    (release_queue : List release_queue_entry) : List Int :=
  (release_queue.filter (fun e =>
      decide (e.release_time ≥ current_time ∧
        lex_smaller (e.release_time + (m e.thrd).period) (m e.thrd).ID
          b.current_deadline b.ID))).map
    (fun e => max (e.release_time - current_time) 1)

/-- Specification side: the caps contributed by throttled soft threads of the
run queue, one value `d - current_time` for every such thread with deadline `d`
that, once replenished to the deadline `d + period`, would outrank `b`. -/
def spec_replenish_caps (m : Heap) (current_time : Int) (b : thread)
    (run_queue : List Nat) : List Int :=
  (run_queue.filter (fun p =>
      decide (((m p).cbs.is_hard_rt = 0 ∧ (m p).cbs.is_throttled ≠ 0) ∧
        lex_smaller ((m p).current_deadline + (m p).period) (m p).ID
          b.current_deadline b.ID))).map
    (fun p => (m p).current_deadline - current_time)

/-- Minimum of `a` and the members of `caps`. -/
def min_with (a : Int) (caps : List Int) : Int := caps.foldl min a

/-- Specification side: `A`, the remaining time of `b`, capped by the remaining
budget when `b` is soft. -/
def spec_base_allocation (b : thread) : Int :=
  if b.cbs.is_hard_rt ≠ 0 then b.remaining_time
  else min b.remaining_time b.cbs.remaining_budget

/-- Specification side: `max(1, min(A, P, Q))` for the selected thread at
pointer `b`, read on heap `m`. -/
def spec_allocation (m : Heap) (current_time : Int) (b : Nat) (run_queue : List Nat)
    (release_queue : List release_queue_entry) : Int :=
  max 1
    (min_with
      (min_with (spec_base_allocation (m b))
        (spec_arrival_caps m current_time (m b) release_queue))
      (spec_replenish_caps m current_time (m b) run_queue))

/-! ## The preemption lookahead of the specification (DM, step 4) -/

/-- Specification side: the first entry of the list attaining the smallest
`release_time`, if the list is not empty. -/
def spec_first_min_release (release_queue : List release_queue_entry) :
    Option release_queue_entry :=
  release_queue.foldl
    (fun acc e =>
      match acc with
      | none => some e
      | some a => if e.release_time < a.release_time then some e else some a)
    none

/-- Specification side: the DM allocation for the selected thread at pointer
`b`, given the earliest release-queue entry `e` (if any): 1 when `e` is
overdue; the time until `e` arrives when it arrives before `b` would finish and
its thread has a smaller deadline than `b`, or the same deadline and a smaller
`ID`; the full `remaining_time` of `b` in every other case. -/
def spec_dm_allocation (m : Heap) (current_time : Int) (b : Nat)
    (e : Option release_queue_entry) : Int :=
  match e with
  | none => (m b).remaining_time
  | some e =>
    if e.release_time ≤ current_time then 1
    else if current_time < e.release_time ∧
        e.release_time < current_time + (m b).remaining_time ∧
        ((m e.thrd).deadline < (m b).deadline ∨
          ((m e.thrd).deadline = (m b).deadline ∧ (m e.thrd).ID < (m b).ID)) then
      e.release_time - current_time
    else (m b).remaining_time

/-! ## The response ratio of the specification (HRRN) -/

/-- Specification side: the response ratio
`(current_time - arrival_time + processing_time) / processing_time` as an exact
rational number. -/
def response_ratio (current_time : Int) (t : thread) : ℚ :=
  ((current_time - t.arrival_time + t.processing_time : Int) : ℚ) /
    ((t.processing_time : Int) : ℚ)

/-! ## Concrete scenarios -/

/-- A hard real-time thread record: `ID`, `remaining_time`, `period`,
relative `deadline`, `current_deadline`. -/
def hard_thread (id remaining_time period deadline current_deadline : Int) : thread :=
  { ID := id, arrival_time := 0, processing_time := remaining_time,
    remaining_time := remaining_time, priority := 0, period := period,
    deadline := deadline, current_deadline := current_deadline,
    cbs := { budget := 0, remaining_budget := 0, is_hard_rt := 1, is_throttled := 0,
             throttled_arrived_time := 0 } }

/-- A soft real-time thread record: `ID`, `remaining_time`, `period`,
`current_deadline`, `budget`, `remaining_budget`, `is_throttled`. -/
def soft_thread (id remaining_time period current_deadline budget remaining_budget
    is_throttled : Int) : thread :=
  { ID := id, arrival_time := 0, processing_time := remaining_time,
    remaining_time := remaining_time, priority := 0, period := period,
    deadline := period, current_deadline := current_deadline,
    cbs := { budget := budget, remaining_budget := remaining_budget, is_hard_rt := 0,
             is_throttled := is_throttled, throttled_arrived_time := 0 } }

/-- Heap holding the listed thread records at pointers `0, 1, ...`; any other
pointer holds the record `d`. -/
def heap_of (ts : List thread) (d : thread) : Heap := fun p => ts.getD p d

/-- Scenario of the spec: at time 4 a soft thread with `budget = 2`,
`period = 10`, `current_deadline = 5`, `remaining_budget = 2` (pointer 1) next
to a hard thread with deadline 20 (pointer 0). -/
def bw_heap : Heap :=
  heap_of [hard_thread 1 3 20 20 20, soft_thread 2 5 10 5 2 2 0] (hard_thread 0 0 0 0 0)

/-- Arguments of the bandwidth scenario. -/
def bw_args : threads_sched_args :=
  { current_time := 4, run_queue := [0, 1], release_queue := [] }

/-- Outcome of the bandwidth scenario. -/
def bw_out : threads_sched_result × Heap :=
  (schedule_edf_cbs 3 bw_heap bw_args).getD (⟨none, 0⟩, bw_heap)

/-- Selection scenario at time 4: a hard thread with deadline 20 (pointer 0), a
throttled soft thread with deadline 8 (pointer 1) and a soft thread with
deadline 12 and budget left (pointer 2). -/
def sel_heap : Heap :=
  heap_of [hard_thread 1 3 20 20 20, soft_thread 2 5 10 8 2 0 1, soft_thread 3 5 12 12 3 1 0]
    (hard_thread 0 0 0 0 0)

/-- Arguments of the selection scenario. -/
def sel_args : threads_sched_args :=
  { current_time := 4, run_queue := [0, 1, 2], release_queue := [] }

/-- Outcome of the selection scenario. -/
def sel_out : threads_sched_result × Heap :=
  (schedule_edf_cbs 4 sel_heap sel_args).getD (⟨none, 0⟩, sel_heap)

/-- Lookahead scenario at time 0: a hard thread with deadline 100 and 50 ticks
of work (pointer 0) and a throttled soft thread with deadline 30 and period 20
(pointer 1) in the run queue; the release queue announces a hard thread with
period 40 (pointer 2) at time 12 and one with period 200 (pointer 3) at
time 3. -/
def look_heap : Heap :=
  heap_of [hard_thread 2 50 100 100 100, soft_thread 5 4 20 30 3 0 1,
    hard_thread 1 10 40 40 0, hard_thread 3 10 200 200 0] (hard_thread 0 0 0 0 0)

/-- Arguments of the lookahead scenario. -/
def look_args : threads_sched_args :=
  { current_time := 0, run_queue := [0, 1], release_queue := [⟨12, 2⟩, ⟨3, 3⟩] }

/-- Outcome of the lookahead scenario. -/
def look_out : threads_sched_result × Heap :=
  (schedule_edf_cbs 3 look_heap look_args).getD (⟨none, 0⟩, look_heap)

/-- Postponement scenario of the spec: at time 4 a single soft thread with
`budget = 2`, `period = 10`, `current_deadline = 5` and `remaining_budget = 2`
(pointer 0). -/
def post_heap : Heap :=
  heap_of [soft_thread 1 5 10 5 2 2 0] (hard_thread 0 0 0 0 0)

/-- Arguments of the postponement scenario. -/
def post_args : threads_sched_args :=
  { current_time := 4, run_queue := [0], release_queue := [] }

/-- Outcome of the postponement scenario. -/
def post_out : threads_sched_result × Heap :=
  (schedule_edf_cbs 2 post_heap post_args).getD (⟨none, 0⟩, post_heap)

/-- Throttling scenario at time 4: a soft thread with an exhausted budget and
the earliest deadline (pointer 0) next to a hard thread with deadline 20
(pointer 1). -/
def thr_heap : Heap :=
  heap_of [soft_thread 2 5 10 6 2 0 0, hard_thread 1 3 20 20 20] (hard_thread 0 0 0 0 0)

/-- Arguments of the throttling scenario. -/
def thr_args : threads_sched_args :=
  { current_time := 4, run_queue := [0, 1], release_queue := [] }

/-- Outcome of the throttling scenario. -/
def thr_out : threads_sched_result × Heap :=
  (schedule_edf_cbs 3 thr_heap thr_args).getD (⟨none, 0⟩, thr_heap)

/-- Allocation scenario at time 0: a soft thread with 9 ticks of work,
`budget = 4`, `remaining_budget = 3` and deadline 20 (pointer 0) next to a hard
thread with deadline 50 (pointer 1). -/
def cap_heap : Heap :=
  heap_of [soft_thread 2 9 20 20 4 3 0, hard_thread 1 6 50 50 50] (hard_thread 0 0 0 0 0)

/-- Arguments of the allocation scenario. -/
def cap_args : threads_sched_args :=
  { current_time := 0, run_queue := [0, 1], release_queue := [] }

/-- Outcome of the allocation scenario. -/
def cap_out : threads_sched_result × Heap :=
  (schedule_edf_cbs 3 cap_heap cap_args).getD (⟨none, 0⟩, cap_heap)

/-- Second allocation scenario at time 0: a hard thread with 6 ticks of work,
deadline 10 and budget fields 0 (pointer 0) next to a soft thread with
deadline 20 (pointer 1). -/
def hard_heap : Heap :=
  heap_of [hard_thread 1 6 50 10 10, soft_thread 2 9 40 20 4 2 0] (hard_thread 0 0 0 0 0)

/-- Arguments of the second allocation scenario. -/
def hard_args : threads_sched_args :=
  { current_time := 0, run_queue := [0, 1], release_queue := [] }

/-- Outcome of the second allocation scenario. -/
def hard_out : threads_sched_result × Heap :=
  (schedule_edf_cbs 3 hard_heap hard_args).getD (⟨none, 0⟩, hard_heap)

/-- DM thread record: `ID`, `remaining_time`, relative `deadline`,
`current_deadline`. -/
def dm_thread (id remaining_time deadline current_deadline : Int) : thread :=
  hard_thread id remaining_time deadline deadline current_deadline

/-- DM scenario of the spec at time 5: T1 with `deadline = 5` and
`current_deadline = 5` (pointer 0), T2 and T3 with smaller relative deadlines
(pointers 1 and 2), T3 waiting in the release queue. -/
def dm_miss_heap : Heap :=
  heap_of [dm_thread 1 2 5 5, dm_thread 2 3 3 8, dm_thread 3 1 2 9] (dm_thread 0 0 0 0)

/-- Arguments of the DM deadline-miss scenario. -/
def dm_miss_args : threads_sched_args :=
  { current_time := 5, run_queue := [1, 0], release_queue := [⟨6, 2⟩] }

/-- DM scenario at time 0: threads with relative deadlines 9 and 7 in the run
queue (pointers 0 and 1, 6 and 8 ticks of work), and in the release queue a
thread with deadline 4 (pointer 2) arriving at time 5 after an entry for a
thread with deadline 20 (pointer 3) arriving at time 6. -/
def dm_look_heap : Heap :=
  heap_of [dm_thread 1 6 9 30, dm_thread 2 8 7 40, dm_thread 3 2 4 0, dm_thread 4 2 20 0]
    (dm_thread 0 0 0 0)

/-- Arguments of the DM lookahead scenario. -/
def dm_look_args : threads_sched_args :=
  { current_time := 0, run_queue := [0, 1], release_queue := [⟨6, 3⟩, ⟨5, 2⟩] }

/-- Non-real-time thread record: `ID`, `arrival_time`, `processing_time`,
`remaining_time`, `priority`. -/
def plain_thread (id arrival_time processing_time remaining_time priority : Int) : thread :=
  { ID := id, arrival_time := arrival_time, processing_time := processing_time,
    remaining_time := remaining_time, priority := priority, period := 0,
    deadline := 0, current_deadline := 0,
    cbs := { budget := 0, remaining_budget := 0, is_hard_rt := 0, is_throttled := 0,
             throttled_arrived_time := 0 } }

/-- Default-policy scenario: threads with IDs 3, 1 and 2 at pointers 0, 1, 2,
with 4, 7 and 5 ticks of work. -/
def fcfs_heap : Heap :=
  heap_of [plain_thread 3 0 4 4 0, plain_thread 1 0 9 7 0, plain_thread 2 0 5 5 0]
    (plain_thread 0 0 0 0 0)

/-- Arguments of the default-policy scenario. -/
def fcfs_args : threads_sched_args :=
  { current_time := 2, run_queue := [0, 1, 2], release_queue := [] }

/-- HRRN scenario at time 10: ratios 13/4 (pointer 0, ID 3), 5/2 (pointer 1,
ID 1) and 13/4 (pointer 2, ID 2). -/
def hrrn_heap : Heap :=
  heap_of [plain_thread 3 1 4 4 0, plain_thread 1 4 4 3 0, plain_thread 2 1 4 6 0]
    (plain_thread 0 0 1 0 0)

/-- Arguments of the HRRN scenario. -/
def hrrn_args : threads_sched_args :=
  { current_time := 10, run_queue := [0, 1, 2], release_queue := [] }

/-- Priority-RR scenario: priorities 5, 1, 3, 1, 1 at pointers 0 to 4, with
remaining times 4, 7, 2, 1, 9. -/
def rr_heap : Heap :=
  heap_of [plain_thread 1 0 4 4 5, plain_thread 2 0 7 7 1, plain_thread 3 0 2 2 3,
    plain_thread 4 0 1 1 1, plain_thread 5 0 9 9 1] (plain_thread 0 0 0 0 0)

/-- Arguments of the priority-RR scenario with contention. -/
def rr_args : threads_sched_args :=
  { current_time := 0, run_queue := [0, 1, 2, 3, 4], release_queue := [] }

/-- Arguments of the priority-RR scenario without contention: only one thread
of priority 1 is queued. -/
def rr_solo_args : threads_sched_args :=
  { current_time := 0, run_queue := [0, 1, 2], release_queue := [] }

/-- Alternation scenario of the spec: T1 and T2 with priority 1 and 5 ticks of
work each (pointers 0 and 1). -/
def alt_heap : Heap :=
  heap_of [plain_thread 1 0 5 5 1, plain_thread 2 0 5 5 1] (plain_thread 0 0 0 0 0)

/-- The alternation scenario after T1 has run for 2 ticks. -/
def alt_heap1 : Heap :=
  heap_of [plain_thread 1 0 5 3 1, plain_thread 2 0 5 5 1] (plain_thread 0 0 0 0 0)

/-- The alternation scenario after T1 and T2 have run for 2 ticks each. -/
def alt_heap2 : Heap :=
  heap_of [plain_thread 1 0 5 3 1, plain_thread 2 0 5 3 1] (plain_thread 0 0 0 0 0)

/-- Three calls of the alternation scenario, at times 0, 2 and 4. -/
def alt_calls : List (Heap × Int) := [(alt_heap, 0), (alt_heap1, 2), (alt_heap2, 4)]

/-- All-throttled scenario at time 0: the run queue holds one throttled soft
thread whose deadline 10 lies ahead (pointer 0). -/
def idle_heap : Heap :=
  heap_of [soft_thread 1 5 10 10 2 0 1] (hard_thread 0 0 0 0 0)

/-- Arguments of the all-throttled scenario. -/
def idle_args : threads_sched_args :=
  { current_time := 0, run_queue := [0], release_queue := [] }

/-- Outcome of the all-throttled scenario. -/
def idle_out : threads_sched_result × Heap :=
  (schedule_edf_cbs 2 idle_heap idle_args).getD (⟨none, 0⟩, idle_heap)

/-- Idle scenario at time 0: the run queue is empty and the release queue
announces arrivals at times 9 and 5. -/
def wake_args : threads_sched_args :=
  { current_time := 0, run_queue := [], release_queue := [⟨9, 1⟩, ⟨5, 0⟩] }

/-- Double-postponement scenario at time 0: two soft threads, both failing the
bandwidth test; pointer 0 has `budget = 4`, `period = 10`, deadline 5 and
pointer 1 has `budget = 3`, `period = 12`, deadline 6. -/
def multi_heap : Heap :=
  heap_of [soft_thread 1 5 10 5 4 4 0, soft_thread 2 5 12 6 3 3 0] (hard_thread 0 0 0 0 0)

/-- Arguments of the double-postponement scenario. -/
def multi_args : threads_sched_args :=
  { current_time := 0, run_queue := [0, 1], release_queue := [] }

/-- Outcome of the double-postponement scenario. -/
def multi_out : threads_sched_result × Heap :=
  (schedule_edf_cbs 3 multi_heap multi_args).getD (⟨none, 0⟩, multi_heap)

/-- HRRN scenario with a thread of `processing_time = 0` that has just arrived:
pointer 0 has ID 1, arrival time 0 and 5 ticks of work, pointer 1 has ID 2,
arrival time 3 and `processing_time = 0`. -/
def zero_heap : Heap :=
  heap_of [plain_thread 1 0 5 5 0, plain_thread 2 3 0 0 0] (plain_thread 0 0 1 0 0)

/-- Arguments of the scenario at time 3, when pointer 1 has waited 0 ticks. -/
def zero_args : threads_sched_args :=
  { current_time := 3, run_queue := [0, 1], release_queue := [] }

/-- The same scenario with the run queue in the other order. -/
def zero_args_rev : threads_sched_args :=
  { current_time := 3, run_queue := [1, 0], release_queue := [] }

/-- The same threads at time 5, when pointer 1 has waited 2 ticks. -/
def zero_args_late : threads_sched_args :=
  { current_time := 5, run_queue := [0, 1], release_queue := [] }

/-- DM scenario at time 0: one thread with relative deadline 5 and 10 ticks of
work in the run queue (pointer 0); the release queue announces a thread with
relative deadline 9 (pointer 1) at time 2 and a thread with relative deadline 3
(pointer 2) at time 4. -/
def dm_later_heap : Heap :=
  heap_of [dm_thread 1 10 5 100, dm_thread 2 3 9 0, dm_thread 3 2 3 0] (dm_thread 0 0 0 0)

/-- Arguments of the DM scenario with a later arrival of higher priority. -/
def dm_later_args : threads_sched_args :=
  { current_time := 0, run_queue := [0], release_queue := [⟨2, 1⟩, ⟨4, 2⟩] }

/-- HRRN scenario in which a cross product wraps around: pointer 0 has ID 1,
arrival time 0 and `processing_time = 65536`, pointer 1 has ID 2, arrival time 0
and `processing_time = 0`. -/
def wrap_heap : Heap :=
  heap_of [plain_thread 1 0 65536 65536 0, plain_thread 2 0 0 0 0] (plain_thread 0 0 1 0 0)

/-- Arguments of the wrapping HRRN scenario at time 65536, when both threads
have waited 65536 ticks. -/
def wrap_args : threads_sched_args :=
  { current_time := 65536, run_queue := [0, 1], release_queue := [] }

/-- The same scenario with the run queue in the other order. -/
def wrap_args_rev : threads_sched_args :=
  { current_time := 65536, run_queue := [1, 0], release_queue := [] }

/-- Postponement scenario in which a product of the bandwidth test wraps
around: at time 0 a single soft thread with `budget = 65536`,
`remaining_budget = 1`, `period = 5` and `current_deadline = 32768`
(pointer 0). -/
def back_heap : Heap :=
  heap_of [soft_thread 1 5 5 32768 65536 1 0] (hard_thread 0 0 0 0 0)

/-- Arguments of the wrapping postponement scenario. -/
def back_args : threads_sched_args :=
  { current_time := 0, run_queue := [0], release_queue := [] }

/-- Outcome of the wrapping postponement scenario with 32-bit arithmetic. -/
def back_out : threads_sched_result × Heap :=
  (schedule_edf_cbs_int32 2 back_heap back_args).getD (⟨none, 0⟩, back_heap)

/-- Outcome of the double-postponement scenario with 32-bit arithmetic. -/
def multi_out_int32 : threads_sched_result × Heap :=
  (schedule_edf_cbs_int32 3 multi_heap multi_args).getD (⟨none, 0⟩, multi_heap)

/-- Replenishment scenario at time 10: a throttled soft thread with
`current_deadline = 10`, `period = 5` and `budget = 1` (pointer 0), and a soft
thread that is not throttled, with `current_deadline = 16`, `period = 10`,
`budget = 2` and `remaining_budget = 2` (pointer 1). -/
def ahead_heap : Heap :=
  heap_of [soft_thread 1 3 5 10 1 0 1, soft_thread 2 4 10 16 2 2 0] (hard_thread 0 0 0 0 0)

/-- Arguments of the replenishment scenario. -/
def ahead_args : threads_sched_args :=
  { current_time := 10, run_queue := [0, 1], release_queue := [] }

/-- Outcome of the replenishment scenario with 32-bit arithmetic. -/
def ahead_out : threads_sched_result × Heap :=
  (schedule_edf_cbs_int32 3 ahead_heap ahead_args).getD (⟨none, 0⟩, ahead_heap)

/-- Outcome of the postponement scenario of the spec with 32-bit arithmetic. -/
def post_out_int32 : threads_sched_result × Heap :=
  (schedule_edf_cbs_int32 2 post_heap post_args).getD (⟨none, 0⟩, post_heap)

theorem Heap.set_apply (m : Heap) (p q : Nat) (t : thread) :
    (m.set p t) q = if q = p then t else m q := rfl

theorem Heap.set_same (m : Heap) (p : Nat) (t : thread) : (m.set p t) p = t := by
  simp [Heap.set]

theorem Heap.set_other (m : Heap) (p q : Nat) (t : thread) (h : q ≠ p) :
    (m.set p t) q = m q := by
  simp [Heap.set, h]

/-- A loop that rewrites each visited thread with an idempotent function `f`
rewrites exactly the threads of the queue. -/
theorem foldl_pointwise (f : thread → thread) (hf : ∀ t, f (f t) = f t)
    (step : Heap → Nat → Heap)
    (hstep : ∀ m p q, step m p q = if q = p then f (m p) else m q) :
    ∀ (rq : List Nat) (m : Heap) (q : Nat),
      (rq.foldl step m) q = if q ∈ rq then f (m q) else m q := by
  intro rq
  induction rq with
  | nil => intro m q; simp
  | cons x xs ih =>
    intro m q
    rw [List.foldl_cons, ih (step m x) q, hstep]
    by_cases hx : q = x
    · subst hx
      simp [hf]
    · by_cases hq : q ∈ xs <;> simp [hx, hq]

theorem edf_unthrottle_step_apply (ct : Int) (m : Heap) (p q : Nat) :
    edf_unthrottle_step ct m p q = if q = p then unthrottle_thread ct (m p) else m q := by
  unfold edf_unthrottle_step unthrottle_thread
  by_cases hq : q = p
  · subst hq
    split <;> simp [Heap.set]
  · split <;> simp [Heap.set, hq]

theorem unthrottle_thread_idem (ct : Int) (t : thread) :
    unthrottle_thread ct (unthrottle_thread ct t) = unthrottle_thread ct t := by
  unfold unthrottle_thread
  split
  · simp
  · rename_i h; simp [h]

theorem edf_unthrottle_apply (ct : Int) (m : Heap) (rq : List Nat) (q : Nat) :
    edf_unthrottle ct m rq q = if q ∈ rq then unthrottle_thread ct (m q) else m q :=
  foldl_pointwise (unthrottle_thread ct) (unthrottle_thread_idem ct) _
    (edf_unthrottle_step_apply ct) rq m q

theorem edf_throttle_step_apply (ct : Int) (m : Heap) (p q : Nat) :
    edf_throttle_step ct m p q = if q = p then throttle_thread ct (m p) else m q := by
  unfold edf_throttle_step throttle_thread
  by_cases hq : q = p
  · subst hq
    split <;> simp [Heap.set]
  · split <;> simp [Heap.set, hq]

theorem throttle_thread_idem (ct : Int) (t : thread) :
    throttle_thread ct (throttle_thread ct t) = throttle_thread ct t := by
  unfold throttle_thread
  split
  · simp
  · rename_i h; simp [h]

theorem edf_throttle_apply (ct : Int) (m : Heap) (rq : List Nat) (q : Nat) :
    edf_throttle ct m rq q = if q ∈ rq then throttle_thread ct (m q) else m q :=
  foldl_pointwise (throttle_thread ct) (throttle_thread_idem ct) _
    (edf_throttle_step_apply ct) rq m q

/-! ## Selection loops -/

theorem check_deadline_miss_spec (m : Heap) (ct : Int) (rq : List Nat) :
    match __check_deadline_miss m rq ct with
    | none => ∀ p ∈ rq, ct < (m p).current_deadline
    | some p => p ∈ rq ∧ (m p).current_deadline ≤ ct ∧
        ∀ q ∈ rq, (m q).current_deadline ≤ ct → (m p).ID ≤ (m q).ID := by
  unfold __check_deadline_miss
  induction rq using List.reverseRecOn with
  | nil => simp
  | append_singleton l x ih =>
    rw [List.foldl_append, List.foldl_cons, List.foldl_nil]
    generalize List.foldl (check_deadline_miss_step m ct) none l = acc at ih
    unfold check_deadline_miss_step
    by_cases hx : (m x).current_deadline ≤ ct
    · cases acc with
      | none =>
        rw [if_pos hx]; dsimp only
        refine ⟨by simp, hx, ?_⟩
        intro q hq hqm
        rcases List.mem_append.1 hq with h | h
        · have := ih q h
          omega
        · simp at h
          subst h
          exact le_refl _
      | some b =>
        rw [if_pos hx]; dsimp only
        obtain ⟨hb, hbm, hmin⟩ := ih
        by_cases hlt : (m x).ID < (m b).ID
        · rw [if_pos hlt]; dsimp only
          refine ⟨by simp, hx, ?_⟩
          intro q hq hqm
          rcases List.mem_append.1 hq with h | h
          · have := hmin q h hqm
            omega
          · simp at h
            subst h
            exact le_refl _
        · rw [if_neg hlt]; dsimp only
          refine ⟨by simp [hb], hbm, ?_⟩
          intro q hq hqm
          rcases List.mem_append.1 hq with h | h
          · exact hmin q h hqm
          · simp at h
            subst h
            omega
    · rw [if_neg hx]
      cases acc with
      | none =>
        intro p hp
        rcases List.mem_append.1 hp with h | h
        · exact ih p h
        · simp at h
          subst h
          omega
      | some b =>
        obtain ⟨hb, hbm, hmin⟩ := ih
        refine ⟨by simp [hb], hbm, ?_⟩
        intro q hq hqm
        rcases List.mem_append.1 hq with h | h
        · exact hmin q h hqm
        · simp at h
          subst h
          exact absurd hqm hx

theorem check_deadline_miss_none (m : Heap) (ct : Int) (rq : List Nat)
    (h : __check_deadline_miss m rq ct = none) : ∀ p ∈ rq, ct < (m p).current_deadline := by
  have := check_deadline_miss_spec m ct rq
  rw [h] at this
  exact this

theorem check_deadline_miss_some (m : Heap) (ct : Int) (rq : List Nat) (p : Nat)
    (h : __check_deadline_miss m rq ct = some p) :
    p ∈ rq ∧ (m p).current_deadline ≤ ct ∧
      ∀ q ∈ rq, (m q).current_deadline ≤ ct → (m p).ID ≤ (m q).ID := by
  have := check_deadline_miss_spec m ct rq
  rw [h] at this
  exact this

theorem edf_thread_cmp_pos (a b : thread) :
    __edf_thread_cmp a b > 0 ↔
      (a.current_deadline < b.current_deadline ∨
        (a.current_deadline = b.current_deadline ∧ a.ID < b.ID)) := by
  unfold __edf_thread_cmp
  split_ifs <;> constructor <;> intro h <;> omega

theorem dm_thread_cmp_pos (a b : thread) :
    __dm_thread_cmp a b > 0 ↔
      (a.deadline < b.deadline ∨ (a.deadline = b.deadline ∧ a.ID < b.ID)) := by
  unfold __dm_thread_cmp
  split_ifs <;> constructor <;> intro h <;> omega

theorem edf_before_refl (a : thread) : edf_before a a := Or.inr ⟨rfl, le_refl _⟩

theorem edf_before_trans {a b c : thread} (h1 : edf_before a b) (h2 : edf_before b c) :
    edf_before a c := by
  unfold edf_before at *
  omega

theorem edf_select_spec (m : Heap) (rq : List Nat) :
    match edf_select m rq with
    | none => ∀ p ∈ rq, ¬ edf_eligible (m p)
    | some b => b ∈ rq ∧ edf_eligible (m b) ∧
        ∀ q ∈ rq, edf_eligible (m q) → edf_before (m b) (m q) := by
  unfold edf_select
  induction rq using List.reverseRecOn with
  | nil => simp
  | append_singleton l x ih =>
    rw [List.foldl_append, List.foldl_cons, List.foldl_nil]
    generalize List.foldl (edf_select_step m) none l = acc at ih
    unfold edf_select_step
    by_cases hx : (m x).cbs.is_hard_rt = 0 ∧ (m x).cbs.is_throttled ≠ 0
    · rw [if_pos hx]
      cases acc with
      | none =>
        intro p hp
        rcases List.mem_append.1 hp with h | h
        · exact ih p h
        · simp at h
          subst h
          exact fun he => he hx
      | some b =>
        obtain ⟨hb, hbe, hmin⟩ := ih
        refine ⟨by simp [hb], hbe, ?_⟩
        intro q hq hqe
        rcases List.mem_append.1 hq with h | h
        · exact hmin q h hqe
        · simp at h
          subst h
          exact absurd hx hqe
    · rw [if_neg hx]
      cases acc with
      | none =>
        dsimp only
        refine ⟨by simp, hx, ?_⟩
        intro q hq hqe
        rcases List.mem_append.1 hq with h | h
        · exact absurd hqe (ih q h)
        · simp at h
          subst h
          exact edf_before_refl _
      | some b =>
        dsimp only
        obtain ⟨hb, hbe, hmin⟩ := ih
        by_cases hc : __edf_thread_cmp (m x) (m b) > 0
        · rw [if_pos hc]
          dsimp only
          have hxb : edf_before (m x) (m b) := by
            have := (edf_thread_cmp_pos _ _).1 hc
            unfold edf_before
            omega
          refine ⟨by simp, hx, ?_⟩
          intro q hq hqe
          rcases List.mem_append.1 hq with h | h
          · exact edf_before_trans hxb (hmin q h hqe)
          · simp at h
            subst h
            exact edf_before_refl _
        · rw [if_neg hc]
          dsimp only
          refine ⟨by simp [hb], hbe, ?_⟩
          intro q hq hqe
          rcases List.mem_append.1 hq with h | h
          · exact hmin q h hqe
          · simp at h
            subst h
            have := (not_congr (edf_thread_cmp_pos (m q) (m b))).1 hc
            unfold edf_before
            omega

theorem edf_select_none (m : Heap) (rq : List Nat) (h : edf_select m rq = none) :
    ∀ p ∈ rq, ¬ edf_eligible (m p) := by
  have := edf_select_spec m rq
  rw [h] at this
  exact this

theorem edf_select_some (m : Heap) (rq : List Nat) (b : Nat) (h : edf_select m rq = some b) :
    b ∈ rq ∧ edf_eligible (m b) ∧
      ∀ q ∈ rq, edf_eligible (m q) → edf_before (m b) (m q) := by
  have := edf_select_spec m rq
  rw [h] at this
  exact this

theorem dm_before_refl (a : thread) : dm_before a a := Or.inr ⟨rfl, le_refl _⟩

theorem dm_before_trans {a b c : thread} (h1 : dm_before a b) (h2 : dm_before b c) :
    dm_before a c := by
  unfold dm_before at *
  omega

theorem dm_best_thread_spec (m : Heap) (rq : List Nat) :
    match dm_best_thread m rq with
    | none => rq = []
    | some b => b ∈ rq ∧ ∀ q ∈ rq, dm_before (m b) (m q) := by
  unfold dm_best_thread
  induction rq using List.reverseRecOn with
  | nil => simp
  | append_singleton l x ih =>
    rw [List.foldl_append, List.foldl_cons, List.foldl_nil]
    generalize List.foldl (dm_best_step m) none l = acc at ih
    unfold dm_best_step
    cases acc with
    | none =>
      dsimp only at ih ⊢
      subst ih
      refine ⟨by simp, ?_⟩
      intro q hq
      simp at hq
      subst hq
      exact dm_before_refl _
    | some b =>
      dsimp only at ih ⊢
      obtain ⟨hb, hmin⟩ := ih
      by_cases hc : __dm_thread_cmp (m x) (m b) > 0
      · rw [if_pos hc]
        dsimp only
        have hxb : dm_before (m x) (m b) := by
          have := (dm_thread_cmp_pos _ _).1 hc
          unfold dm_before
          omega
        refine ⟨by simp, ?_⟩
        intro q hq
        rcases List.mem_append.1 hq with h | h
        · exact dm_before_trans hxb (hmin q h)
        · simp at h
          subst h
          exact dm_before_refl _
      · rw [if_neg hc]
        dsimp only
        refine ⟨by simp [hb], ?_⟩
        intro q hq
        rcases List.mem_append.1 hq with h | h
        · exact hmin q h
        · simp at h
          subst h
          have := (not_congr (dm_thread_cmp_pos (m q) (m b))).1 hc
          unfold dm_before
          omega

theorem dm_best_thread_some (m : Heap) (rq : List Nat) (b : Nat)
    (h : dm_best_thread m rq = some b) : b ∈ rq ∧ ∀ q ∈ rq, dm_before (m b) (m q) := by
  have := dm_best_thread_spec m rq
  rw [h] at this
  exact this

theorem dm_best_thread_ne_none (m : Heap) (rq : List Nat) (hne : rq ≠ []) :
    dm_best_thread m rq ≠ none := by
  intro h
  have := dm_best_thread_spec m rq
  rw [h] at this
  exact hne this

/-! ## The speculative lookahead restores the heap -/

theorem Heap.set_set_restore (m : Heap) (p : Nat) (t : thread) :
    (m.set p t).set p (m p) = m := by
  funext q
  by_cases hq : q = p
  · subst hq; simp [Heap.set]
  · simp [Heap.set, hq]

theorem edf_arrival_step_heap (ct : Int) (b : Nat) (st : Heap × Int)
    (e : release_queue_entry) : (edf_arrival_step ct b st e).1 = st.1 := by
  unfold edf_arrival_step
  dsimp only
  split
  · dsimp only
    rw [Heap.set_same]
    exact Heap.set_set_restore _ _ _
  · rfl

theorem edf_replenish_step_heap (ct : Int) (b : Nat) (st : Heap × Int) (th : Nat) :
    (edf_replenish_step ct b st th).1 = st.1 := by
  unfold edf_replenish_step
  dsimp only
  split
  · split
    · dsimp only
      rw [Heap.set_same]
      exact Heap.set_set_restore _ _ _
    · rfl
  · rfl

theorem foldl_fst_const {α : Type} (step : Heap × Int → α → Heap × Int)
    (h : ∀ st x, (step st x).1 = st.1) :
    ∀ (l : List α) (st : Heap × Int), (l.foldl step st).1 = st.1 := by
  intro l
  induction l with
  | nil => intro st; rfl
  | cons x xs ih => intro st; rw [List.foldl_cons, ih, h]

theorem edf_lookahead_heap (ct : Int) (m : Heap) (args : threads_sched_args) (b : Nat) :
    (edf_lookahead ct m args b).1 = m := by
  unfold edf_lookahead
  dsimp only
  rw [foldl_fst_const _ (edf_replenish_step_heap ct b),
    foldl_fst_const _ (edf_arrival_step_heap ct b)]

/-! ## The bandwidth-preservation loop -/

/-- Invariant rule for the `do ... while` loop: a heap property kept by every
postponement of the selected thread holds on exit, where the returned thread is
the selection on the final heap and passes the bandwidth test. -/
theorem edf_cbs_loop_inv (ct : Int) (rq : List Nat) (I : Heap → Prop)
    (hI : ∀ m b, I m → edf_select m rq = some b → edf_must_postpone ct (m b) →
      I (m.set b (edf_postpone ct (m b)))) :
    ∀ (fuel : Nat) (m : Heap) (ob : Option Nat) (m' : Heap), I m →
      edf_cbs_loop ct rq fuel m = some (ob, m') →
      I m' ∧ edf_select m' rq = ob ∧ ∀ b, ob = some b → ¬ edf_must_postpone ct (m' b) := by
  intro fuel
  induction fuel with
  | zero => intro m ob m' _ h; simp [edf_cbs_loop] at h
  | succ n ih =>
    intro m ob m' hm h
    unfold edf_cbs_loop at h
    cases hsel : edf_select m rq with
    | none =>
      rw [hsel] at h
      simp only [Option.some.injEq, Prod.mk.injEq] at h
      obtain ⟨h1, h2⟩ := h
      subst h1 h2
      exact ⟨hm, hsel, by simp⟩
    | some b =>
      rw [hsel] at h
      dsimp only at h
      by_cases hp : edf_must_postpone ct (m b)
      · rw [if_pos hp] at h
        exact ih _ ob m' (hI m b hm hsel hp) h
      · rw [if_neg hp] at h
        simp only [Option.some.injEq, Prod.mk.injEq] at h
        obtain ⟨h1, h2⟩ := h
        subst h1 h2
        refine ⟨hm, hsel, ?_⟩
        intro b' hb'
        cases hb'
        exact hp

theorem edf_settled_not_postpone (ct : Int) (t : thread) (h : edf_settled ct t) :
    ¬ edf_must_postpone ct t := by
  obtain ⟨h1, h2, h3⟩ := h
  rintro ⟨_, hrb, hv⟩
  rcases h3 with h3 | h3
  · omega
  · rcases hv with hv | hv
    · omega
    · rw [h1, h2] at hv
      have : ct + t.period - ct = t.period := by ring
      rw [this] at hv
      exact lt_irrefl _ hv

theorem edf_postpone_settled (ct : Int) (t : thread) (hd : ct < t.current_deadline)
    (hp : edf_must_postpone ct t) : edf_settled ct (edf_postpone ct t) := by
  obtain ⟨_, hrb, hv⟩ := hp
  refine ⟨rfl, rfl, ?_⟩
  show t.cbs.budget ≤ 0 ∨ 0 < t.period
  by_cases hb : t.cbs.budget ≤ 0
  · exact Or.inl hb
  · right
    rcases hv with hv | hv
    · omega
    · by_contra hper
      have h1 : t.cbs.remaining_budget * t.period ≤ 0 :=
        mul_nonpos_of_nonneg_of_nonpos (le_of_lt hrb) (not_lt.1 hper)
      have h2 : 0 < t.cbs.budget * (t.current_deadline - ct) :=
        mul_pos (not_le.1 hb) (by omega)
      omega

theorem countP_lt_of_imp {α : Type} (p q : α → Bool) (l : List α) (b : α)
    (himp : ∀ x ∈ l, p x = true → q x = true) (hb : b ∈ l) (hq : q b = true)
    (hnp : p b = false) : l.countP p < l.countP q := by
  induction l with
  | nil => simp at hb
  | cons x xs ih =>
    have hle : xs.countP p ≤ xs.countP q :=
      List.countP_mono_left (fun y hy => himp y (List.mem_cons_of_mem _ hy))
    rcases List.mem_cons.1 hb with h | h
    · subst h
      rw [List.countP_cons_of_pos _ _ hq, List.countP_cons_of_neg _ _ (by simp [hnp])]
      omega
    · have := ih (fun y hy => himp y (List.mem_cons_of_mem _ hy)) h
      by_cases hpx : p x = true
      · rw [List.countP_cons_of_pos _ _ hpx,
          List.countP_cons_of_pos _ _ (himp x (List.mem_cons_self _ _) hpx)]
        omega
      · rw [List.countP_cons_of_neg _ _ hpx]
        by_cases hqx : q x = true
        · rw [List.countP_cons_of_pos _ _ hqx]; omega
        · rw [List.countP_cons_of_neg _ _ hqx]; omega

/-- The loop returns whenever it is entered without a passed deadline (or with
threads already settled) and the fuel exceeds the number of pending
postponements. -/
theorem edf_cbs_loop_returns (ct : Int) (rq : List Nat) :
    ∀ (fuel : Nat) (m : Heap),
      (∀ p ∈ rq, ct < (m p).current_deadline ∨ edf_settled ct (m p)) →
      edf_pending ct m rq < fuel →
      ∃ out, edf_cbs_loop ct rq fuel m = some out := by
  intro fuel
  induction fuel with
  | zero => intro m _ h; omega
  | succ n ih =>
    intro m hinv hlt
    unfold edf_cbs_loop
    cases hsel : edf_select m rq with
    | none => exact ⟨_, rfl⟩
    | some b =>
      dsimp only
      by_cases hp : edf_must_postpone ct (m b)
      · rw [if_pos hp]
        obtain ⟨hb, -, -⟩ := edf_select_some m rq b hsel
        have hdl : ct < (m b).current_deadline := by
          rcases hinv b hb with h | h
          · exact h
          · exact absurd hp (edf_settled_not_postpone ct _ h)
        have hset := edf_postpone_settled ct (m b) hdl hp
        apply ih
        · intro p hpm
          by_cases hpb : p = b
          · subst hpb
            rw [Heap.set_same]
            exact Or.inr hset
          · rw [Heap.set_other _ _ _ _ hpb]
            exact hinv p hpm
        · have : edf_pending ct (m.set b (edf_postpone ct (m b))) rq < edf_pending ct m rq := by
            unfold edf_pending
            apply countP_lt_of_imp _ _ rq b
            · intro x _ hx
              by_cases hxb : x = b
              · subst hxb
                rw [Heap.set_same] at hx
                exact absurd (of_decide_eq_true hx) (edf_settled_not_postpone ct _ hset)
              · rw [Heap.set_other _ _ _ _ hxb] at hx
                exact hx
            · exact hb
            · exact decide_eq_true hp
            · rw [Heap.set_same]
              exact decide_eq_false (edf_settled_not_postpone ct _ hset)
          omega
      · rw [if_neg hp]
        exact ⟨_, rfl⟩

theorem edf_pending_le (ct : Int) (m : Heap) (rq : List Nat) :
    edf_pending ct m rq ≤ rq.length := List.countP_le_length _

/-! ## Paths through `schedule_edf_cbs` -/

/-- The four ways `schedule_edf_cbs` returns: deadline miss, empty run queue,
every thread throttled, and the normal dispatch of the selected thread. -/
theorem schedule_edf_cbs_cases (fuel : Nat) (m : Heap) (args : threads_sched_args)
    (r : threads_sched_result) (m' : Heap)
    (h : schedule_edf_cbs fuel m args = some (r, m')) :
    (∃ p, __check_deadline_miss (edf_unthrottle args.current_time m args.run_queue)
          args.run_queue args.current_time = some p ∧
        r = ⟨some p, 0⟩ ∧ m' = edf_unthrottle args.current_time m args.run_queue) ∨
    (__check_deadline_miss (edf_unthrottle args.current_time m args.run_queue)
          args.run_queue args.current_time = none ∧ args.run_queue = [] ∧
        r = idle_result args.release_queue args.current_time ∧
        m' = edf_unthrottle args.current_time m args.run_queue) ∨
    (__check_deadline_miss (edf_unthrottle args.current_time m args.run_queue)
          args.run_queue args.current_time = none ∧ args.run_queue ≠ [] ∧
        edf_cbs_loop args.current_time args.run_queue fuel
          (edf_throttle args.current_time
            (edf_unthrottle args.current_time m args.run_queue) args.run_queue)
          = some (none, m') ∧
        r = ⟨none, 1⟩) ∨
    (∃ b, __check_deadline_miss (edf_unthrottle args.current_time m args.run_queue)
          args.run_queue args.current_time = none ∧ args.run_queue ≠ [] ∧
        edf_cbs_loop args.current_time args.run_queue fuel
          (edf_throttle args.current_time
            (edf_unthrottle args.current_time m args.run_queue) args.run_queue)
          = some (some b, m') ∧
        r = ⟨some b,
          if (edf_lookahead args.current_time m' args b).2 > 0 then
            (edf_lookahead args.current_time m' args b).2 else 1⟩) := by
  unfold schedule_edf_cbs at h
  dsimp only at h
  cases hc : __check_deadline_miss (edf_unthrottle args.current_time m args.run_queue)
      args.run_queue args.current_time with
  | some p =>
    rw [hc] at h
    simp only [Option.some.injEq, Prod.mk.injEq] at h
    exact Or.inl ⟨p, rfl, h.1.symm, h.2.symm⟩
  | none =>
    rw [hc] at h
    dsimp only at h
    by_cases he : args.run_queue = []
    · rw [if_pos he] at h
      simp only [Option.some.injEq, Prod.mk.injEq] at h
      exact Or.inr (Or.inl ⟨rfl, he, h.1.symm, h.2.symm⟩)
    · rw [if_neg he] at h
      cases hl : edf_cbs_loop args.current_time args.run_queue fuel
          (edf_throttle args.current_time
            (edf_unthrottle args.current_time m args.run_queue) args.run_queue) with
      | none => rw [hl] at h; simp at h
      | some out =>
        obtain ⟨ob, m3⟩ := out
        rw [hl] at h
        cases ob with
        | none =>
          simp only [Option.some.injEq, Prod.mk.injEq] at h
          obtain ⟨h1, h2⟩ := h
          subst h2
          exact Or.inr (Or.inr (Or.inl ⟨rfl, he, rfl, h1.symm⟩))
        | some b =>
          simp only [Option.some.injEq, Prod.mk.injEq] at h
          obtain ⟨h1, h2⟩ := h
          rw [edf_lookahead_heap] at h2
          subst h2
          exact Or.inr (Or.inr (Or.inr ⟨b, rfl, he, rfl, h1.symm⟩))

/-- A returned thread with a non-zero allocation comes from the normal path. -/
theorem schedule_edf_cbs_dispatch (fuel : Nat) (m : Heap) (args : threads_sched_args)
    (r : threads_sched_result) (m' : Heap) (s : Nat)
    (h : schedule_edf_cbs fuel m args = some (r, m'))
    (hs : r.scheduled_thread_list_member = some s) (ha : r.allocated_time ≠ 0) :
    __check_deadline_miss (edf_unthrottle args.current_time m args.run_queue)
        args.run_queue args.current_time = none ∧ args.run_queue ≠ [] ∧
      edf_cbs_loop args.current_time args.run_queue fuel
        (edf_throttle args.current_time
          (edf_unthrottle args.current_time m args.run_queue) args.run_queue)
        = some (some s, m') ∧
      r.allocated_time =
        if (edf_lookahead args.current_time m' args s).2 > 0 then
          (edf_lookahead args.current_time m' args s).2 else 1 := by
  rcases schedule_edf_cbs_cases fuel m args r m' h with
    ⟨p, _, hr, _⟩ | ⟨_, _, hr, _⟩ | ⟨_, _, _, hr⟩ | ⟨b, hc, he, hl, hr⟩
  · subst hr; exact absurd rfl ha
  · subst hr
    unfold idle_result at hs
    dsimp only at hs
    split at hs <;> simp at hs
  · subst hr; simp at hs
  · subst hr
    simp only [Option.some.injEq] at hs
    subst hs
    exact ⟨hc, he, hl, rfl⟩

theorem throttle_thread_current_deadline (ct : Int) (t : thread) :
    (throttle_thread ct t).current_deadline = t.current_deadline := by
  unfold throttle_thread; split <;> rfl

theorem throttle_thread_is_hard_rt (ct : Int) (t : thread) :
    (throttle_thread ct t).cbs.is_hard_rt = t.cbs.is_hard_rt := by
  unfold throttle_thread; split <;> rfl

theorem throttle_thread_remaining_budget (ct : Int) (t : thread) :
    (throttle_thread ct t).cbs.remaining_budget = t.cbs.remaining_budget := by
  unfold throttle_thread; split <;> rfl

theorem throttle_thread_budget (ct : Int) (t : thread) :
    (throttle_thread ct t).cbs.budget = t.cbs.budget := by
  unfold throttle_thread; split <;> rfl

/-- After the throttling loop a soft thread of the run queue is throttled or
has budget left. -/
theorem throttle_thread_soft (ct : Int) (t : thread)
    (hs : (throttle_thread ct t).cbs.is_hard_rt = 0)
    (ht : (throttle_thread ct t).cbs.is_throttled = 0) :
    0 < (throttle_thread ct t).cbs.remaining_budget := by
  unfold throttle_thread at *
  by_cases hc : t.cbs.is_hard_rt = 0 ∧ t.cbs.is_throttled = 0 ∧ t.cbs.remaining_budget ≤ 0
  · rw [if_pos hc] at ht
    simp at ht
  · rw [if_neg hc] at hs ht ⊢
    by_contra hlt
    exact hc ⟨hs, ht, not_lt.1 hlt⟩

/-- No deadline has passed when the `do ... while` loop is entered. -/
theorem edf_loop_entry_deadlines (m : Heap) (args : threads_sched_args)
    (hc : __check_deadline_miss (edf_unthrottle args.current_time m args.run_queue)
        args.run_queue args.current_time = none) :
    ∀ p ∈ args.run_queue,
      args.current_time <
        (edf_throttle args.current_time
          (edf_unthrottle args.current_time m args.run_queue) args.run_queue p).current_deadline := by
  intro p hp
  rw [edf_throttle_apply, if_pos hp, throttle_thread_current_deadline]
  exact check_deadline_miss_none _ _ _ hc p hp

/-- Totality: `schedule_edf_cbs` returns as soon as the fuel exceeds the length
of the run queue. -/
theorem schedule_edf_cbs_returns (m : Heap) (args : threads_sched_args) (fuel : Nat)
    (hf : args.run_queue.length < fuel) :
    ∃ out, schedule_edf_cbs fuel m args = some out := by
  unfold schedule_edf_cbs
  dsimp only
  cases hc : __check_deadline_miss (edf_unthrottle args.current_time m args.run_queue)
      args.run_queue args.current_time with
  | some p => exact ⟨_, rfl⟩
  | none =>
    dsimp only
    by_cases he : args.run_queue = []
    · rw [if_pos he]; exact ⟨_, rfl⟩
    · rw [if_neg he]
      obtain ⟨out, hout⟩ := edf_cbs_loop_returns args.current_time args.run_queue fuel
        (edf_throttle args.current_time
          (edf_unthrottle args.current_time m args.run_queue) args.run_queue)
        (fun p hp => Or.inl (edf_loop_entry_deadlines m args hc p hp))
        (lt_of_le_of_lt (edf_pending_le _ _ _) hf)
      rw [hout]
      obtain ⟨ob, m3⟩ := out
      cases ob with
      | none => exact ⟨_, rfl⟩
      | some b => exact ⟨_, rfl⟩

/-! ## 32-bit arithmetic without overflow -/

theorem int32_of_fits (x : Int) (h : fits_int32 x) : int32 x = x := by
  unfold fits_int32 at h
  unfold int32
  omega

theorem fits_int32_int32 (x : Int) : fits_int32 (int32 x) := by
  unfold fits_int32 int32
  omega

/-- The state of the loop of `schedule_hrrn`: the recorded numerator and
denominator are those of the selected thread. -/
theorem hrrn_loop_state (m : Heap) (ct : Int) (rq : List Nat) :
    match (hrrn_loop m ct rq).selected_thread with
    | none => rq = []
    | some b => b ∈ rq ∧
        (hrrn_loop m ct rq).highest_ratio_numerator =
          ct - (m b).arrival_time + (m b).processing_time ∧
        (hrrn_loop m ct rq).highest_ratio_denominator = (m b).processing_time := by
  unfold hrrn_loop
  induction rq using List.reverseRecOn with
  | nil => simp
  | append_singleton l x ih =>
    rw [List.foldl_append, List.foldl_cons, List.foldl_nil]
    generalize List.foldl (hrrn_step m ct) ⟨none, 0, 1⟩ l = st at ih
    obtain ⟨sel, hn, hd⟩ := st
    unfold hrrn_step
    cases sel with
    | none =>
      dsimp only
      exact ⟨by simp, rfl, rfl⟩
    | some b =>
      dsimp only at ih ⊢
      split_ifs
      · dsimp only
        exact ⟨by simp, rfl, rfl⟩
      · dsimp only
        exact ⟨by simp [ih.1], ih.2.1, ih.2.2⟩

/-- One step of the 32-bit loop of `schedule_hrrn` is the exact step when the
waiting time, the numerator and the two cross products do not overflow. -/
theorem hrrn_step_int32_eq (m : Heap) (ct : Int) (st : hrrn_state) (x : Nat)
    (hw : fits_int32 (ct - (m x).arrival_time))
    (hn : fits_int32 (ct - (m x).arrival_time + (m x).processing_time))
    (h1 : st.selected_thread ≠ none →
      fits_int32 ((ct - (m x).arrival_time + (m x).processing_time) *
        st.highest_ratio_denominator))
    (h2 : st.selected_thread ≠ none →
      fits_int32 (st.highest_ratio_numerator * (m x).processing_time)) :
    hrrn_step_int32 m ct st x = hrrn_step m ct st x := by
  unfold hrrn_step_int32 hrrn_step
  dsimp only
  rw [int32_of_fits _ hw, int32_of_fits _ hn]
  obtain ⟨sel, hnum, hden⟩ := st
  cases sel with
  | none => rfl
  | some b =>
    dsimp only at h1 h2 ⊢
    rw [int32_of_fits _ (h1 (by simp)), int32_of_fits _ (h2 (by simp))]

/-- The 32-bit loop of `schedule_hrrn` is the exact loop when no waiting time,
numerator or cross product of two run-queue threads overflows. -/
theorem hrrn_loop_int32_eq (m : Heap) (ct : Int) (rq : List Nat)
    (hw : ∀ p ∈ rq, fits_int32 (ct - (m p).arrival_time) ∧
      fits_int32 (ct - (m p).arrival_time + (m p).processing_time))
    (hprod : ∀ p ∈ rq, ∀ q ∈ rq,
      fits_int32 ((ct - (m p).arrival_time + (m p).processing_time) *
        (m q).processing_time)) :
    hrrn_loop_int32 m ct rq = hrrn_loop m ct rq := by
  induction rq using List.reverseRecOn with
  | nil => rfl
  | append_singleton l x ih =>
    have ih := ih (fun p hp => hw p (List.mem_append_left _ hp))
      (fun p hp q hq => hprod p (List.mem_append_left _ hp) q (List.mem_append_left _ hq))
    have hx : x ∈ l ++ [x] := by simp
    have hst := hrrn_loop_state m ct l
    unfold hrrn_loop_int32 hrrn_loop at ih ⊢
    rw [List.foldl_append, List.foldl_append, List.foldl_cons, List.foldl_nil,
      List.foldl_cons, List.foldl_nil, ih]
    unfold hrrn_loop at hst
    apply hrrn_step_int32_eq m ct _ x (hw x hx).1 (hw x hx).2
    · intro hsel
      cases hs : (List.foldl (hrrn_step m ct) ⟨none, 0, 1⟩ l).selected_thread with
      | none => exact absurd hs hsel
      | some b =>
        rw [hs] at hst
        rw [hst.2.2]
        exact hprod x hx b (List.mem_append_left _ hst.1)
    · intro hsel
      cases hs : (List.foldl (hrrn_step m ct) ⟨none, 0, 1⟩ l).selected_thread with
      | none => exact absurd hs hsel
      | some b =>
        rw [hs] at hst
        rw [hst.2.1]
        exact hprod b (List.mem_append_left _ hst.1) x hx

/-! ## EDF with CBS: the 32-bit definitions without overflow -/

theorem edf_unthrottle_step_int32_apply (ct : Int) (m : Heap) (p q : Nat) :
    edf_unthrottle_step_int32 ct m p q =
      if q = p then unthrottle_thread_int32 ct (m p) else m q := by
  unfold edf_unthrottle_step_int32 unthrottle_thread_int32
  by_cases hq : q = p
  · subst hq
    split <;> simp [Heap.set]
  · split <;> simp [Heap.set, hq]

theorem unthrottle_thread_int32_idem (ct : Int) (t : thread) :
    unthrottle_thread_int32 ct (unthrottle_thread_int32 ct t) =
      unthrottle_thread_int32 ct t := by
  unfold unthrottle_thread_int32
  split
  · simp
  · rename_i h; simp [h]

theorem edf_unthrottle_int32_apply (ct : Int) (m : Heap) (rq : List Nat) (q : Nat) :
    edf_unthrottle_int32 ct m rq q =
      if q ∈ rq then unthrottle_thread_int32 ct (m q) else m q :=
  foldl_pointwise (unthrottle_thread_int32 ct) (unthrottle_thread_int32_idem ct) _
    (edf_unthrottle_step_int32_apply ct) rq m q

theorem unthrottle_thread_int32_eq (ct : Int) (t : thread)
    (h : fits_int32 (t.current_deadline + t.period)) :
    unthrottle_thread_int32 ct t = unthrottle_thread ct t := by
  unfold unthrottle_thread_int32 unthrottle_thread
  rw [int32_of_fits _ h]

/-- Step 1 with 32-bit arithmetic is the exact step 1 when no deadline addition
overflows. -/
theorem edf_unthrottle_int32_eq (ct : Int) (m : Heap) (rq : List Nat)
    (h : ∀ p ∈ rq, fits_int32 ((m p).current_deadline + (m p).period)) :
    edf_unthrottle_int32 ct m rq = edf_unthrottle ct m rq := by
  funext q
  rw [edf_unthrottle_int32_apply, edf_unthrottle_apply]
  by_cases hq : q ∈ rq
  · rw [if_pos hq, if_pos hq, unthrottle_thread_int32_eq ct _ (h q hq)]
  · rw [if_neg hq, if_neg hq]

theorem edf_must_postpone_int32_iff (ct : Int) (t : thread) (h : edf_test_fits ct t) :
    edf_must_postpone_int32 ct t ↔ edf_must_postpone ct t := by
  obtain ⟨-, -, h3, h4, -, h6⟩ := h
  unfold edf_must_postpone_int32 edf_must_postpone
  rw [int32_of_fits _ h3, int32_of_fits _ h4, int32_of_fits _ h6]

theorem edf_postpone_int32_eq (ct : Int) (t : thread) (h : edf_test_fits ct t) :
    edf_postpone_int32 ct t = edf_postpone ct t := by
  unfold edf_postpone_int32 edf_postpone
  rw [int32_of_fits _ h.1]

/-- A postponed thread keeps the arithmetic of the test within range. -/
theorem edf_test_fits_postpone (ct : Int) (t : thread) (h : edf_test_fits ct t) :
    edf_test_fits ct (edf_postpone ct t) := by
  obtain ⟨h1, h2, -, -, h5, -⟩ := h
  have hd : ct + t.period - ct = t.period := by ring
  unfold edf_test_fits edf_postpone
  dsimp only
  rw [hd]
  exact ⟨h1, h2, h2, h5, h5, h5⟩

theorem edf_test_fits_set (ct : Int) (rq : List Nat) (m : Heap) (b : Nat)
    (h : ∀ p ∈ rq, edf_test_fits ct (m p)) (hb : b ∈ rq) :
    ∀ p ∈ rq, edf_test_fits ct ((m.set b (edf_postpone ct (m b))) p) := by
  intro p hp
  by_cases hpb : p = b
  · subst hpb
    rw [Heap.set_same]
    exact edf_test_fits_postpone ct _ (h p hp)
  · rw [Heap.set_other _ _ _ _ hpb]
    exact h p hp

/-- The 32-bit loop is the exact loop as long as the arithmetic of the test
stays within range. -/
theorem edf_cbs_loop_int32_eq (ct : Int) (rq : List Nat) :
    ∀ (fuel : Nat) (m : Heap), (∀ p ∈ rq, edf_test_fits ct (m p)) →
      edf_cbs_loop_int32 ct rq fuel m = edf_cbs_loop ct rq fuel m := by
  intro fuel
  induction fuel with
  | zero => intro m _; rfl
  | succ n ih =>
    intro m h
    unfold edf_cbs_loop_int32 edf_cbs_loop
    cases hsel : edf_select m rq with
    | none => rfl
    | some b =>
      dsimp only
      obtain ⟨hb, -, -⟩ := edf_select_some m rq b hsel
      have hiff := edf_must_postpone_int32_iff ct (m b) (h b hb)
      by_cases hp : edf_must_postpone ct (m b)
      · rw [if_pos hp, if_pos (hiff.2 hp), edf_postpone_int32_eq ct _ (h b hb)]
        exact ih _ (edf_test_fits_set ct rq m b h hb)
      · rw [if_neg hp, if_neg (fun hc => hp (hiff.1 hc))]

/-- The recording 32-bit loop is the exact recording loop as long as the
arithmetic of the test stays within range. -/
theorem edf_cbs_loop_log_int32_eq (ct : Int) (rq : List Nat) :
    ∀ (fuel : Nat) (m : Heap), (∀ p ∈ rq, edf_test_fits ct (m p)) →
      edf_cbs_loop_log_int32 ct rq fuel m = edf_cbs_loop_log ct rq fuel m := by
  intro fuel
  induction fuel with
  | zero => intro m _; rfl
  | succ n ih =>
    intro m h
    unfold edf_cbs_loop_log_int32 edf_cbs_loop_log
    cases hsel : edf_select m rq with
    | none => rfl
    | some b =>
      dsimp only
      obtain ⟨hb, -, -⟩ := edf_select_some m rq b hsel
      have hiff := edf_must_postpone_int32_iff ct (m b) (h b hb)
      by_cases hp : edf_must_postpone ct (m b)
      · rw [if_pos hp, if_pos (hiff.2 hp), edf_postpone_int32_eq ct _ (h b hb),
          ih _ (edf_test_fits_set ct rq m b h hb)]
      · rw [if_neg hp, if_neg (fun hc => hp (hiff.1 hc))]

/-- Forgetting the record of `edf_cbs_loop_log_int32` gives
`edf_cbs_loop_int32`. -/
theorem edf_cbs_loop_log_int32_erase (ct : Int) (rq : List Nat) :
    ∀ (fuel : Nat) (m : Heap),
      edf_cbs_loop_int32 ct rq fuel m =
        (edf_cbs_loop_log_int32 ct rq fuel m).map (fun res => res.2) := by
  intro fuel
  induction fuel with
  | zero => intro m; rfl
  | succ n ih =>
    intro m
    unfold edf_cbs_loop_int32 edf_cbs_loop_log_int32
    cases hsel : edf_select m rq with
    | none => rfl
    | some b =>
      dsimp only
      by_cases hp : edf_must_postpone_int32 ct (m b)
      · rw [if_pos hp, if_pos hp, ih]
        cases edf_cbs_loop_log_int32 ct rq n (m.set b (edf_postpone_int32 ct (m b))) with
        | none => rfl
        | some res => rfl
      · rw [if_neg hp, if_neg hp]
        rfl

theorem edf_arrival_step_int32_heap (ct : Int) (b : Nat) (st : Heap × Int)
    (e : release_queue_entry) : (edf_arrival_step_int32 ct b st e).1 = st.1 := by
  unfold edf_arrival_step_int32
  dsimp only
  split
  · dsimp only
    rw [Heap.set_same]
    exact Heap.set_set_restore _ _ _
  · rfl

theorem edf_replenish_step_int32_heap (ct : Int) (b : Nat) (st : Heap × Int) (th : Nat) :
    (edf_replenish_step_int32 ct b st th).1 = st.1 := by
  unfold edf_replenish_step_int32
  dsimp only
  split
  · split
    · dsimp only
      rw [Heap.set_same]
      exact Heap.set_set_restore _ _ _
    · rfl
  · rfl

/-- The 32-bit lookahead restores the heap. -/
theorem edf_lookahead_int32_heap (ct : Int) (m : Heap) (args : threads_sched_args) (b : Nat) :
    (edf_lookahead_int32 ct m args b).1 = m := by
  unfold edf_lookahead_int32
  dsimp only
  rw [foldl_fst_const _ (edf_replenish_step_int32_heap ct b),
    foldl_fst_const _ (edf_arrival_step_int32_heap ct b)]

/-- The arithmetic of the test is within range for every run-queue thread after
steps 1 and 4 when it is within range on entry. -/
theorem edf_test_fits_entry (m : Heap) (args : threads_sched_args)
    (h : ∀ p ∈ args.run_queue, edf_fits args.current_time (m p)) :
    ∀ p ∈ args.run_queue, edf_test_fits args.current_time
      (edf_throttle args.current_time
        (edf_unthrottle args.current_time m args.run_queue) args.run_queue p) := by
  intro p hp
  obtain ⟨h1, h2, h3, h4, h5, h6, h7, h8, h9⟩ := h p hp
  rw [edf_throttle_apply, if_pos hp, edf_unthrottle_apply, if_pos hp]
  have ht : ∀ t : thread, edf_test_fits args.current_time t →
      edf_test_fits args.current_time (throttle_thread args.current_time t) := by
    intro t h
    unfold throttle_thread
    split
    · exact h
    · exact h
  apply ht
  unfold unthrottle_thread
  split
  · exact ⟨h2, h3, h5, h7, h7, h9⟩
  · exact ⟨h2, h3, h4, h6, h7, h8⟩

/-- Without overflow in steps 1 and 5 the 32-bit call selects the same thread
and leaves the same heap as the exact call. -/
theorem schedule_edf_cbs_int32_heap (fuel : Nat) (m : Heap) (args : threads_sched_args)
    (h : ∀ p ∈ args.run_queue, edf_fits args.current_time (m p)) :
    (schedule_edf_cbs_int32 fuel m args).map
        (fun o => (o.1.scheduled_thread_list_member, o.2)) =
      (schedule_edf_cbs fuel m args).map
        (fun o => (o.1.scheduled_thread_list_member, o.2)) := by
  unfold schedule_edf_cbs_int32 schedule_edf_cbs
  dsimp only
  rw [edf_unthrottle_int32_eq _ _ _ (fun p hp => (h p hp).1)]
  cases hc : __check_deadline_miss (edf_unthrottle args.current_time m args.run_queue)
      args.run_queue args.current_time with
  | some p => rfl
  | none =>
    dsimp only
    by_cases he : args.run_queue = []
    · rw [if_pos he, if_pos he]
      unfold idle_result_int32 idle_result
      dsimp only
      split <;> rfl
    · rw [if_neg he, if_neg he,
        edf_cbs_loop_int32_eq _ _ _ _ (edf_test_fits_entry m args h)]
      cases hl : edf_cbs_loop args.current_time args.run_queue fuel
          (edf_throttle args.current_time
            (edf_unthrottle args.current_time m args.run_queue) args.run_queue) with
      | none => rfl
      | some res =>
        obtain ⟨ob, m3⟩ := res
        cases ob with
        | none => rfl
        | some b =>
          dsimp only
          simp only [Option.map_some', edf_lookahead_int32_heap, edf_lookahead_heap]

/-- Without overflow in steps 1 and 5 the 32-bit call makes the same
postponements as the exact call. -/
theorem schedule_edf_cbs_log_int32_eq (fuel : Nat) (m : Heap) (args : threads_sched_args)
    (h : ∀ p ∈ args.run_queue, edf_fits args.current_time (m p)) :
    schedule_edf_cbs_log_int32 fuel m args = schedule_edf_cbs_log fuel m args := by
  unfold schedule_edf_cbs_log_int32 schedule_edf_cbs_log
  dsimp only
  rw [edf_unthrottle_int32_eq _ _ _ (fun p hp => (h p hp).1)]
  cases hc : __check_deadline_miss (edf_unthrottle args.current_time m args.run_queue)
      args.run_queue args.current_time with
  | some p => rfl
  | none =>
    dsimp only
    by_cases he : args.run_queue = []
    · rw [if_pos he, if_pos he]
    · rw [if_neg he, if_neg he,
        edf_cbs_loop_log_int32_eq _ _ _ _ (edf_test_fits_entry m args h)]

/-! ## EDF+CBS: bandwidth preservation -/

/-- Invariant of the loop used for the bandwidth bound: an eligible soft thread
has budget left or has just been postponed. -/
theorem edf_loop_budget_inv (m : Heap) (args : threads_sched_args) (fuel : Nat)
    (ob : Option Nat) (m' : Heap)
    (hl : edf_cbs_loop args.current_time args.run_queue fuel
        (edf_throttle args.current_time
          (edf_unthrottle args.current_time m args.run_queue) args.run_queue)
        = some (ob, m')) :
    (∀ p ∈ args.run_queue, (m' p).cbs.is_hard_rt = 0 → (m' p).cbs.is_throttled = 0 →
        0 < (m' p).cbs.remaining_budget ∨
        ((m' p).cbs.remaining_budget = (m' p).cbs.budget ∧
          (m' p).current_deadline = args.current_time + (m' p).period)) ∧
      edf_select m' args.run_queue = ob ∧
      ∀ b, ob = some b → ¬ edf_must_postpone args.current_time (m' b) := by
  refine edf_cbs_loop_inv args.current_time args.run_queue
    (fun h => ∀ p ∈ args.run_queue, (h p).cbs.is_hard_rt = 0 → (h p).cbs.is_throttled = 0 →
        0 < (h p).cbs.remaining_budget ∨
        ((h p).cbs.remaining_budget = (h p).cbs.budget ∧
          (h p).current_deadline = args.current_time + (h p).period))
    ?_ fuel _ ob m' ?_ hl
  · intro h b hI _ _ p hp hs ht
    by_cases hpb : p = b
    · subst hpb
      rw [Heap.set_same]
      exact Or.inr ⟨rfl, rfl⟩
    · rw [Heap.set_other _ _ _ _ hpb] at hs ht ⊢
      exact hI p hp hs ht
  · intro p hp hs ht
    rw [edf_throttle_apply, if_pos hp] at hs ht ⊢
    exact Or.inl (throttle_thread_soft _ _ hs ht)

/-- C1 (EDF+CBS bandwidth preservation).  `schedule_edf_cbs` returns, and
whenever it returns a soft real-time thread `s` with a non-zero allocation,
`s` is in the run queue and the heap left by the call satisfies
`remaining_budget * period ≤ budget * (current_deadline - current_time)`
for `s`, in exact integer arithmetic. -/
theorem edf_cbs_bandwidth_preserved (m : Heap) (args : threads_sched_args) :
    (∃ out, schedule_edf_cbs (args.run_queue.length + 1) m args = some out) ∧
    ∀ (fuel : Nat) (out : threads_sched_result × Heap) (s : Nat),
      schedule_edf_cbs fuel m args = some out →
      out.1.scheduled_thread_list_member = some s →
      out.1.allocated_time ≠ 0 →
      (out.2 s).cbs.is_hard_rt = 0 →
      s ∈ args.run_queue ∧
      (out.2 s).cbs.remaining_budget * (out.2 s).period ≤
        (out.2 s).cbs.budget * ((out.2 s).current_deadline - args.current_time) := by
  refine ⟨schedule_edf_cbs_returns m args _ (Nat.lt_succ_self _), ?_⟩
  intro fuel out s h hs ha hsoft
  obtain ⟨r, m'⟩ := out
  obtain ⟨_, _, hl, _⟩ := schedule_edf_cbs_dispatch fuel m args r m' s h hs ha
  obtain ⟨hI, hsel, hnp⟩ := edf_loop_budget_inv m args fuel _ m' hl
  obtain ⟨hmem, helig, _⟩ := edf_select_some m' args.run_queue s hsel
  refine ⟨hmem, ?_⟩
  dsimp only at hsoft ⊢
  have hthr : (m' s).cbs.is_throttled = 0 := by
    by_contra hne
    exact helig ⟨hsoft, hne⟩
  have hnp' := hnp s rfl
  rcases hI s hmem hsoft hthr with hpos | ⟨hb, hd⟩
  · by_contra hcon
    exact hnp' ⟨hsoft, hpos, Or.inr (not_le.1 hcon)⟩
  · rw [hb, hd]
    have : args.current_time + (m' s).period - args.current_time = (m' s).period := by ring
    rw [this]

/-- Witness for C1: the scenario of the spec (`budget = 2`, `period = 10`,
`current_deadline = 5`, `current_time = 4`, `remaining_budget = 2`); the soft
thread is postponed to deadline 14 and dispatched for 2 ticks. -/
theorem edf_cbs_bandwidth_preserved_witness :
    schedule_edf_cbs 3 bw_heap bw_args = some bw_out ∧
    bw_out.1 = ⟨some 1, 2⟩ ∧
    (bw_out.2 1).cbs.is_hard_rt = 0 ∧
    (bw_out.2 1).current_deadline = 14 ∧
    (1 ∈ bw_args.run_queue ∧
      (bw_out.2 1).cbs.remaining_budget * (bw_out.2 1).period ≤
        (bw_out.2 1).cbs.budget * ((bw_out.2 1).current_deadline - bw_args.current_time)) :=
  ⟨rfl, rfl, rfl, rfl,
    (edf_cbs_bandwidth_preserved bw_heap bw_args).2 3 bw_out 1 rfl rfl (by decide) rfl⟩

/-! ## EDF+CBS: selection -/

theorem unthrottle_thread_of_hard (ct : Int) (t : thread) (h : t.cbs.is_hard_rt ≠ 0) :
    unthrottle_thread ct t = t := by
  unfold unthrottle_thread
  rw [if_neg (fun hc => h hc.1)]

theorem throttle_thread_of_hard (ct : Int) (t : thread) (h : t.cbs.is_hard_rt ≠ 0) :
    throttle_thread ct t = t := by
  unfold throttle_thread
  rw [if_neg (fun hc => h hc.1)]

theorem unthrottle_thread_is_hard_rt (ct : Int) (t : thread) :
    (unthrottle_thread ct t).cbs.is_hard_rt = t.cbs.is_hard_rt := by
  unfold unthrottle_thread; split <;> rfl

/-- Steps 1 and 4 leave hard real-time threads as they are. -/
theorem edf_entry_heap_of_hard (m : Heap) (args : threads_sched_args) (p : Nat)
    (h : (m p).cbs.is_hard_rt ≠ 0) :
    edf_throttle args.current_time
      (edf_unthrottle args.current_time m args.run_queue) args.run_queue p = m p := by
  have h1 : edf_unthrottle args.current_time m args.run_queue p = m p := by
    rw [edf_unthrottle_apply]
    split
    · exact unthrottle_thread_of_hard _ _ h
    · rfl
  rw [edf_throttle_apply]
  split
  · rw [h1]; exact throttle_thread_of_hard _ _ h
  · exact h1

/-- Steps 1 and 4 never change `is_hard_rt`. -/
theorem edf_entry_heap_is_hard_rt (m : Heap) (args : threads_sched_args) (p : Nat) :
    (edf_throttle args.current_time
      (edf_unthrottle args.current_time m args.run_queue) args.run_queue p).cbs.is_hard_rt
      = (m p).cbs.is_hard_rt := by
  have h1 : (edf_unthrottle args.current_time m args.run_queue p).cbs.is_hard_rt
      = (m p).cbs.is_hard_rt := by
    rw [edf_unthrottle_apply]
    split
    · exact unthrottle_thread_is_hard_rt _ _
    · rfl
  rw [edf_throttle_apply]
  split
  · rw [throttle_thread_is_hard_rt, h1]
  · exact h1

/-- C2 (EDF+CBS selection).  When no hard real-time thread of the run queue has
`is_throttled` set, `schedule_edf_cbs` returns, and a thread `b` returned with
a non-zero allocation is in the run queue, has `is_throttled = 0` in the
resulting heap, and comes first in (`current_deadline`, `ID`) order among all
run-queue threads that are not throttled in the resulting heap. -/
theorem edf_cbs_selects_earliest (m : Heap) (args : threads_sched_args)
    (hhard : ∀ p ∈ args.run_queue, (m p).cbs.is_hard_rt ≠ 0 → (m p).cbs.is_throttled = 0) :
    (∃ out, schedule_edf_cbs (args.run_queue.length + 1) m args = some out) ∧
    ∀ (fuel : Nat) (out : threads_sched_result × Heap) (b : Nat),
      schedule_edf_cbs fuel m args = some out →
      out.1.scheduled_thread_list_member = some b →
      out.1.allocated_time ≠ 0 →
      b ∈ args.run_queue ∧ (out.2 b).cbs.is_throttled = 0 ∧
      ∀ q ∈ args.run_queue, (out.2 q).cbs.is_throttled = 0 →
        (out.2 b).current_deadline < (out.2 q).current_deadline ∨
        ((out.2 b).current_deadline = (out.2 q).current_deadline ∧
          (out.2 b).ID ≤ (out.2 q).ID) := by
  refine ⟨schedule_edf_cbs_returns m args _ (Nat.lt_succ_self _), ?_⟩
  intro fuel out b h hs ha
  obtain ⟨r, m'⟩ := out
  obtain ⟨_, _, hl, _⟩ := schedule_edf_cbs_dispatch fuel m args r m' b h hs ha
  obtain ⟨hI, hsel, -⟩ := edf_cbs_loop_inv args.current_time args.run_queue
    (fun h => ∀ p ∈ args.run_queue, (h p).cbs.is_hard_rt ≠ 0 → (h p).cbs.is_throttled = 0)
    (by
      intro h c hI _ _ p hp hh
      by_cases hpc : p = c
      · subst hpc
        rw [Heap.set_same] at hh ⊢
        exact hI p hp hh
      · rw [Heap.set_other _ _ _ _ hpc] at hh ⊢
        exact hI p hp hh)
    fuel _ _ m'
    (by
      intro p hp hh
      rw [edf_entry_heap_is_hard_rt] at hh
      rw [edf_entry_heap_of_hard m args p hh]
      exact hhard p hp hh)
    hl
  obtain ⟨hmem, helig, hmin⟩ := edf_select_some m' args.run_queue b hsel
  dsimp only
  refine ⟨hmem, ?_, ?_⟩
  · by_cases hh : (m' b).cbs.is_hard_rt = 0
    · by_contra hne
      exact helig ⟨hh, hne⟩
    · exact hI b hmem hh
  · intro q hq hqt
    exact hmin q hq (fun hc => hc.2 hqt)

/-- Witness for C2: the throttled soft thread with the earliest deadline is
passed over and the soft thread with deadline 12 is preferred to the hard
thread with deadline 20. -/
theorem edf_cbs_selects_earliest_witness :
    (∀ p ∈ sel_args.run_queue,
      (sel_heap p).cbs.is_hard_rt ≠ 0 → (sel_heap p).cbs.is_throttled = 0) ∧
    schedule_edf_cbs 4 sel_heap sel_args = some sel_out ∧
    sel_out.1 = ⟨some 2, 1⟩ ∧
    (2 ∈ sel_args.run_queue ∧ (sel_out.2 2).cbs.is_throttled = 0 ∧
      ∀ q ∈ sel_args.run_queue, (sel_out.2 q).cbs.is_throttled = 0 →
        (sel_out.2 2).current_deadline < (sel_out.2 q).current_deadline ∨
        ((sel_out.2 2).current_deadline = (sel_out.2 q).current_deadline ∧
          (sel_out.2 2).ID ≤ (sel_out.2 q).ID)) :=
  ⟨by decide, rfl, rfl,
    (edf_cbs_selects_earliest sel_heap sel_args (by decide)).2 4 sel_out 2 rfl rfl
      (by decide)⟩

/-! ## EDF+CBS: throttling round-trip -/

/-- The throttling loop leaves a thread with budget left alone. -/
theorem throttle_thread_of_budget (ct : Int) (t : thread) (h : 0 < t.cbs.remaining_budget) :
    throttle_thread ct t = t := by
  unfold throttle_thread
  rw [if_neg (fun hc => absurd hc.2.2 (not_le.2 h))]

theorem min_with_cons (a c : Int) (l : List Int) :
    min_with a (c :: l) = min_with (min a c) l := rfl

theorem min_with_perm (a : Int) {l1 l2 : List Int} (h : l1.Perm l2) :
    min_with a l1 = min_with a l2 := by
  unfold min_with
  exact h.foldl_eq' (fun x _ y _ z => by omega) a

/-- One step of the release-queue loop, for an entry whose thread is not the
selected one: the cap of the specification is applied. -/
theorem edf_arrival_step_snd (ct : Int) (b : Nat) (st : Heap × Int)
    (e : release_queue_entry) (hne : e.thrd ≠ b) :
    (edf_arrival_step ct b st e).2 =
      if e.release_time ≥ ct ∧
          lex_smaller (e.release_time + (st.1 e.thrd).period) (st.1 e.thrd).ID
            (st.1 b).current_deadline (st.1 b).ID then
        min st.2 (max (e.release_time - ct) 1)
      else st.2 := by
  unfold edf_arrival_step
  dsimp only
  rw [Heap.set_same, Heap.set_other _ _ _ _ (Ne.symm hne)]
  have hcmp : __edf_thread_cmp
      { st.1 e.thrd with current_deadline := e.release_time + (st.1 e.thrd).period }
      (st.1 b) > 0 ↔
      lex_smaller (e.release_time + (st.1 e.thrd).period) (st.1 e.thrd).ID
        (st.1 b).current_deadline (st.1 b).ID := edf_thread_cmp_pos _ _
  by_cases hl : lex_smaller (e.release_time + (st.1 e.thrd).period) (st.1 e.thrd).ID
      (st.1 b).current_deadline (st.1 b).ID
  · rw [if_pos (hcmp.2 hl)]
    simp only [hl, and_true, min_def, max_def]
    split_ifs <;> omega
  · rw [if_neg (fun h => hl (hcmp.1 h))]
    simp only [hl, and_false, if_false]
    split_ifs <;> rfl

theorem edf_arrival_fold (ct : Int) (b : Nat) (m : Heap) :
    ∀ (rel : List release_queue_entry) (a : Int), (∀ e ∈ rel, e.thrd ≠ b) →
      rel.foldl (edf_arrival_step ct b) (m, a) =
        (m, min_with a (spec_arrival_caps m ct (m b) rel)) := by
  intro rel
  induction rel with
  | nil => intro a _; rfl
  | cons e es ih =>
    intro a hne
    have hstep : edf_arrival_step ct b (m, a) e =
        (m, if e.release_time ≥ ct ∧
              lex_smaller (e.release_time + (m e.thrd).period) (m e.thrd).ID
                (m b).current_deadline (m b).ID then
            min a (max (e.release_time - ct) 1) else a) :=
      Prod.ext (edf_arrival_step_heap ct b (m, a) e)
        (edf_arrival_step_snd ct b (m, a) e (hne e (List.mem_cons_self _ _)))
    rw [List.foldl_cons, hstep, ih _ (fun x hx => hne x (List.mem_cons_of_mem _ hx))]
    unfold spec_arrival_caps
    by_cases hp : e.release_time ≥ ct ∧
        lex_smaller (e.release_time + (m e.thrd).period) (m e.thrd).ID
          (m b).current_deadline (m b).ID
    · rw [if_pos hp, List.filter_cons_of_pos (by simpa using hp), List.map_cons,
        min_with_cons]
    · rw [if_neg hp, List.filter_cons_of_neg (by simpa using hp)]

/-- One step of the throttled-thread loop, for a thread whose deadline lies
ahead whenever it is a throttled soft thread: the cap of the specification is
applied. -/
theorem edf_replenish_step_snd (ct : Int) (b : Nat) (st : Heap × Int) (th : Nat)
    (hb : edf_eligible (st.1 b))
    (hd : (st.1 th).cbs.is_hard_rt = 0 ∧ (st.1 th).cbs.is_throttled ≠ 0 →
      ct < (st.1 th).current_deadline) :
    (edf_replenish_step ct b st th).2 =
      if ((st.1 th).cbs.is_hard_rt = 0 ∧ (st.1 th).cbs.is_throttled ≠ 0) ∧
          lex_smaller ((st.1 th).current_deadline + (st.1 th).period) (st.1 th).ID
            (st.1 b).current_deadline (st.1 b).ID then
        min st.2 ((st.1 th).current_deadline - ct)
      else st.2 := by
  unfold edf_replenish_step
  dsimp only
  by_cases hs : (st.1 th).cbs.is_hard_rt = 0 ∧ (st.1 th).cbs.is_throttled ≠ 0
  · have hne : th ≠ b := by
      intro h
      subst h
      exact hb hs
    have hdl := hd hs
    rw [if_pos hs, Heap.set_same, Heap.set_other _ _ _ _ (Ne.symm hne)]
    have hcmp : __edf_thread_cmp
        { st.1 th with
          cbs := { (st.1 th).cbs with
                   is_throttled := 0, remaining_budget := (st.1 th).cbs.budget }
          current_deadline := (st.1 th).current_deadline + (st.1 th).period }
        (st.1 b) > 0 ↔
        lex_smaller ((st.1 th).current_deadline + (st.1 th).period) (st.1 th).ID
          (st.1 b).current_deadline (st.1 b).ID := edf_thread_cmp_pos _ _
    by_cases hw : (st.1 th).current_deadline ≥ ct ∧ (st.1 th).current_deadline < ct + st.2
    · rw [if_pos hw]
      dsimp only
      by_cases hl : lex_smaller ((st.1 th).current_deadline + (st.1 th).period) (st.1 th).ID
          (st.1 b).current_deadline (st.1 b).ID
      · rw [if_pos (And.intro (hcmp.2 hl) hne), if_pos (And.intro hs hl)]
        simp only [min_def]
        split_ifs <;> omega
      · rw [if_neg (fun h => hl (hcmp.1 h.1)), if_neg (fun h => hl h.2)]
    · rw [if_neg hw]
      by_cases hl : lex_smaller ((st.1 th).current_deadline + (st.1 th).period) (st.1 th).ID
          (st.1 b).current_deadline (st.1 b).ID
      · rw [if_pos (And.intro hs hl)]
        simp only [min_def]
        split_ifs <;> omega
      · rw [if_neg (fun h => hl h.2)]
  · rw [if_neg hs, if_neg (fun h => hs h.1)]

theorem edf_replenish_fold (ct : Int) (b : Nat) (m : Heap) (hb : edf_eligible (m b)) :
    ∀ (rq : List Nat) (a : Int),
      (∀ p ∈ rq, (m p).cbs.is_hard_rt = 0 ∧ (m p).cbs.is_throttled ≠ 0 →
        ct < (m p).current_deadline) →
      rq.foldl (edf_replenish_step ct b) (m, a) =
        (m, min_with a (spec_replenish_caps m ct (m b) rq)) := by
  intro rq
  induction rq with
  | nil => intro a _; rfl
  | cons p ps ih =>
    intro a hd
    have hstep : edf_replenish_step ct b (m, a) p =
        (m, if ((m p).cbs.is_hard_rt = 0 ∧ (m p).cbs.is_throttled ≠ 0) ∧
              lex_smaller ((m p).current_deadline + (m p).period) (m p).ID
                (m b).current_deadline (m b).ID then
            min a ((m p).current_deadline - ct) else a) :=
      Prod.ext (edf_replenish_step_heap ct b (m, a) p)
        (edf_replenish_step_snd ct b (m, a) p hb (hd p (List.mem_cons_self _ _)))
    rw [List.foldl_cons, hstep, ih _ (fun x hx => hd x (List.mem_cons_of_mem _ hx))]
    unfold spec_replenish_caps
    by_cases hp : ((m p).cbs.is_hard_rt = 0 ∧ (m p).cbs.is_throttled ≠ 0) ∧
        lex_smaller ((m p).current_deadline + (m p).period) (m p).ID
          (m b).current_deadline (m b).ID
    · rw [if_pos hp, List.filter_cons_of_pos (by simpa using hp), List.map_cons,
        min_with_cons]
    · rw [if_neg hp, List.filter_cons_of_neg (by simpa using hp)]

theorem edf_budget_cap_eq_spec (t : thread) : edf_budget_cap t = spec_base_allocation t := by
  unfold edf_budget_cap spec_base_allocation
  simp only [min_def]
  split_ifs <;> omega

/-- On exit of the loop every throttled soft thread of the run queue still has
its deadline ahead. -/
theorem edf_loop_throttled_deadlines (m : Heap) (args : threads_sched_args) (fuel : Nat)
    (ob : Option Nat) (m' : Heap)
    (hc : __check_deadline_miss (edf_unthrottle args.current_time m args.run_queue)
        args.run_queue args.current_time = none)
    (hl : edf_cbs_loop args.current_time args.run_queue fuel
        (edf_throttle args.current_time
          (edf_unthrottle args.current_time m args.run_queue) args.run_queue)
        = some (ob, m')) :
    (∀ p ∈ args.run_queue, (m' p).cbs.is_hard_rt = 0 ∧ (m' p).cbs.is_throttled ≠ 0 →
        args.current_time < (m' p).current_deadline) ∧
      edf_select m' args.run_queue = ob := by
  obtain ⟨hI, hsel, -⟩ := edf_cbs_loop_inv args.current_time args.run_queue
    (fun h => ∀ p ∈ args.run_queue, (h p).cbs.is_hard_rt = 0 ∧ (h p).cbs.is_throttled ≠ 0 →
        args.current_time < (h p).current_deadline)
    (by
      intro h c hI hs _ p hp hst
      by_cases hpc : p = c
      · subst hpc
        rw [Heap.set_same] at hst
        exact absurd hst (edf_select_some h args.run_queue p hs).2.1
      · rw [Heap.set_other _ _ _ _ hpc] at hst ⊢
        exact hI p hp hst)
    fuel _ ob m'
    (fun p hp _ => edf_loop_entry_deadlines m args hc p hp)
    hl
  exact ⟨hI, hsel⟩

/-- The allocation of the normal path is the formula of the specification,
provided no release-queue entry refers to the selected thread. -/
theorem edf_lookahead_eq_spec (ct : Int) (m : Heap) (args : threads_sched_args) (b : Nat)
    (hb : edf_eligible (m b))
    (hd : ∀ p ∈ args.run_queue, (m p).cbs.is_hard_rt = 0 ∧ (m p).cbs.is_throttled ≠ 0 →
      ct < (m p).current_deadline)
    (hne : ∀ e ∈ args.release_queue, e.thrd ≠ b) :
    (if (edf_lookahead ct m args b).2 > 0 then (edf_lookahead ct m args b).2 else 1)
      = spec_allocation m ct b args.run_queue args.release_queue := by
  unfold edf_lookahead spec_allocation
  dsimp only
  rw [edf_arrival_fold ct b m _ _ hne, edf_replenish_fold ct b m hb _ _ hd,
    edf_budget_cap_eq_spec]
  simp only [max_def]
  split_ifs <;> omega

theorem spec_allocation_perm (m : Heap) (ct : Int) (b : Nat) {rq1 rq2 : List Nat}
    {rel1 rel2 : List release_queue_entry} (hrq : rq1.Perm rq2) (hrel : rel1.Perm rel2) :
    spec_allocation m ct b rq1 rel1 = spec_allocation m ct b rq2 rel2 := by
  unfold spec_allocation spec_arrival_caps spec_replenish_caps
  rw [min_with_perm _ ((hrel.filter _).map _), min_with_perm _ ((hrq.filter _).map _)]

theorem unthrottle_thread_ID (ct : Int) (t : thread) : (unthrottle_thread ct t).ID = t.ID := by
  unfold unthrottle_thread; split <;> rfl

theorem throttle_thread_ID (ct : Int) (t : thread) : (throttle_thread ct t).ID = t.ID := by
  unfold throttle_thread; split <;> rfl

theorem edf_unthrottle_perm (ct : Int) (m : Heap) {rq1 rq2 : List Nat} (h : rq1.Perm rq2) :
    edf_unthrottle ct m rq1 = edf_unthrottle ct m rq2 := by
  funext q
  rw [edf_unthrottle_apply, edf_unthrottle_apply]
  by_cases hq : q ∈ rq1
  · rw [if_pos hq, if_pos (h.mem_iff.1 hq)]
  · rw [if_neg hq, if_neg (fun hc => hq (h.mem_iff.2 hc))]

theorem edf_throttle_perm (ct : Int) (m : Heap) {rq1 rq2 : List Nat} (h : rq1.Perm rq2) :
    edf_throttle ct m rq1 = edf_throttle ct m rq2 := by
  funext q
  rw [edf_throttle_apply, edf_throttle_apply]
  by_cases hq : q ∈ rq1
  · rw [if_pos hq, if_pos (h.mem_iff.1 hq)]
  · rw [if_neg hq, if_neg (fun hc => hq (h.mem_iff.2 hc))]

/-- With distinct IDs the thread reported by `__check_deadline_miss` does not
depend on the order of the run queue. -/
theorem check_deadline_miss_perm (m : Heap) (ct : Int) {rq1 rq2 : List Nat}
    (h : rq1.Perm rq2)
    (hid : ∀ p ∈ rq2, ∀ q ∈ rq2, (m p).ID = (m q).ID → p = q) :
    __check_deadline_miss m rq1 ct = __check_deadline_miss m rq2 ct := by
  cases h1 : __check_deadline_miss m rq1 ct with
  | none =>
    cases h2 : __check_deadline_miss m rq2 ct with
    | none => rfl
    | some p =>
      obtain ⟨hp, hle, -⟩ := check_deadline_miss_some m ct rq2 p h2
      have := check_deadline_miss_none m ct rq1 h1 p (h.mem_iff.2 hp)
      omega
  | some p1 =>
    obtain ⟨hp1, hle1, hmin1⟩ := check_deadline_miss_some m ct rq1 p1 h1
    cases h2 : __check_deadline_miss m rq2 ct with
    | none =>
      have := check_deadline_miss_none m ct rq2 h2 p1 (h.mem_iff.1 hp1)
      omega
    | some p2 =>
      obtain ⟨hp2, hle2, hmin2⟩ := check_deadline_miss_some m ct rq2 p2 h2
      have ha := hmin1 p2 (h.mem_iff.2 hp2) hle2
      have hb := hmin2 p1 (h.mem_iff.1 hp1) hle1
      rw [hid p1 (h.mem_iff.1 hp1) p2 hp2 (le_antisymm ha hb)]

/-- With distinct IDs the thread selected by the EDF loop does not depend on the
order of the run queue. -/
theorem edf_select_perm (m : Heap) {rq1 rq2 : List Nat} (h : rq1.Perm rq2)
    (hid : ∀ p ∈ rq2, ∀ q ∈ rq2, (m p).ID = (m q).ID → p = q) :
    edf_select m rq1 = edf_select m rq2 := by
  cases h1 : edf_select m rq1 with
  | none =>
    cases h2 : edf_select m rq2 with
    | none => rfl
    | some p =>
      obtain ⟨hp, he, -⟩ := edf_select_some m rq2 p h2
      exact absurd he (edf_select_none m rq1 h1 p (h.mem_iff.2 hp))
  | some p1 =>
    obtain ⟨hp1, he1, hmin1⟩ := edf_select_some m rq1 p1 h1
    cases h2 : edf_select m rq2 with
    | none => exact absurd he1 (edf_select_none m rq2 h2 p1 (h.mem_iff.1 hp1))
    | some p2 =>
      obtain ⟨hp2, he2, hmin2⟩ := edf_select_some m rq2 p2 h2
      have ha := hmin1 p2 (h.mem_iff.2 hp2) he2
      have hb := hmin2 p1 (h.mem_iff.1 hp1) he1
      have hids : (m p1).ID = (m p2).ID := by
        unfold edf_before at ha hb
        omega
      rw [hid p1 (h.mem_iff.1 hp1) p2 hp2 hids]

/-- With distinct IDs the `do ... while` loop does not depend on the order of
the run queue. -/
theorem edf_cbs_loop_perm (ct : Int) {rq1 rq2 : List Nat} (h : rq1.Perm rq2) :
    ∀ (fuel : Nat) (m : Heap),
      (∀ p ∈ rq2, ∀ q ∈ rq2, (m p).ID = (m q).ID → p = q) →
      edf_cbs_loop ct rq1 fuel m = edf_cbs_loop ct rq2 fuel m := by
  intro fuel
  induction fuel with
  | zero => intro m _; rfl
  | succ n ih =>
    intro m hid
    unfold edf_cbs_loop
    rw [edf_select_perm m h hid]
    cases hsel : edf_select m rq2 with
    | none => rfl
    | some b =>
      dsimp only
      by_cases hp : edf_must_postpone ct (m b)
      · rw [if_pos hp, if_pos hp]
        apply ih
        intro p hp1 q hq1 hpq
        have hID : ∀ x, ((m.set b (edf_postpone ct (m b))) x).ID = (m x).ID := by
          intro x
          by_cases hx : x = b
          · subst hx
            rw [Heap.set_same]
            rfl
          · rw [Heap.set_other _ _ _ _ hx]
        rw [hID, hID] at hpq
        exact hid p hp1 q hq1 hpq
      · rw [if_neg hp, if_neg hp]

theorem earliest_arrival_perm {rel1 rel2 : List release_queue_entry} (h : rel1.Perm rel2) :
    earliest_arrival rel1 = earliest_arrival rel2 := by
  unfold earliest_arrival
  exact h.foldl_eq' (fun x _ y _ z => by split_ifs <;> omega) INT_MAX

/-- For run queues with distinct IDs whose threads are not referred to by the
release queue, the decision of `schedule_edf_cbs` and the heap it leaves do not
depend on the order of either queue. -/
theorem schedule_edf_cbs_perm (fuel : Nat) (m : Heap) (args args1 : threads_sched_args)
    (hct : args1.current_time = args.current_time)
    (hrq : args1.run_queue.Perm args.run_queue)
    (hrel : args1.release_queue.Perm args.release_queue)
    (hid : ∀ p ∈ args.run_queue, ∀ q ∈ args.run_queue, (m p).ID = (m q).ID → p = q)
    (hdisj : ∀ e ∈ args.release_queue, e.thrd ∉ args.run_queue) :
    schedule_edf_cbs fuel m args1 = schedule_edf_cbs fuel m args := by
  have hid1 : ∀ p ∈ args.run_queue, ∀ q ∈ args.run_queue,
      (edf_unthrottle args.current_time m args.run_queue p).ID =
        (edf_unthrottle args.current_time m args.run_queue q).ID → p = q := by
    intro p hp q hq hpq
    rw [edf_unthrottle_apply, edf_unthrottle_apply, if_pos hp, if_pos hq,
      unthrottle_thread_ID, unthrottle_thread_ID] at hpq
    exact hid p hp q hq hpq
  have hid2 : ∀ p ∈ args.run_queue, ∀ q ∈ args.run_queue,
      (edf_throttle args.current_time
          (edf_unthrottle args.current_time m args.run_queue) args.run_queue p).ID =
        (edf_throttle args.current_time
          (edf_unthrottle args.current_time m args.run_queue) args.run_queue q).ID →
        p = q := by
    intro p hp q hq hpq
    rw [edf_throttle_apply, edf_throttle_apply, if_pos hp, if_pos hq,
      throttle_thread_ID, throttle_thread_ID] at hpq
    exact hid1 p hp q hq hpq
  unfold schedule_edf_cbs
  dsimp only
  rw [hct, edf_unthrottle_perm _ _ hrq, check_deadline_miss_perm _ _ hrq hid1]
  cases hc : __check_deadline_miss (edf_unthrottle args.current_time m args.run_queue)
      args.run_queue args.current_time with
  | some p => rfl
  | none =>
    dsimp only
    by_cases he : args.run_queue = []
    · have he1 : args1.run_queue = [] := by
        rw [he] at hrq
        exact hrq.eq_nil
      rw [if_pos he, if_pos he1]
      unfold idle_result
      rw [earliest_arrival_perm hrel]
    · have he1 : ¬ args1.run_queue = [] := by
        intro hx
        rw [hx] at hrq
        exact he hrq.symm.eq_nil
      rw [if_neg he, if_neg he1, edf_throttle_perm _ _ hrq,
        edf_cbs_loop_perm _ hrq _ _ hid2]
      cases hl : edf_cbs_loop args.current_time args.run_queue fuel
          (edf_throttle args.current_time
            (edf_unthrottle args.current_time m args.run_queue) args.run_queue) with
      | none => rfl
      | some res =>
        obtain ⟨ob, m3⟩ := res
        cases ob with
        | none => rfl
        | some b =>
          dsimp only
          obtain ⟨hd, hsel⟩ := edf_loop_throttled_deadlines m args fuel _ m3 hc hl
          obtain ⟨hb, helig, -⟩ := edf_select_some m3 args.run_queue b hsel
          have hne : ∀ e ∈ args.release_queue, e.thrd ≠ b := by
            intro e hemem hcon
            exact hdisj e hemem (by rw [hcon]; exact hb)
          have h1 := edf_lookahead_eq_spec args.current_time m3 args b helig hd hne
          have h2 := edf_lookahead_eq_spec args.current_time m3 args1 b helig
            (fun p hp => hd p (hrq.mem_iff.1 hp))
            (fun e hemem => hne e (hrel.mem_iff.1 hemem))
          rw [edf_lookahead_heap, edf_lookahead_heap, h1, h2,
            spec_allocation_perm m3 args.current_time b hrq hrel]

/-- C4 (EDF+CBS minimal-preemption time).  For run and release queues that
refer to disjoint threads, `schedule_edf_cbs` returns, and whenever it selects a
run-queue thread `b` (non-zero allocation, so no deadline miss) the allocated
time is `max(1, min(A, P, Q))` with `A`, `P`, `Q` as in the specification,
read on the heap left by the call.  The result does not depend on the order of
either queue: the formula has the same value on any reordering of the queues,
and for run-queue threads with distinct IDs the call on any reordering of
either queue returns the same decision and leaves the same heap. -/
theorem edf_cbs_minimal_preemption (m : Heap) (args : threads_sched_args)
    (hdisj : ∀ e ∈ args.release_queue, e.thrd ∉ args.run_queue) :
    (∃ out, schedule_edf_cbs (args.run_queue.length + 1) m args = some out) ∧
    ∀ (fuel : Nat) (out : threads_sched_result × Heap) (b : Nat),
      schedule_edf_cbs fuel m args = some out →
      out.1.scheduled_thread_list_member = some b →
      out.1.allocated_time ≠ 0 →
      out.1.allocated_time =
        spec_allocation out.2 args.current_time b args.run_queue args.release_queue ∧
      (∀ (rq : List Nat) (rel : List release_queue_entry),
        rq.Perm args.run_queue → rel.Perm args.release_queue →
        out.1.allocated_time = spec_allocation out.2 args.current_time b rq rel) ∧
      ∀ args1 : threads_sched_args,
        args1.current_time = args.current_time →
        args1.run_queue.Perm args.run_queue →
        args1.release_queue.Perm args.release_queue →
        (∀ p ∈ args.run_queue, ∀ q ∈ args.run_queue, (m p).ID = (m q).ID → p = q) →
        schedule_edf_cbs fuel m args1 = some out := by
  refine ⟨schedule_edf_cbs_returns m args _ (Nat.lt_succ_self _), ?_⟩
  intro fuel out b h hs ha
  have hformula : out.1.allocated_time =
      spec_allocation out.2 args.current_time b args.run_queue args.release_queue := by
    obtain ⟨r, m'⟩ := out
    obtain ⟨hc, _, hl, hr⟩ := schedule_edf_cbs_dispatch fuel m args r m' b h hs ha
    obtain ⟨hd, hsel⟩ := edf_loop_throttled_deadlines m args fuel _ m' hc hl
    obtain ⟨hb, helig, _⟩ := edf_select_some m' args.run_queue b hsel
    have hne : ∀ e ∈ args.release_queue, e.thrd ≠ b := by
      intro e hemem hcon
      exact hdisj e hemem (by rw [hcon]; exact hb)
    dsimp only
    rw [hr, edf_lookahead_eq_spec args.current_time m' args b helig hd hne]
  refine ⟨hformula, ?_, ?_⟩
  · intro rq rel hrq hrel
    rw [hformula]
    exact (spec_allocation_perm out.2 args.current_time b hrq hrel).symm
  · intro args1 hct hrq hrel hid
    rw [schedule_edf_cbs_perm fuel m args args1 hct hrq hrel hid hdisj]
    exact h

/-- Witness for C4: a hard thread with 50 ticks left and deadline 100 is cut to
12 ticks, the arrival time of a thread that will have deadline 52; the
replenishment of a throttled soft thread at time 30 and a later, less urgent
arrival at time 3 do not bind.  The call on both queues in reversed order
returns the same. -/
theorem edf_cbs_minimal_preemption_witness :
    (∀ e ∈ look_args.release_queue, e.thrd ∉ look_args.run_queue) ∧
    schedule_edf_cbs 3 look_heap look_args = some look_out ∧
    look_out.1 = ⟨some 0, 12⟩ ∧
    spec_allocation look_out.2 look_args.current_time 0 look_args.run_queue
      look_args.release_queue = 12 ∧
    look_out.1.allocated_time =
      spec_allocation look_out.2 look_args.current_time 0 look_args.run_queue
        look_args.release_queue ∧
    schedule_edf_cbs 3 look_heap ⟨0, [1, 0], [⟨3, 3⟩, ⟨12, 2⟩]⟩ = some look_out :=
  ⟨by decide, rfl, rfl, by decide,
    ((edf_cbs_minimal_preemption look_heap look_args (by decide)).2 3 look_out 0 rfl rfl
      (by decide)).1,
    ((edf_cbs_minimal_preemption look_heap look_args (by decide)).2 3 look_out 0 rfl rfl
      (by decide)).2.2 ⟨0, [1, 0], [⟨3, 3⟩, ⟨12, 2⟩]⟩ rfl (by decide) (by decide)
      (by decide)⟩

/-! ## EDF+CBS: postponement -/

/-- Step 1 does nothing when no deadline of the run queue is reached. -/
theorem edf_unthrottle_of_no_miss (ct : Int) (m : Heap) (rq : List Nat)
    (h : ∀ p ∈ rq, ct < (m p).current_deadline) : edf_unthrottle ct m rq = m := by
  funext q
  rw [edf_unthrottle_apply]
  split
  · rename_i hq
    unfold unthrottle_thread
    rw [if_neg (fun hc => absurd hc.2.2 (not_le.2 (h q hq)))]
  · rfl

theorem check_deadline_miss_eq_none (m : Heap) (ct : Int) (rq : List Nat)
    (h : ∀ p ∈ rq, ct < (m p).current_deadline) : __check_deadline_miss m rq ct = none := by
  cases hc : __check_deadline_miss m rq ct with
  | none => rfl
  | some p =>
    obtain ⟨hp, hle, -⟩ := check_deadline_miss_some m ct rq p hc
    exact absurd hle (not_le.2 (h p hp))

/-- A thread that is eligible after the throttling loop was eligible before it
and has not been changed by it. -/
theorem throttle_thread_eligible (ct : Int) (t : thread)
    (h : edf_eligible (throttle_thread ct t)) : throttle_thread ct t = t ∧ edf_eligible t := by
  unfold throttle_thread at h ⊢
  by_cases hc : t.cbs.is_hard_rt = 0 ∧ t.cbs.is_throttled = 0 ∧ t.cbs.remaining_budget ≤ 0
  · rw [if_pos hc] at h
    exact absurd ⟨hc.1, one_ne_zero⟩ h
  · rw [if_neg hc] at h ⊢
    exact ⟨rfl, h⟩

/-- The first iteration of the loop when the selected thread must be
postponed. -/
theorem edf_cbs_loop_first (ct : Int) (rq : List Nat) (fuel : Nat) (m : Heap) (b : Nat)
    (out : Option Nat × Heap) (hsel : edf_select m rq = some b)
    (hp : edf_must_postpone ct (m b)) (h : edf_cbs_loop ct rq fuel m = some out) :
    ∃ n, fuel = n + 1 ∧
      edf_cbs_loop ct rq n (m.set b (edf_postpone ct (m b))) = some out := by
  cases fuel with
  | zero => simp [edf_cbs_loop] at h
  | succ n =>
    unfold edf_cbs_loop at h
    rw [hsel] at h
    dsimp only at h
    rw [if_pos hp] at h
    exact ⟨n, rfl, h⟩

/-- The selection returns a thread that is strictly first among the eligible
threads. -/
theorem edf_select_of_strict_min (m : Heap) (rq : List Nat) (b : Nat) (hb : b ∈ rq)
    (hbe : edf_eligible (m b))
    (hmin : ∀ q ∈ rq, edf_eligible (m q) → q ≠ b →
      lex_smaller (m b).current_deadline (m b).ID (m q).current_deadline (m q).ID) :
    edf_select m rq = some b := by
  cases hs : edf_select m rq with
  | none => exact absurd hbe (edf_select_none m rq hs b hb)
  | some c =>
    obtain ⟨hc, hce, hcmin⟩ := edf_select_some m rq c hs
    by_cases hcb : c = b
    · rw [hcb]
    · have h1 := hmin c hc hce hcb
      have h2 := hcmin b hb hbe
      unfold lex_smaller at h1
      unfold edf_before at h2
      omega

theorem unthrottle_thread_period (ct : Int) (t : thread) :
    (unthrottle_thread ct t).period = t.period := by
  unfold unthrottle_thread; split <;> rfl

theorem unthrottle_thread_budget (ct : Int) (t : thread) :
    (unthrottle_thread ct t).cbs.budget = t.cbs.budget := by
  unfold unthrottle_thread; split <;> rfl

/-- The loop postpones the thread that is first after step 1: if after step 1
no deadline is reached and the first thread `b` among the run-queue threads
that are not throttled soft threads is soft, has budget left and fails the
bandwidth test, the call leaves `b` postponed. -/
theorem edf_cbs_postpones_first (m : Heap) (args : threads_sched_args) (b : Nat)
    (hmiss : ∀ p ∈ args.run_queue,
      args.current_time <
        (edf_unthrottle args.current_time m args.run_queue p).current_deadline)
    (hb : b ∈ args.run_queue)
    (hbe : edf_eligible (edf_unthrottle args.current_time m args.run_queue b))
    (hmin : ∀ q ∈ args.run_queue,
      edf_eligible (edf_unthrottle args.current_time m args.run_queue q) → q ≠ b →
      lex_smaller
        (edf_unthrottle args.current_time m args.run_queue b).current_deadline
        (edf_unthrottle args.current_time m args.run_queue b).ID
        (edf_unthrottle args.current_time m args.run_queue q).current_deadline
        (edf_unthrottle args.current_time m args.run_queue q).ID)
    (hsoft : (edf_unthrottle args.current_time m args.run_queue b).cbs.is_hard_rt = 0)
    (hrb : 0 < (edf_unthrottle args.current_time m args.run_queue b).cbs.remaining_budget)
    (hbw : (edf_unthrottle args.current_time m args.run_queue b).cbs.remaining_budget *
        (edf_unthrottle args.current_time m args.run_queue b).period >
      (edf_unthrottle args.current_time m args.run_queue b).cbs.budget *
        ((edf_unthrottle args.current_time m args.run_queue b).current_deadline -
          args.current_time)) :
    ∀ (fuel : Nat) (out : threads_sched_result × Heap),
      schedule_edf_cbs fuel m args = some out →
      (out.2 b).current_deadline = args.current_time + (out.2 b).period ∧
      (out.2 b).cbs.remaining_budget = (out.2 b).cbs.budget ∧
      (out.2 b).period = (m b).period ∧ (out.2 b).cbs.budget = (m b).cbs.budget := by
  intro fuel out h
  obtain ⟨r, m'⟩ := out
  dsimp only
  generalize hm1 : edf_unthrottle args.current_time m args.run_queue = m1 at *
  have hper : (m1 b).period = (m b).period := by
    rw [← hm1, edf_unthrottle_apply, if_pos hb, unthrottle_thread_period]
  have hbud : (m1 b).cbs.budget = (m b).cbs.budget := by
    rw [← hm1, edf_unthrottle_apply, if_pos hb, unthrottle_thread_budget]
  have hnone := check_deadline_miss_eq_none m1 args.current_time args.run_queue hmiss
  have hm2b : edf_throttle args.current_time m1 args.run_queue b = m1 b := by
    rw [edf_throttle_apply, if_pos hb]
    exact throttle_thread_of_budget _ _ hrb
  have hsel : edf_select (edf_throttle args.current_time m1 args.run_queue) args.run_queue
      = some b := by
    apply edf_select_of_strict_min _ _ _ hb
    · rw [hm2b]; exact hbe
    · intro q hq hqe hqb
      rw [edf_throttle_apply, if_pos hq] at hqe
      obtain ⟨e1, e2⟩ := throttle_thread_eligible _ _ hqe
      rw [hm2b, edf_throttle_apply, if_pos hq, e1]
      exact hmin q hq e2 hqb
  have hpost : edf_must_postpone args.current_time
      (edf_throttle args.current_time m1 args.run_queue b) := by
    rw [hm2b]
    exact ⟨hsoft, hrb, Or.inr hbw⟩
  have hloop : ∀ ob, edf_cbs_loop args.current_time args.run_queue fuel
      (edf_throttle args.current_time m1 args.run_queue) = some (ob, m') →
      (m' b).current_deadline = args.current_time + (m' b).period ∧
      (m' b).cbs.remaining_budget = (m' b).cbs.budget ∧
      (m' b).period = (m b).period ∧ (m' b).cbs.budget = (m b).cbs.budget := by
    intro ob hl
    obtain ⟨n, -, hl'⟩ := edf_cbs_loop_first _ _ _ _ b _ hsel hpost hl
    obtain ⟨hI, -, -⟩ := edf_cbs_loop_inv args.current_time args.run_queue
      (fun h => (h b).current_deadline = args.current_time + (h b).period ∧
        (h b).cbs.remaining_budget = (h b).cbs.budget ∧
        (h b).period = (m b).period ∧ (h b).cbs.budget = (m b).cbs.budget)
      (by
        intro h c hI _ _
        by_cases hbc : b = c
        · subst hbc
          rw [Heap.set_same]
          exact ⟨rfl, rfl, hI.2.2.1, hI.2.2.2⟩
        · rw [Heap.set_other _ _ _ _ hbc]
          exact hI)
      n _ ob m'
      (by
        dsimp only
        rw [Heap.set_same, hm2b]
        exact ⟨rfl, rfl, hper, hbud⟩)
      hl'
    exact hI
  rcases schedule_edf_cbs_cases fuel m args r m' h with
    ⟨p, hc, _, _⟩ | ⟨_, he, _, _⟩ | ⟨_, _, hl, _⟩ | ⟨c, _, _, hl, _⟩
  · rw [hm1, hnone] at hc
    cases hc
  · rw [he] at hb
    simp at hb
  · rw [hm1] at hl
    exact hloop _ hl
  · rw [hm1] at hl
    exact hloop _ hl

/-- A returning 32-bit call corresponds to a returning exact call with the
same selected thread and heap, when steps 1 and 5 do not overflow. -/
theorem schedule_edf_cbs_int32_some (fuel : Nat) (m : Heap) (args : threads_sched_args)
    (hfit : ∀ p ∈ args.run_queue, edf_fits args.current_time (m p))
    (out : threads_sched_result × Heap)
    (h : schedule_edf_cbs_int32 fuel m args = some out) :
    ∃ out1, schedule_edf_cbs fuel m args = some out1 ∧
      out1.1.scheduled_thread_list_member = out.1.scheduled_thread_list_member ∧
      out1.2 = out.2 := by
  have heq := schedule_edf_cbs_int32_heap fuel m args hfit
  rw [h] at heq
  cases hx : schedule_edf_cbs fuel m args with
  | none => rw [hx] at heq; simp at heq
  | some out1 =>
    rw [hx] at heq
    simp only [Option.map_some', Option.some.injEq, Prod.mk.injEq] at heq
    exact ⟨out1, rfl, heq.1.symm, heq.2.symm⟩

/-- The 32-bit call returns with fuel `n + 1` when steps 1 and 5 do not
overflow. -/
theorem schedule_edf_cbs_int32_returns (m : Heap) (args : threads_sched_args)
    (hfit : ∀ p ∈ args.run_queue, edf_fits args.current_time (m p)) :
    ∃ out, schedule_edf_cbs_int32 (args.run_queue.length + 1) m args = some out := by
  have heq := schedule_edf_cbs_int32_heap (args.run_queue.length + 1) m args hfit
  obtain ⟨out1, hout1⟩ := schedule_edf_cbs_returns m args _ (Nat.lt_succ_self _)
  rw [hout1] at heq
  cases hx : schedule_edf_cbs_int32 (args.run_queue.length + 1) m args with
  | none => rw [hx] at heq; simp at heq
  | some out => exact ⟨out, rfl⟩

/-- Counterexample for C5 as stated, in 32-bit arithmetic (no operation
overflows in it).  At time 10 the run queue holds a throttled soft thread with
`current_deadline = 10`, `period = 5`, `budget = 1` and the soft thread `b`,
not throttled, with `current_deadline = 16`, `period = 10`, `budget = 2`,
`remaining_budget = 2`.  On entry `b` is the only thread that is not throttled,
and `2 * 10 > 2 * (16 - 10)`.  Step 1 replenishes the throttled thread to
deadline 15; no deadline miss is reported, that thread is selected and passes
the bandwidth test, and `b` keeps `current_deadline = 16`, not `10 + 10`. -/
theorem edf_cbs_postpones_counterexample :
    1 ∈ ahead_args.run_queue ∧
    edf_eligible (ahead_heap 1) ∧
    (∀ q ∈ ahead_args.run_queue, edf_eligible (ahead_heap q) → q = 1) ∧
    (ahead_heap 1).cbs.is_hard_rt = 0 ∧ 0 < (ahead_heap 1).cbs.remaining_budget ∧
    (ahead_heap 1).cbs.remaining_budget * (ahead_heap 1).period >
      (ahead_heap 1).cbs.budget *
        ((ahead_heap 1).current_deadline - ahead_args.current_time) ∧
    (∀ p ∈ ahead_args.run_queue, edf_fits ahead_args.current_time (ahead_heap p)) ∧
    schedule_edf_cbs_int32 3 ahead_heap ahead_args = some ahead_out ∧
    ahead_out.1 = ⟨some 0, 1⟩ ∧
    (ahead_out.2 1).current_deadline = 16 ∧
    (ahead_out.2 1).current_deadline ≠
      ahead_args.current_time + (ahead_out.2 1).period := by
  refine ⟨by decide, by decide, by decide, by decide, by decide, by decide, by decide,
    rfl, by decide, by decide, by decide⟩

/-- C5, amended (EDF+CBS postponement).  Take an input for which, in the state
after step 1 (the replenishment of the throttled soft threads whose deadline is
reached), no run-queue thread has `current_deadline ≤ current_time` and the
first thread `b` in (`current_deadline`, `ID`) order among the run-queue
threads that are not throttled soft threads is soft, has
`remaining_budget > 0` and `remaining_budget * period > budget *
(current_deadline - current_time)`, and on which no `int` operation of steps 1
and 5 overflows.  Then `schedule_edf_cbs`, computed with 32-bit arithmetic,
returns and leaves `b.current_deadline = current_time + b.period` and
`b.remaining_budget = b.budget`, with `period` and `budget` untouched. -/
theorem edf_cbs_postpones (m : Heap) (args : threads_sched_args) (b : Nat)
    (hmiss : ∀ p ∈ args.run_queue,
      args.current_time <
        (edf_unthrottle_int32 args.current_time m args.run_queue p).current_deadline)
    (hb : b ∈ args.run_queue)
    (hbe : edf_eligible (edf_unthrottle_int32 args.current_time m args.run_queue b))
    (hmin : ∀ q ∈ args.run_queue,
      edf_eligible (edf_unthrottle_int32 args.current_time m args.run_queue q) → q ≠ b →
      lex_smaller
        (edf_unthrottle_int32 args.current_time m args.run_queue b).current_deadline
        (edf_unthrottle_int32 args.current_time m args.run_queue b).ID
        (edf_unthrottle_int32 args.current_time m args.run_queue q).current_deadline
        (edf_unthrottle_int32 args.current_time m args.run_queue q).ID)
    (hsoft : (edf_unthrottle_int32 args.current_time m args.run_queue b).cbs.is_hard_rt = 0)
    (hrb : 0 <
      (edf_unthrottle_int32 args.current_time m args.run_queue b).cbs.remaining_budget)
    (hbw : (edf_unthrottle_int32 args.current_time m args.run_queue b).cbs.remaining_budget *
        (edf_unthrottle_int32 args.current_time m args.run_queue b).period >
      (edf_unthrottle_int32 args.current_time m args.run_queue b).cbs.budget *
        ((edf_unthrottle_int32 args.current_time m args.run_queue b).current_deadline -
          args.current_time))
    (hfit : ∀ p ∈ args.run_queue, edf_fits args.current_time (m p)) :
    (∃ out, schedule_edf_cbs_int32 (args.run_queue.length + 1) m args = some out) ∧
    ∀ (fuel : Nat) (out : threads_sched_result × Heap),
      schedule_edf_cbs_int32 fuel m args = some out →
      (out.2 b).current_deadline = args.current_time + (out.2 b).period ∧
      (out.2 b).cbs.remaining_budget = (out.2 b).cbs.budget ∧
      (out.2 b).period = (m b).period ∧ (out.2 b).cbs.budget = (m b).cbs.budget := by
  refine ⟨schedule_edf_cbs_int32_returns m args hfit, ?_⟩
  intro fuel out h
  obtain ⟨out1, hout1, -, hheap⟩ := schedule_edf_cbs_int32_some fuel m args hfit out h
  rw [edf_unthrottle_int32_eq _ _ _ (fun p hp => (hfit p hp).1)] at hmiss hbe hmin hsoft hrb hbw
  rw [← hheap]
  exact edf_cbs_postpones_first m args b hmiss hb hbe hmin hsoft hrb hbw fuel out1 hout1

/-- Witness for the amended C5: the scenario of the spec, `budget = 2`,
`period = 10`, `current_deadline = 5`, `current_time = 4`,
`remaining_budget = 2`, ends with `current_deadline = 14` and
`remaining_budget = 2`. -/
theorem edf_cbs_postpones_witness :
    schedule_edf_cbs_int32 2 post_heap post_args = some post_out_int32 ∧
    (post_out_int32.2 0).current_deadline = 14 ∧
    (post_out_int32.2 0).cbs.remaining_budget = 2 ∧
    ((post_out_int32.2 0).current_deadline =
        post_args.current_time + (post_out_int32.2 0).period ∧
      (post_out_int32.2 0).cbs.remaining_budget = (post_out_int32.2 0).cbs.budget ∧
      (post_out_int32.2 0).period = (post_heap 0).period ∧
      (post_out_int32.2 0).cbs.budget = (post_heap 0).cbs.budget) :=
  ⟨rfl, by decide, by decide,
    (edf_cbs_postpones post_heap post_args 0 (by decide) (by decide) (by decide)
      (by decide) (by decide) (by decide) (by decide) (by decide)).2 2 post_out_int32 rfl⟩

/-! ## EDF+CBS: new throttling -/

/-- The throttling loop on a soft, non-throttled thread without budget. -/
theorem throttle_thread_exhausted (ct : Int) (t : thread) (hs : t.cbs.is_hard_rt = 0)
    (ht : t.cbs.is_throttled = 0) (hb : t.cbs.remaining_budget ≤ 0) :
    (throttle_thread ct t).cbs.is_hard_rt = 0 ∧ (throttle_thread ct t).cbs.is_throttled = 1 ∧
      (throttle_thread ct t).cbs.throttled_arrived_time = ct := by
  unfold throttle_thread
  rw [if_pos ⟨hs, ht, hb⟩]
  exact ⟨hs, rfl, rfl⟩

/-- Step 1 leaves a thread that is not throttled alone. -/
theorem unthrottle_thread_of_not_throttled (ct : Int) (t : thread)
    (ht : t.cbs.is_throttled = 0) : unthrottle_thread ct t = t := by
  unfold unthrottle_thread
  rw [if_neg (fun hc => hc.2.1 ht)]

/-- C6 (EDF+CBS new throttling).  `schedule_edf_cbs` returns, and in every call
that does not return a deadline miss (non-zero allocation), every soft
run-queue thread that on entry is not throttled and has `remaining_budget ≤ 0`
ends the call with `is_throttled = 1` and `throttled_arrived_time =
current_time`, and is not the thread returned. -/
theorem edf_cbs_new_throttling (m : Heap) (args : threads_sched_args) :
    (∃ out, schedule_edf_cbs (args.run_queue.length + 1) m args = some out) ∧
    ∀ (fuel : Nat) (out : threads_sched_result × Heap) (x : Nat),
      schedule_edf_cbs fuel m args = some out →
      out.1.allocated_time ≠ 0 →
      x ∈ args.run_queue → (m x).cbs.is_hard_rt = 0 → (m x).cbs.is_throttled = 0 →
      (m x).cbs.remaining_budget ≤ 0 →
      (out.2 x).cbs.is_throttled = 1 ∧
      (out.2 x).cbs.throttled_arrived_time = args.current_time ∧
      out.1.scheduled_thread_list_member ≠ some x := by
  refine ⟨schedule_edf_cbs_returns m args _ (Nat.lt_succ_self _), ?_⟩
  intro fuel out x h ha hx hs ht hb
  obtain ⟨r, m'⟩ := out
  dsimp only at ha ⊢
  have hm2 : edf_throttle args.current_time
      (edf_unthrottle args.current_time m args.run_queue) args.run_queue x
      = throttle_thread args.current_time (m x) := by
    rw [edf_throttle_apply, if_pos hx, edf_unthrottle_apply, if_pos hx,
      unthrottle_thread_of_not_throttled _ _ ht]
  obtain ⟨t1, t2, t3⟩ := throttle_thread_exhausted args.current_time (m x) hs ht hb
  have hloop : ∀ ob, edf_cbs_loop args.current_time args.run_queue fuel
      (edf_throttle args.current_time
        (edf_unthrottle args.current_time m args.run_queue) args.run_queue)
      = some (ob, m') →
      (m' x).cbs.is_throttled = 1 ∧ (m' x).cbs.throttled_arrived_time = args.current_time ∧
        ob ≠ some x := by
    intro ob hl
    obtain ⟨⟨i1, i2, i3⟩, hsel, -⟩ := edf_cbs_loop_inv args.current_time args.run_queue
      (fun h => (h x).cbs.is_hard_rt = 0 ∧ (h x).cbs.is_throttled = 1 ∧
        (h x).cbs.throttled_arrived_time = args.current_time)
      (by
        intro h c hI hc _
        have hxc : x ≠ c := by
          intro heq
          subst heq
          exact (edf_select_some h args.run_queue x hc).2.1
            ⟨hI.1, by rw [hI.2.1]; exact one_ne_zero⟩
        rw [Heap.set_other _ _ _ _ hxc]
        exact hI)
      fuel _ ob m'
      (by
        dsimp only
        rw [hm2]
        exact ⟨t1, t2, t3⟩)
      hl
    refine ⟨i2, i3, ?_⟩
    intro hob
    rw [hob] at hsel
    exact (edf_select_some m' args.run_queue x hsel).2.1
      ⟨i1, by rw [i2]; exact one_ne_zero⟩
  rcases schedule_edf_cbs_cases fuel m args r m' h with
    ⟨p, _, hr, _⟩ | ⟨_, he, _, _⟩ | ⟨_, _, hl, hr⟩ | ⟨c, _, _, hl, hr⟩
  · rw [hr] at ha
    exact absurd rfl ha
  · rw [he] at hx
    simp at hx
  · obtain ⟨k1, k2, _⟩ := hloop _ hl
    rw [hr]
    exact ⟨k1, k2, by simp⟩
  · obtain ⟨k1, k2, k3⟩ := hloop _ hl
    rw [hr]
    exact ⟨k1, k2, k3⟩

/-- Witness for C6: the soft thread with `remaining_budget = 0` and the
earliest deadline is throttled at time 4 and the hard thread is dispatched
instead. -/
theorem edf_cbs_new_throttling_witness :
    schedule_edf_cbs 3 thr_heap thr_args = some thr_out ∧
    thr_out.1 = ⟨some 1, 2⟩ ∧
    ((thr_out.2 0).cbs.is_throttled = 1 ∧
      (thr_out.2 0).cbs.throttled_arrived_time = thr_args.current_time ∧
      thr_out.1.scheduled_thread_list_member ≠ some 0) :=
  ⟨rfl, rfl,
    (edf_cbs_new_throttling thr_heap thr_args).2 3 thr_out 0 rfl (by decide) (by decide)
      rfl rfl (by decide)⟩

/-! ## EDF+CBS: the budget fields of hard threads are never read -/

theorem forget_of_soft (t : thread) (h : t.cbs.is_hard_rt = 0) : forget_hard_budget t = t := by
  unfold forget_hard_budget; rw [if_pos h]

theorem forget_ID (t : thread) : (forget_hard_budget t).ID = t.ID := by
  unfold forget_hard_budget; split <;> rfl

theorem forget_current_deadline (t : thread) :
    (forget_hard_budget t).current_deadline = t.current_deadline := by
  unfold forget_hard_budget; split <;> rfl

theorem forget_period (t : thread) : (forget_hard_budget t).period = t.period := by
  unfold forget_hard_budget; split <;> rfl

theorem forget_remaining_time (t : thread) :
    (forget_hard_budget t).remaining_time = t.remaining_time := by
  unfold forget_hard_budget; split <;> rfl

theorem forget_is_hard_rt (t : thread) :
    (forget_hard_budget t).cbs.is_hard_rt = t.cbs.is_hard_rt := by
  unfold forget_hard_budget; split <;> rfl

theorem forget_is_throttled (t : thread) :
    (forget_hard_budget t).cbs.is_throttled = t.cbs.is_throttled := by
  unfold forget_hard_budget; split <;> rfl

theorem Heap.forget_apply (m : Heap) (p : Nat) : m.forget p = forget_hard_budget (m p) := rfl

theorem Heap.forget_set (m : Heap) (p : Nat) (t : thread) :
    (m.set p t).forget = m.forget.set p (forget_hard_budget t) := by
  funext q
  by_cases hq : q = p
  · subst hq; simp [Heap.forget, Heap.set]
  · simp [Heap.forget, Heap.set, hq]

theorem unthrottle_thread_forget (ct : Int) (t : thread) :
    unthrottle_thread ct (forget_hard_budget t) = forget_hard_budget (unthrottle_thread ct t) := by
  by_cases h : t.cbs.is_hard_rt = 0
  · rw [forget_of_soft t h, forget_of_soft _ (by rw [unthrottle_thread_is_hard_rt]; exact h)]
  · rw [unthrottle_thread_of_hard ct t h,
      unthrottle_thread_of_hard ct _ (by rw [forget_is_hard_rt]; exact h)]

theorem throttle_thread_forget (ct : Int) (t : thread) :
    throttle_thread ct (forget_hard_budget t) = forget_hard_budget (throttle_thread ct t) := by
  by_cases h : t.cbs.is_hard_rt = 0
  · rw [forget_of_soft t h, forget_of_soft _ (by rw [throttle_thread_is_hard_rt]; exact h)]
  · rw [throttle_thread_of_hard ct t h,
      throttle_thread_of_hard ct _ (by rw [forget_is_hard_rt]; exact h)]

theorem edf_unthrottle_forget (ct : Int) (m : Heap) (rq : List Nat) :
    edf_unthrottle ct m.forget rq = (edf_unthrottle ct m rq).forget := by
  funext q
  rw [Heap.forget_apply, edf_unthrottle_apply, edf_unthrottle_apply]
  split
  · exact unthrottle_thread_forget ct (m q)
  · rfl

theorem edf_throttle_forget (ct : Int) (m : Heap) (rq : List Nat) :
    edf_throttle ct m.forget rq = (edf_throttle ct m rq).forget := by
  funext q
  rw [Heap.forget_apply, edf_throttle_apply, edf_throttle_apply]
  split
  · exact throttle_thread_forget ct (m q)
  · rfl

theorem check_deadline_miss_forget (m : Heap) (rq : List Nat) (ct : Int) :
    __check_deadline_miss m.forget rq ct = __check_deadline_miss m rq ct := by
  unfold __check_deadline_miss
  congr 1
  funext acc th
  unfold check_deadline_miss_step
  cases acc <;> simp only [Heap.forget_apply, forget_current_deadline, forget_ID]

theorem edf_thread_cmp_congr (a b c d : thread)
    (h1 : a.current_deadline = c.current_deadline) (h2 : a.ID = c.ID)
    (h3 : b.current_deadline = d.current_deadline) (h4 : b.ID = d.ID) :
    __edf_thread_cmp a b = __edf_thread_cmp c d := by
  unfold __edf_thread_cmp
  rw [h1, h2, h3, h4]

theorem edf_select_forget (m : Heap) (rq : List Nat) :
    edf_select m.forget rq = edf_select m rq := by
  unfold edf_select
  congr 1
  funext acc th
  unfold edf_select_step
  cases acc with
  | none => simp only [Heap.forget_apply, forget_is_hard_rt, forget_is_throttled]
  | some b =>
    have hc := edf_thread_cmp_congr (forget_hard_budget (m th)) (forget_hard_budget (m b))
      (m th) (m b) (forget_current_deadline _) (forget_ID _) (forget_current_deadline _)
      (forget_ID _)
    simp only [Heap.forget_apply, forget_is_hard_rt, forget_is_throttled, hc]

theorem edf_must_postpone_forget (ct : Int) (t : thread) :
    edf_must_postpone ct (forget_hard_budget t) ↔ edf_must_postpone ct t := by
  by_cases h : t.cbs.is_hard_rt = 0
  · rw [forget_of_soft t h]
  · constructor
    · intro hp
      exact absurd (by rw [← forget_is_hard_rt]; exact hp.1) h
    · intro hp
      exact absurd hp.1 h

theorem edf_postpone_forget (ct : Int) (t : thread) :
    edf_postpone ct (forget_hard_budget t) = forget_hard_budget (edf_postpone ct t) := by
  unfold forget_hard_budget edf_postpone
  by_cases h : t.cbs.is_hard_rt = 0
  · simp only [h, if_true]
  · simp only [h, if_false]

theorem edf_cbs_loop_forget (ct : Int) (rq : List Nat) :
    ∀ (fuel : Nat) (m : Heap),
      edf_cbs_loop ct rq fuel m.forget =
        (edf_cbs_loop ct rq fuel m).map (fun o => (o.1, o.2.forget)) := by
  intro fuel
  induction fuel with
  | zero => intro m; rfl
  | succ n ih =>
    intro m
    unfold edf_cbs_loop
    rw [edf_select_forget]
    cases hs : edf_select m rq with
    | none => rfl
    | some b =>
      dsimp only
      by_cases hp : edf_must_postpone ct (m b)
      · have hp2 : edf_must_postpone ct (m.forget b) :=
          (edf_must_postpone_forget ct (m b)).2 hp
        rw [if_pos hp, if_pos hp2, ← ih, Heap.forget_set, Heap.forget_apply,
          edf_postpone_forget]
      · have hp2 : ¬ edf_must_postpone ct (m.forget b) :=
          fun h => hp ((edf_must_postpone_forget ct (m b)).1 h)
        rw [if_neg hp, if_neg hp2]
        rfl

theorem edf_budget_cap_forget (t : thread) :
    edf_budget_cap (forget_hard_budget t) = edf_budget_cap t := by
  by_cases h : t.cbs.is_hard_rt = 0
  · rw [forget_of_soft t h]
  · unfold edf_budget_cap
    rw [if_neg (by rw [forget_is_hard_rt]; exact h), if_neg h, forget_remaining_time]

theorem edf_arrival_step_eq (ct : Int) (b : Nat) (m : Heap) (a : Int)
    (e : release_queue_entry) :
    edf_arrival_step ct b (m, a) e = (m, (edf_arrival_step ct b (m, a) e).2) :=
  Prod.ext (edf_arrival_step_heap ct b (m, a) e) rfl

theorem edf_replenish_step_eq (ct : Int) (b : Nat) (m : Heap) (a : Int) (th : Nat) :
    edf_replenish_step ct b (m, a) th = (m, (edf_replenish_step ct b (m, a) th).2) :=
  Prod.ext (edf_replenish_step_heap ct b (m, a) th) rfl

theorem edf_arrival_step_forget (ct : Int) (b : Nat) (m : Heap) (a : Int)
    (e : release_queue_entry) :
    (edf_arrival_step ct b (m.forget, a) e).2 = (edf_arrival_step ct b (m, a) e).2 := by
  unfold edf_arrival_step
  dsimp only
  have hc : __edf_thread_cmp
        ((m.forget.set e.thrd
          { m.forget e.thrd with
            current_deadline := e.release_time + (m.forget e.thrd).period }) e.thrd)
        ((m.forget.set e.thrd
          { m.forget e.thrd with
            current_deadline := e.release_time + (m.forget e.thrd).period }) b)
      = __edf_thread_cmp
        ((m.set e.thrd
          { m e.thrd with current_deadline := e.release_time + (m e.thrd).period }) e.thrd)
        ((m.set e.thrd
          { m e.thrd with current_deadline := e.release_time + (m e.thrd).period }) b) := by
    by_cases hb : b = e.thrd
    · rw [hb]
      simp only [Heap.set_same]
      exact edf_thread_cmp_congr _ _ _ _
        (by simp only [Heap.forget_apply, forget_period])
        (by simp only [Heap.forget_apply, forget_ID])
        (by simp only [Heap.forget_apply, forget_period])
        (by simp only [Heap.forget_apply, forget_ID])
    · simp only [Heap.set_same, Heap.set_other _ _ _ _ hb]
      exact edf_thread_cmp_congr _ _ _ _
        (by simp only [Heap.forget_apply, forget_period])
        (by simp only [Heap.forget_apply, forget_ID])
        (by simp only [Heap.forget_apply, forget_current_deadline])
        (by simp only [Heap.forget_apply, forget_ID])
  rw [hc]
  split <;> rfl

theorem edf_replenish_step_forget (ct : Int) (b : Nat) (m : Heap) (a : Int) (th : Nat) :
    (edf_replenish_step ct b (m.forget, a) th).2 = (edf_replenish_step ct b (m, a) th).2 := by
  by_cases hs : (m th).cbs.is_hard_rt = 0
  · have hth : m.forget th = m th := forget_of_soft _ hs
    unfold edf_replenish_step
    dsimp only
    have hc : __edf_thread_cmp
          ((m.forget.set th
            { m.forget th with
              cbs := { (m.forget th).cbs with
                       is_throttled := 0, remaining_budget := (m.forget th).cbs.budget }
              current_deadline := (m.forget th).current_deadline + (m.forget th).period }) th)
          ((m.forget.set th
            { m.forget th with
              cbs := { (m.forget th).cbs with
                       is_throttled := 0, remaining_budget := (m.forget th).cbs.budget }
              current_deadline := (m.forget th).current_deadline + (m.forget th).period }) b)
        = __edf_thread_cmp
          ((m.set th
            { m th with
              cbs := { (m th).cbs with
                       is_throttled := 0, remaining_budget := (m th).cbs.budget }
              current_deadline := (m th).current_deadline + (m th).period }) th)
          ((m.set th
            { m th with
              cbs := { (m th).cbs with
                       is_throttled := 0, remaining_budget := (m th).cbs.budget }
              current_deadline := (m th).current_deadline + (m th).period }) b) := by
      rw [hth]
      by_cases hb : b = th
      · rw [hb]
        simp only [Heap.set_same]
      · simp only [Heap.set_same, Heap.set_other _ _ _ _ hb]
        exact edf_thread_cmp_congr _ _ _ _ rfl rfl
          (by simp only [Heap.forget_apply, forget_current_deadline])
          (by simp only [Heap.forget_apply, forget_ID])
    rw [hc, hth]
    split
    · split <;> rfl
    · rfl
  · unfold edf_replenish_step
    dsimp only
    have hs2 : ¬ ((m.forget th).cbs.is_hard_rt = 0 ∧ (m.forget th).cbs.is_throttled ≠ 0) :=
      fun h => hs (by rw [← forget_is_hard_rt]; exact h.1)
    rw [if_neg hs2, if_neg (fun h => hs h.1)]

theorem edf_arrival_fold_forget (ct : Int) (b : Nat) (m : Heap) :
    ∀ (l : List release_queue_entry) (a : Int),
      (l.foldl (edf_arrival_step ct b) (m.forget, a)).2 =
        (l.foldl (edf_arrival_step ct b) (m, a)).2 := by
  intro l
  induction l with
  | nil => intro a; rfl
  | cons e es ih =>
    intro a
    rw [List.foldl_cons, List.foldl_cons, edf_arrival_step_eq ct b m.forget,
      edf_arrival_step_eq ct b m, edf_arrival_step_forget, ih]

theorem edf_replenish_fold_forget (ct : Int) (b : Nat) (m : Heap) :
    ∀ (l : List Nat) (a : Int),
      (l.foldl (edf_replenish_step ct b) (m.forget, a)).2 =
        (l.foldl (edf_replenish_step ct b) (m, a)).2 := by
  intro l
  induction l with
  | nil => intro a; rfl
  | cons e es ih =>
    intro a
    rw [List.foldl_cons, List.foldl_cons, edf_replenish_step_eq ct b m.forget,
      edf_replenish_step_eq ct b m, edf_replenish_step_forget, ih]

theorem edf_lookahead_forget (ct : Int) (m : Heap) (args : threads_sched_args) (b : Nat) :
    (edf_lookahead ct m.forget args b).2 = (edf_lookahead ct m args b).2 := by
  unfold edf_lookahead
  dsimp only
  have h1 : ∀ (mm : Heap) (a : Int),
      args.release_queue.foldl (edf_arrival_step ct b) (mm, a) =
        (mm, (args.release_queue.foldl (edf_arrival_step ct b) (mm, a)).2) :=
    fun mm a => Prod.ext (foldl_fst_const _ (edf_arrival_step_heap ct b) _ _) rfl
  rw [h1 m.forget, h1 m, edf_replenish_fold_forget, edf_arrival_fold_forget,
    Heap.forget_apply, edf_budget_cap_forget]

/-- Erasing the budget fields of the hard real-time threads before the call or
after it makes no difference: `schedule_edf_cbs` never reads them. -/
theorem schedule_edf_cbs_forget (fuel : Nat) (m : Heap) (args : threads_sched_args) :
    schedule_edf_cbs fuel m.forget args =
      (schedule_edf_cbs fuel m args).map (fun o => (o.1, o.2.forget)) := by
  unfold schedule_edf_cbs
  dsimp only
  rw [edf_unthrottle_forget, check_deadline_miss_forget, edf_throttle_forget,
    edf_cbs_loop_forget]
  cases __check_deadline_miss (edf_unthrottle args.current_time m args.run_queue)
      args.run_queue args.current_time with
  | some p => rfl
  | none =>
    dsimp only
    by_cases he : args.run_queue = []
    · rw [if_pos he, if_pos he]; rfl
    · rw [if_neg he, if_neg he]
      cases edf_cbs_loop args.current_time args.run_queue fuel
          (edf_throttle args.current_time
            (edf_unthrottle args.current_time m args.run_queue) args.run_queue) with
      | none => rfl
      | some o =>
        obtain ⟨ob, m3⟩ := o
        cases ob with
        | none => rfl
        | some b =>
          simp only [Option.map_some']
          rw [edf_lookahead_forget, edf_lookahead_heap, edf_lookahead_heap]

/-- Two heaps that differ only in the budget fields of one hard real-time
thread have the same erasure. -/
theorem Heap.forget_set_budget (m : Heap) (h : Nat) (hh : (m h).cbs.is_hard_rt ≠ 0)
    (B R : Int) :
    (m.set h { m h with cbs := { (m h).cbs with budget := B, remaining_budget := R } }).forget
      = m.forget := by
  funext q
  by_cases hq : q = h
  · subst hq
    simp only [Heap.forget_apply, Heap.set_same]
    unfold forget_hard_budget
    rw [if_neg hh, if_neg hh]
  · simp only [Heap.forget_apply, Heap.set_other _ _ _ _ hq]

/-- The decision of `schedule_edf_cbs` does not depend on the budget fields of
a hard real-time thread. -/
theorem schedule_edf_cbs_hard_budget_irrelevant (fuel : Nat) (m : Heap)
    (args : threads_sched_args) (out : threads_sched_result × Heap) (h : Nat)
    (hh : (m h).cbs.is_hard_rt ≠ 0) (hrun : schedule_edf_cbs fuel m args = some out)
    (B R : Int) :
    ∃ out2, schedule_edf_cbs fuel
        (m.set h { m h with cbs := { (m h).cbs with budget := B, remaining_budget := R } })
        args = some out2 ∧ out2.1 = out.1 := by
  have h1 := schedule_edf_cbs_forget fuel
    (m.set h { m h with cbs := { (m h).cbs with budget := B, remaining_budget := R } }) args
  rw [Heap.forget_set_budget m h hh, schedule_edf_cbs_forget, hrun] at h1
  cases h2 : schedule_edf_cbs fuel
      (m.set h { m h with cbs := { (m h).cbs with budget := B, remaining_budget := R } })
      args with
  | none => rw [h2] at h1; simp at h1
  | some out2 =>
    rw [h2] at h1
    simp only [Option.map_some', Option.some.injEq, Prod.mk.injEq] at h1
    exact ⟨out2, rfl, h1.1.symm⟩

/-! ## EDF+CBS: allocation bound -/

theorem edf_arrival_step_le (ct : Int) (b : Nat) (st : Heap × Int) (e : release_queue_entry) :
    (edf_arrival_step ct b st e).2 ≤ st.2 := by
  unfold edf_arrival_step
  dsimp only
  split_ifs <;> (try dsimp only) <;> omega

theorem edf_replenish_step_le (ct : Int) (b : Nat) (st : Heap × Int) (th : Nat) :
    (edf_replenish_step ct b st th).2 ≤ st.2 := by
  unfold edf_replenish_step
  dsimp only
  split_ifs <;> (try dsimp only) <;> omega

theorem foldl_snd_le {α : Type} (step : Heap × Int → α → Heap × Int)
    (h : ∀ st x, (step st x).2 ≤ st.2) :
    ∀ (l : List α) (st : Heap × Int), (l.foldl step st).2 ≤ st.2 := by
  intro l
  induction l with
  | nil => intro st; exact le_refl _
  | cons x xs ih => intro st; rw [List.foldl_cons]; exact le_trans (ih _) (h st x)

/-- The lookahead never raises the tentative allocation. -/
theorem edf_lookahead_le (ct : Int) (m : Heap) (args : threads_sched_args) (b : Nat) :
    (edf_lookahead ct m args b).2 ≤ edf_budget_cap (m b) := by
  unfold edf_lookahead
  dsimp only
  exact le_trans (foldl_snd_le _ (edf_replenish_step_le ct b) _ _)
    (foldl_snd_le _ (edf_arrival_step_le ct b) _ _)

theorem unthrottle_thread_budget_le (ct : Int) (t : thread)
    (h : t.cbs.remaining_budget ≤ t.cbs.budget) :
    (unthrottle_thread ct t).cbs.remaining_budget ≤ (unthrottle_thread ct t).cbs.budget := by
  unfold unthrottle_thread
  split
  · exact le_refl _
  · exact h

/-- `schedule_edf_cbs` never changes `is_hard_rt`. -/
theorem schedule_edf_cbs_is_hard_rt (fuel : Nat) (m : Heap) (args : threads_sched_args)
    (out : threads_sched_result × Heap) (h : schedule_edf_cbs fuel m args = some out)
    (p : Nat) : (out.2 p).cbs.is_hard_rt = (m p).cbs.is_hard_rt := by
  obtain ⟨r, m'⟩ := out
  dsimp only
  have h1 : (edf_unthrottle args.current_time m args.run_queue p).cbs.is_hard_rt
      = (m p).cbs.is_hard_rt := by
    rw [edf_unthrottle_apply]
    split
    · exact unthrottle_thread_is_hard_rt _ _
    · rfl
  have hloop : ∀ ob, edf_cbs_loop args.current_time args.run_queue fuel
      (edf_throttle args.current_time
        (edf_unthrottle args.current_time m args.run_queue) args.run_queue)
      = some (ob, m') → (m' p).cbs.is_hard_rt = (m p).cbs.is_hard_rt := by
    intro ob hl
    exact (edf_cbs_loop_inv args.current_time args.run_queue
      (fun h => (h p).cbs.is_hard_rt = (m p).cbs.is_hard_rt)
      (by
        intro h c hI _ _
        by_cases hpc : p = c
        · subst hpc
          rw [Heap.set_same]
          exact hI
        · rw [Heap.set_other _ _ _ _ hpc]
          exact hI)
      fuel _ ob m' (edf_entry_heap_is_hard_rt m args p) hl).1
  rcases schedule_edf_cbs_cases fuel m args r m' h with
    ⟨_, _, _, hm⟩ | ⟨_, _, _, hm⟩ | ⟨_, _, hl, _⟩ | ⟨c, _, _, hl, _⟩
  · rw [hm]; exact h1
  · rw [hm]; exact h1
  · exact hloop _ hl
  · exact hloop _ hl

/-- C7 (EDF+CBS allocation bound).  When every soft run-queue thread has
`remaining_budget ≤ budget` on entry, `schedule_edf_cbs` returns, and for a
thread `s` it selects (returned with a non-zero allocation): if `s` is soft the
allocated time is at most `s.remaining_budget` as left by the call; if `s` is
hard with `remaining_time ≥ 1` the allocated time is at most
`s.remaining_time`, and the decision is the same whatever values the fields
`budget` and `remaining_budget` of `s` hold on entry. -/
theorem edf_cbs_allocation_bound (m : Heap) (args : threads_sched_args)
    (hinv : ∀ p ∈ args.run_queue, (m p).cbs.is_hard_rt = 0 →
      (m p).cbs.remaining_budget ≤ (m p).cbs.budget) :
    (∃ out, schedule_edf_cbs (args.run_queue.length + 1) m args = some out) ∧
    ∀ (fuel : Nat) (out : threads_sched_result × Heap) (s : Nat),
      schedule_edf_cbs fuel m args = some out →
      out.1.scheduled_thread_list_member = some s →
      out.1.allocated_time ≠ 0 →
      ((out.2 s).cbs.is_hard_rt = 0 →
        out.1.allocated_time ≤ (out.2 s).cbs.remaining_budget) ∧
      ((out.2 s).cbs.is_hard_rt ≠ 0 → 1 ≤ (out.2 s).remaining_time →
        out.1.allocated_time ≤ (out.2 s).remaining_time ∧
        ∀ B R : Int, ∃ out2,
          schedule_edf_cbs fuel
            (m.set s { m s with cbs := { (m s).cbs with budget := B, remaining_budget := R } })
            args = some out2 ∧ out2.1 = out.1) := by
  refine ⟨schedule_edf_cbs_returns m args _ (Nat.lt_succ_self _), ?_⟩
  intro fuel out s h hs ha
  have hhard := schedule_edf_cbs_is_hard_rt fuel m args out h s
  obtain ⟨r, m'⟩ := out
  obtain ⟨_, _, hl, hr⟩ := schedule_edf_cbs_dispatch fuel m args r m' s h hs ha
  dsimp only at hhard ⊢
  have hle := edf_lookahead_le args.current_time m' args s
  constructor
  · intro hsoft
    obtain ⟨hI, hsel, -⟩ := edf_cbs_loop_inv args.current_time args.run_queue
      (fun h => ∀ p ∈ args.run_queue, (h p).cbs.is_hard_rt = 0 → (h p).cbs.is_throttled = 0 →
        0 < (h p).cbs.remaining_budget ∧ (h p).cbs.remaining_budget ≤ (h p).cbs.budget)
      (by
        intro h c hI hc hp p hpm hps hpt
        by_cases hpc : p = c
        · subst hpc
          rw [Heap.set_same] at hps hpt ⊢
          have he := (edf_select_some h args.run_queue p hc).2.1
          have hthr : (h p).cbs.is_throttled = 0 := by
            by_contra hne
            exact he ⟨hp.1, hne⟩
          obtain ⟨k1, k2⟩ := hI p hpm hp.1 hthr
          exact ⟨lt_of_lt_of_le k1 k2, le_refl _⟩
        · rw [Heap.set_other _ _ _ _ hpc] at hps hpt ⊢
          exact hI p hpm hps hpt)
      fuel _ _ m'
      (by
        intro p hpm hps hpt
        refine ⟨?_, ?_⟩
        · rw [edf_throttle_apply, if_pos hpm] at hps hpt ⊢
          exact throttle_thread_soft _ _ hps hpt
        · rw [edf_entry_heap_is_hard_rt] at hps
          rw [edf_throttle_apply, if_pos hpm, throttle_thread_remaining_budget,
            throttle_thread_budget, edf_unthrottle_apply, if_pos hpm]
          exact unthrottle_thread_budget_le _ _ (hinv p hpm hps))
      hl
    obtain ⟨hmem, helig, _⟩ := edf_select_some m' args.run_queue s hsel
    have hthr : (m' s).cbs.is_throttled = 0 := by
      by_contra hne
      exact helig ⟨hsoft, hne⟩
    obtain ⟨hpos, _⟩ := hI s hmem hsoft hthr
    have hcap : edf_budget_cap (m' s) ≤ (m' s).cbs.remaining_budget := by
      unfold edf_budget_cap
      rw [if_pos hsoft]
      split_ifs <;> omega
    rw [hr]
    split_ifs <;> omega
  · intro hh hrt
    constructor
    · have hcap : edf_budget_cap (m' s) = (m' s).remaining_time := by
        unfold edf_budget_cap
        rw [if_neg hh]
      rw [hr]
      split_ifs <;> omega
    · intro B R
      exact schedule_edf_cbs_hard_budget_irrelevant fuel m args (r, m') s
        (by rw [← hhard]; exact hh) h B R

/-- Witness for C7: a soft thread with 9 ticks of work and `remaining_budget =
3` is dispatched for 3 ticks; a hard thread with 6 ticks of work and both
budget fields 0 is dispatched for 6 ticks, and still is with `budget = 1` and
`remaining_budget = -7`. -/
theorem edf_cbs_allocation_bound_witness :
    ((∀ p ∈ cap_args.run_queue, (cap_heap p).cbs.is_hard_rt = 0 →
        (cap_heap p).cbs.remaining_budget ≤ (cap_heap p).cbs.budget) ∧
      schedule_edf_cbs 3 cap_heap cap_args = some cap_out ∧
      cap_out.1 = ⟨some 0, 3⟩ ∧ (cap_out.2 0).cbs.is_hard_rt = 0 ∧
      cap_out.1.allocated_time ≤ (cap_out.2 0).cbs.remaining_budget) ∧
    ((∀ p ∈ hard_args.run_queue, (hard_heap p).cbs.is_hard_rt = 0 →
        (hard_heap p).cbs.remaining_budget ≤ (hard_heap p).cbs.budget) ∧
      schedule_edf_cbs 3 hard_heap hard_args = some hard_out ∧
      hard_out.1 = ⟨some 0, 6⟩ ∧ (hard_out.2 0).cbs.is_hard_rt ≠ 0 ∧
      1 ≤ (hard_out.2 0).remaining_time ∧
      (hard_out.1.allocated_time ≤ (hard_out.2 0).remaining_time ∧
        ∀ B R : Int, ∃ out2,
          schedule_edf_cbs 3
            (hard_heap.set 0
              { hard_heap 0 with
                cbs := { (hard_heap 0).cbs with budget := B, remaining_budget := R } })
            hard_args = some out2 ∧ out2.1 = hard_out.1)) :=
  ⟨⟨by decide, rfl, rfl, rfl,
      ((edf_cbs_allocation_bound cap_heap cap_args (by decide)).2 3 cap_out 0 rfl rfl
        (by decide)).1 rfl⟩,
    ⟨by decide, rfl, rfl, by decide, by decide,
      ((edf_cbs_allocation_bound hard_heap hard_args (by decide)).2 3 hard_out 0 rfl rfl
        (by decide)).2 (by decide) (by decide)⟩⟩

/-! ## Deadline monotonic -/

/-- C8 (DM deadline miss).  When some run-queue thread has
`current_deadline ≤ current_time`, `schedule_dm` returns a thread with the
lowest `ID` among the threads in that condition, with `allocated_time = 0`,
whatever the release queue and the relative deadlines of the other threads
are. -/
theorem dm_reports_deadline_miss (m : Heap) (args : threads_sched_args) (p : Nat)
    (hp : p ∈ args.run_queue) (hmiss : (m p).current_deadline ≤ args.current_time) :
    ∃ x, schedule_dm m args = ⟨some x, 0⟩ ∧ x ∈ args.run_queue ∧
      (m x).current_deadline ≤ args.current_time ∧
      ∀ q ∈ args.run_queue, (m q).current_deadline ≤ args.current_time →
        (m x).ID ≤ (m q).ID := by
  unfold schedule_dm
  cases hc : __check_deadline_miss m args.run_queue args.current_time with
  | none =>
    exact absurd hmiss (not_le.2 (check_deadline_miss_none m _ _ hc p hp))
  | some x =>
    exact ⟨x, rfl, check_deadline_miss_some m _ _ x hc⟩

/-- Witness for C8: the scenario of the spec.  T1 (`deadline = 5`,
`current_deadline = 5`) at time 5 is reported with allocation 0 although T2 in
the run queue and T3 in the release queue have smaller relative deadlines. -/
theorem dm_reports_deadline_miss_witness :
    0 ∈ dm_miss_args.run_queue ∧
    (dm_miss_heap 0).current_deadline ≤ dm_miss_args.current_time ∧
    schedule_dm dm_miss_heap dm_miss_args = ⟨some 0, 0⟩ ∧
    ∃ x, schedule_dm dm_miss_heap dm_miss_args = ⟨some x, 0⟩ ∧ x ∈ dm_miss_args.run_queue ∧
      (dm_miss_heap x).current_deadline ≤ dm_miss_args.current_time ∧
      ∀ q ∈ dm_miss_args.run_queue,
        (dm_miss_heap q).current_deadline ≤ dm_miss_args.current_time →
        (dm_miss_heap x).ID ≤ (dm_miss_heap q).ID :=
  ⟨by decide, by decide, by decide,
    dm_reports_deadline_miss dm_miss_heap dm_miss_args 0 (by decide) (by decide)⟩

/-- Without a deadline miss and with a non-empty run queue `schedule_dm`
dispatches the result of the `best_thread` loop. -/
theorem schedule_dm_dispatch (m : Heap) (args : threads_sched_args)
    (hne : args.run_queue ≠ [])
    (hno : ∀ p ∈ args.run_queue, args.current_time < (m p).current_deadline) :
    ∃ b, dm_best_thread m args.run_queue = some b ∧
      schedule_dm m args =
        ⟨some b, dm_allocate m args.current_time b (dm_next_arrival args.release_queue)⟩ := by
  unfold schedule_dm
  rw [check_deadline_miss_eq_none m _ _ hno]
  dsimp only
  rw [if_neg hne]
  cases hb : dm_best_thread m args.run_queue with
  | none => exact absurd hb (dm_best_thread_ne_none m _ hne)
  | some b => exact ⟨b, rfl, rfl⟩

/-- The `next_arrival_entry` loop finds the first entry attaining the smallest
release time among the entries released before `INT_MAX`. -/
theorem dm_next_arrival_spec (rel : List release_queue_entry) :
    match spec_first_min_release (rel.filter (fun e => decide (e.release_time < INT_MAX))) with
    | none => dm_next_arrival rel = (none, INT_MAX)
    | some e => dm_next_arrival rel = (some e, e.release_time) ∧ e.release_time < INT_MAX := by
  unfold dm_next_arrival spec_first_min_release
  induction rel using List.reverseRecOn with
  | nil => simp
  | append_singleton l x ih =>
    rw [List.filter_append, List.foldl_append, List.foldl_append]
    generalize List.foldl
      (fun (acc : Option release_queue_entry × Int) (entry : release_queue_entry) =>
        if entry.release_time < acc.2 then (some entry, entry.release_time) else acc)
      (none, INT_MAX) l = code at ih ⊢
    generalize List.foldl
      (fun (acc : Option release_queue_entry) (e : release_queue_entry) =>
        match acc with
        | none => some e
        | some a => if e.release_time < a.release_time then some e else some a)
      none (List.filter (fun e => decide (e.release_time < INT_MAX)) l) = sp at ih ⊢
    by_cases hx : x.release_time < INT_MAX
    · rw [List.filter_cons_of_pos (by simpa using hx)]
      simp only [List.filter_nil, List.foldl_cons, List.foldl_nil]
      cases sp with
      | none =>
        dsimp only at ih ⊢
        rw [ih]
        dsimp only
        rw [if_pos hx]
        exact ⟨rfl, hx⟩
      | some a =>
        dsimp only at ih ⊢
        obtain ⟨ih1, ih2⟩ := ih
        rw [ih1]
        dsimp only
        by_cases hlt : x.release_time < a.release_time
        · rw [if_pos hlt, if_pos hlt]
          exact ⟨rfl, hx⟩
        · rw [if_neg hlt, if_neg hlt]
          exact ⟨rfl, ih2⟩
    · rw [List.filter_cons_of_neg (by simpa using hx)]
      simp only [List.filter_nil, List.foldl_cons, List.foldl_nil]
      cases sp with
      | none =>
        dsimp only at ih ⊢
        rw [ih]
        dsimp only
        rw [if_neg hx]
      | some a =>
        dsimp only at ih ⊢
        obtain ⟨ih1, ih2⟩ := ih
        rw [ih1]
        dsimp only
        rw [if_neg (fun h => hx (lt_trans h ih2))]
        exact ⟨rfl, ih2⟩

/-- Step 5 of `schedule_dm` computes the allocation of the specification from
the earliest entry released before `INT_MAX`. -/
theorem dm_allocate_eq_spec (m : Heap) (ct : Int) (b : Nat) (rel : List release_queue_entry) :
    dm_allocate m ct b (dm_next_arrival rel) =
      spec_dm_allocation m ct b
        (spec_first_min_release (rel.filter (fun e => decide (e.release_time < INT_MAX)))) := by
  have h := dm_next_arrival_spec rel
  cases hs : spec_first_min_release
      (rel.filter (fun e => decide (e.release_time < INT_MAX))) with
  | none =>
    rw [hs] at h
    dsimp only at h
    rw [h]
    rfl
  | some e =>
    rw [hs] at h
    dsimp only at h
    rw [h.1]
    unfold dm_allocate spec_dm_allocation
    dsimp only
    split_ifs <;> first | rfl | omega

/-- C10 (DM selection).  For a non-empty run queue in which no thread has
`current_deadline ≤ current_time`, `schedule_dm` returns a run-queue thread
with the smallest relative `deadline`, and with the smallest `ID` among the
threads of that deadline. -/
theorem dm_selects_smallest_deadline (m : Heap) (args : threads_sched_args)
    (hne : args.run_queue ≠ [])
    (hno : ∀ p ∈ args.run_queue, args.current_time < (m p).current_deadline) :
    ∃ b, (schedule_dm m args).scheduled_thread_list_member = some b ∧
      b ∈ args.run_queue ∧
      ∀ q ∈ args.run_queue,
        (m b).deadline < (m q).deadline ∨
        ((m b).deadline = (m q).deadline ∧ (m b).ID ≤ (m q).ID) := by
  obtain ⟨b, hb, hs⟩ := schedule_dm_dispatch m args hne hno
  obtain ⟨hmem, hmin⟩ := dm_best_thread_some m _ b hb
  refine ⟨b, by rw [hs], hmem, ?_⟩
  intro q hq
  exact hmin q hq

/-- Witness for C10: of the threads with relative deadlines 9 and 7 the second
is returned. -/
theorem dm_selects_smallest_deadline_witness :
    dm_look_args.run_queue ≠ [] ∧
    (∀ p ∈ dm_look_args.run_queue,
      dm_look_args.current_time < (dm_look_heap p).current_deadline) ∧
    (schedule_dm dm_look_heap dm_look_args).scheduled_thread_list_member = some 1 ∧
    ∃ b, (schedule_dm dm_look_heap dm_look_args).scheduled_thread_list_member = some b ∧
      b ∈ dm_look_args.run_queue ∧
      ∀ q ∈ dm_look_args.run_queue,
        (dm_look_heap b).deadline < (dm_look_heap q).deadline ∨
        ((dm_look_heap b).deadline = (dm_look_heap q).deadline ∧
          (dm_look_heap b).ID ≤ (dm_look_heap q).ID) :=
  ⟨by decide, by decide, by decide,
    dm_selects_smallest_deadline dm_look_heap dm_look_args (by decide) (by decide)⟩

/-! ## Default policy -/

theorem default_loop_spec (m : Heap) (rq : List Nat) :
    match rq.foldl (default_step m) none with
    | none => rq = []
    | some b => b ∈ rq ∧ ∀ q ∈ rq, (m b).ID ≤ (m q).ID := by
  induction rq using List.reverseRecOn with
  | nil => simp
  | append_singleton l x ih =>
    rw [List.foldl_append, List.foldl_cons, List.foldl_nil]
    generalize List.foldl (default_step m) none l = acc at ih
    unfold default_step
    cases acc with
    | none =>
      dsimp only at ih ⊢
      subst ih
      refine ⟨by simp, ?_⟩
      intro q hq
      simp at hq
      subst hq
      exact le_refl _
    | some b =>
      dsimp only at ih ⊢
      obtain ⟨hb, hmin⟩ := ih
      by_cases hc : (m x).ID < (m b).ID
      · rw [if_pos hc]
        dsimp only
        refine ⟨by simp, ?_⟩
        intro q hq
        rcases List.mem_append.1 hq with h | h
        · have := hmin q h
          omega
        · simp at h
          subst h
          exact le_refl _
      · rw [if_neg hc]
        dsimp only
        refine ⟨by simp [hb], ?_⟩
        intro q hq
        rcases List.mem_append.1 hq with h | h
        · exact hmin q h
        · simp at h
          subst h
          omega

/-- On a non-empty run queue the loop of `schedule_default` ends on a thread of
the queue with the smallest `ID`. -/
theorem default_loop_some (m : Heap) (rq : List Nat) (hne : rq ≠ []) :
    ∃ b, rq.foldl (default_step m) none = some b ∧ b ∈ rq ∧
      ∀ q ∈ rq, (m b).ID ≤ (m q).ID := by
  have h := default_loop_spec m rq
  cases hf : rq.foldl (default_step m) none with
  | none => rw [hf] at h; exact absurd h hne
  | some b => rw [hf] at h; exact ⟨b, rfl, h⟩

/-- C15 (default policy).  For a non-empty run queue `schedule_default` returns
a run-queue thread whose `ID` is the smallest of the queue and allocates
exactly the `remaining_time` of that thread. -/
theorem default_selects_smallest_id (m : Heap) (args : threads_sched_args)
    (hne : args.run_queue ≠ []) :
    ∃ b, b ∈ args.run_queue ∧ (∀ q ∈ args.run_queue, (m b).ID ≤ (m q).ID) ∧
      schedule_default m args = ⟨some b, (m b).remaining_time⟩ := by
  obtain ⟨b, hf, hb, hmin⟩ := default_loop_some m args.run_queue hne
  refine ⟨b, hb, hmin, ?_⟩
  unfold schedule_default
  rw [hf]

/-- Witness for C15: of the threads with IDs 3, 1 and 2 the one with ID 1 is
returned, with its 7 remaining ticks. -/
theorem default_selects_smallest_id_witness :
    fcfs_args.run_queue ≠ [] ∧
    schedule_default fcfs_heap fcfs_args = ⟨some 1, 7⟩ ∧
    ∃ b, b ∈ fcfs_args.run_queue ∧
      (∀ q ∈ fcfs_args.run_queue, (fcfs_heap b).ID ≤ (fcfs_heap q).ID) ∧
      schedule_default fcfs_heap fcfs_args = ⟨some b, (fcfs_heap b).remaining_time⟩ :=
  ⟨by decide, by decide, default_selects_smallest_id fcfs_heap fcfs_args (by decide)⟩

/-! ## Highest response ratio next -/

/-- Cross-multiplication decides the order of two response ratios with positive
denominators. -/
theorem hrrn_cross_gt (ct : Int) (a b : thread) (ha : 0 < a.processing_time)
    (hb : 0 < b.processing_time) :
    (ct - a.arrival_time + a.processing_time) * b.processing_time >
        (ct - b.arrival_time + b.processing_time) * a.processing_time ↔
      response_ratio ct b < response_ratio ct a := by
  unfold response_ratio
  have ha2 : (0 : ℚ) < ((a.processing_time : Int) : ℚ) := by exact_mod_cast ha
  have hb2 : (0 : ℚ) < ((b.processing_time : Int) : ℚ) := by exact_mod_cast hb
  rw [div_lt_div_iff₀ hb2 ha2]
  constructor
  · intro h
    exact_mod_cast h
  · intro h
    exact_mod_cast h

theorem hrrn_cross_eq (ct : Int) (a b : thread) (ha : 0 < a.processing_time)
    (hb : 0 < b.processing_time) :
    (ct - a.arrival_time + a.processing_time) * b.processing_time =
        (ct - b.arrival_time + b.processing_time) * a.processing_time ↔
      response_ratio ct a = response_ratio ct b := by
  unfold response_ratio
  have ha2 : ((a.processing_time : Int) : ℚ) ≠ 0 := by exact_mod_cast (ne_of_gt ha)
  have hb2 : ((b.processing_time : Int) : ℚ) ≠ 0 := by exact_mod_cast (ne_of_gt hb)
  rw [div_eq_div_iff ha2 hb2]
  constructor
  · intro h
    exact_mod_cast h
  · intro h
    exact_mod_cast h

/-- Invariant of the loop of `schedule_hrrn` over threads with positive
`processing_time`: the selected thread carries its own numerator and
denominator and no visited thread has a larger ratio, or the same ratio and a
smaller `ID`. -/
theorem hrrn_loop_spec (m : Heap) (ct : Int) (rq : List Nat)
    (hpt : ∀ p ∈ rq, 0 < (m p).processing_time) :
    match (hrrn_loop m ct rq).selected_thread with
    | none => rq = []
    | some b => b ∈ rq ∧
        (hrrn_loop m ct rq).highest_ratio_numerator =
          ct - (m b).arrival_time + (m b).processing_time ∧
        (hrrn_loop m ct rq).highest_ratio_denominator = (m b).processing_time ∧
        ∀ q ∈ rq, response_ratio ct (m q) < response_ratio ct (m b) ∨
          (response_ratio ct (m q) = response_ratio ct (m b) ∧ (m b).ID ≤ (m q).ID) := by
  unfold hrrn_loop
  induction rq using List.reverseRecOn with
  | nil => simp
  | append_singleton l x ih =>
    have ih := ih (fun p hp => hpt p (List.mem_append_left _ hp))
    have hx : 0 < (m x).processing_time := hpt x (by simp)
    rw [List.foldl_append, List.foldl_cons, List.foldl_nil]
    generalize List.foldl (hrrn_step m ct) ⟨none, 0, 1⟩ l = st at ih
    obtain ⟨sel, hn, hd⟩ := st
    unfold hrrn_step
    cases sel with
    | none =>
      dsimp only at ih ⊢
      subst ih
      refine ⟨by simp, rfl, rfl, ?_⟩
      intro q hq
      simp at hq
      subst hq
      exact Or.inr ⟨rfl, le_refl _⟩
    | some b =>
      dsimp only at ih ⊢
      obtain ⟨hb, h1, h2, hmax⟩ := ih
      subst h1 h2
      have hbp : 0 < (m b).processing_time := hpt b (List.mem_append_left _ hb)
      have hgt := hrrn_cross_gt ct (m x) (m b) hx hbp
      have heq := hrrn_cross_eq ct (m x) (m b) hx hbp
      by_cases hc : (ct - (m x).arrival_time + (m x).processing_time) * (m b).processing_time >
            (ct - (m b).arrival_time + (m b).processing_time) * (m x).processing_time ∨
          ((ct - (m x).arrival_time + (m x).processing_time) * (m b).processing_time =
              (ct - (m b).arrival_time + (m b).processing_time) * (m x).processing_time ∧
            (m x).ID < (m b).ID)
      · rw [if_pos hc]
        dsimp only
        refine ⟨by simp, rfl, rfl, ?_⟩
        intro q hq
        rcases List.mem_append.1 hq with h | h
        · rcases hmax q h with hq1 | ⟨hq1, hq2⟩
          · rcases hc with hc | ⟨hc, _⟩
            · exact Or.inl (lt_trans hq1 (hgt.1 hc))
            · exact Or.inl (by rw [heq.1 hc]; exact hq1)
          · rcases hc with hc | ⟨hc, hc2⟩
            · exact Or.inl (by rw [hq1]; exact hgt.1 hc)
            · exact Or.inr ⟨by rw [hq1, heq.1 hc], by omega⟩
        · simp at h
          subst h
          exact Or.inr ⟨rfl, le_refl _⟩
      · rw [if_neg hc]
        dsimp only
        refine ⟨by simp [hb], rfl, rfl, ?_⟩
        intro q hq
        rcases List.mem_append.1 hq with h | h
        · exact hmax q h
        · simp at h
          subst h
          have hn1 : ¬ response_ratio ct (m b) < response_ratio ct (m q) :=
            fun hlt => hc (Or.inl (hgt.2 hlt))
          rcases lt_or_eq_of_le (not_lt.1 hn1) with hlt | he
          · exact Or.inl hlt
          · refine Or.inr ⟨he, ?_⟩
            by_contra hid
            exact hc (Or.inr ⟨heq.2 he, not_le.1 hid⟩)

/-- C14 (HRRN selection).  For a non-empty run queue of threads with distinct
IDs and `processing_time > 0`, in exact integer arithmetic, `schedule_hrrn`
returns a run-queue thread `b` and allocates its full `remaining_time`; every
other thread of the queue has a smaller response ratio (compared as an exact
rational), or the same ratio and a larger `ID`; and no thread with the same
`processing_time` as `b` has waited longer than `b`. -/
theorem hrrn_selects_highest_ratio (m : Heap) (args : threads_sched_args)
    (hne : args.run_queue ≠ [])
    (hid : ∀ p ∈ args.run_queue, ∀ q ∈ args.run_queue, p ≠ q → (m p).ID ≠ (m q).ID)
    (hpt : ∀ p ∈ args.run_queue, 0 < (m p).processing_time) :
    ∃ b, b ∈ args.run_queue ∧
      schedule_hrrn m args = ⟨some b, (m b).remaining_time⟩ ∧
      (∀ q ∈ args.run_queue, q ≠ b →
        response_ratio args.current_time (m q) < response_ratio args.current_time (m b) ∨
        (response_ratio args.current_time (m q) = response_ratio args.current_time (m b) ∧
          (m b).ID < (m q).ID)) ∧
      (∀ q ∈ args.run_queue, (m q).processing_time = (m b).processing_time →
        args.current_time - (m q).arrival_time ≤ args.current_time - (m b).arrival_time) := by
  have h := hrrn_loop_spec m args.current_time args.run_queue hpt
  cases hs : (hrrn_loop m args.current_time args.run_queue).selected_thread with
  | none => rw [hs] at h; exact absurd h hne
  | some b =>
    rw [hs] at h
    obtain ⟨hb, -, -, hmax⟩ := h
    refine ⟨b, hb, ?_, ?_, ?_⟩
    · unfold schedule_hrrn
      rw [hs]
    · intro q hq hqb
      rcases hmax q hq with h1 | ⟨h1, h2⟩
      · exact Or.inl h1
      · exact Or.inr ⟨h1, lt_of_le_of_ne h2 (fun he => hid q hq b hb hqb he.symm)⟩
    · intro q hq hpq
      have hbp := hpt b hb
      have hqp := hpt q hq
      have hle : response_ratio args.current_time (m q) ≤
          response_ratio args.current_time (m b) := by
        rcases hmax q hq with h1 | ⟨h1, _⟩
        · exact le_of_lt h1
        · exact le_of_eq h1
      have hng := (not_congr (hrrn_cross_gt args.current_time (m q) (m b) hqp hbp)).2
        (not_lt.2 hle)
      rw [hpq] at hng
      have := (mul_le_mul_right hbp).1 (not_lt.1 hng)
      omega

/-- Witness for C14: at time 10 the ratios are 13/4, 5/2 and 13/4; of the two
threads with ratio 13/4 the one with ID 2 is returned, with its 6 remaining
ticks. -/
theorem hrrn_selects_highest_ratio_witness :
    hrrn_args.run_queue ≠ [] ∧
    (∀ p ∈ hrrn_args.run_queue, ∀ q ∈ hrrn_args.run_queue, p ≠ q →
      (hrrn_heap p).ID ≠ (hrrn_heap q).ID) ∧
    (∀ p ∈ hrrn_args.run_queue, 0 < (hrrn_heap p).processing_time) ∧
    schedule_hrrn hrrn_heap hrrn_args = ⟨some 2, 6⟩ ∧
    ∃ b, b ∈ hrrn_args.run_queue ∧
      schedule_hrrn hrrn_heap hrrn_args = ⟨some b, (hrrn_heap b).remaining_time⟩ ∧
      (∀ q ∈ hrrn_args.run_queue, q ≠ b →
        response_ratio hrrn_args.current_time (hrrn_heap q) <
            response_ratio hrrn_args.current_time (hrrn_heap b) ∨
        (response_ratio hrrn_args.current_time (hrrn_heap q) =
            response_ratio hrrn_args.current_time (hrrn_heap b) ∧
          (hrrn_heap b).ID < (hrrn_heap q).ID)) ∧
      (∀ q ∈ hrrn_args.run_queue,
        (hrrn_heap q).processing_time = (hrrn_heap b).processing_time →
        hrrn_args.current_time - (hrrn_heap q).arrival_time ≤
          hrrn_args.current_time - (hrrn_heap b).arrival_time) :=
  ⟨by decide, by decide, by decide, by decide,
    hrrn_selects_highest_ratio hrrn_heap hrrn_args (by decide) (by decide) (by decide)⟩

/-! ## Priority round-robin -/

theorem rr_best_pri_spec (m : Heap) (rq : List Nat) :
    rr_best_pri m rq ≤ INT_MAX ∧ (∀ p ∈ rq, rr_best_pri m rq ≤ (m p).priority) ∧
      (rr_best_pri m rq = INT_MAX ∨ ∃ p ∈ rq, (m p).priority = rr_best_pri m rq) := by
  unfold rr_best_pri
  induction rq using List.reverseRecOn with
  | nil => simp
  | append_singleton l x ih =>
    rw [List.foldl_append, List.foldl_cons, List.foldl_nil]
    generalize List.foldl
      (fun (best_pri : Int) (th : Nat) =>
        if (m th).priority < best_pri then (m th).priority else best_pri) INT_MAX l = bp at ih
    obtain ⟨h1, h2, h3⟩ := ih
    by_cases hc : (m x).priority < bp
    · rw [if_pos hc]
      refine ⟨by omega, ?_, Or.inr ⟨x, by simp, rfl⟩⟩
      intro p hp
      rcases List.mem_append.1 hp with h | h
      · have := h2 p h
        omega
      · simp at h
        subst h
        exact le_refl _
    · rw [if_neg hc]
      refine ⟨h1, ?_, ?_⟩
      · intro p hp
        rcases List.mem_append.1 hp with h | h
        · exact h2 p h
        · simp at h
          subst h
          omega
      · rcases h3 with h3 | ⟨p, hp, hpe⟩
        · exact Or.inl h3
        · exact Or.inr ⟨p, List.mem_append_left _ hp, hpe⟩

/-- The `best_pri` loop computes the minimum priority of the queue when that
minimum is attained and is a C `int`. -/
theorem rr_best_pri_eq (m : Heap) (rq : List Nat) (mp : Int) (hint : mp ≤ INT_MAX)
    (hmin : ∀ p ∈ rq, mp ≤ (m p).priority) (hatt : ∃ p ∈ rq, (m p).priority = mp) :
    rr_best_pri m rq = mp := by
  obtain ⟨_, h2, h3⟩ := rr_best_pri_spec m rq
  obtain ⟨p0, hp0, hpe⟩ := hatt
  have hle := h2 p0 hp0
  rcases h3 with h3 | ⟨p, hp, hpp⟩
  · omega
  · have := hmin p hp
    omega

theorem countP_pos_exists {α : Type} (p : α → Bool) (l : List α) (h : 0 < l.countP p) :
    ∃ x ∈ l, p x = true := by
  by_contra hne
  have : l.countP p = 0 := List.countP_eq_zero.2 (fun a ha hpa => hne ⟨a, ha, hpa⟩)
  omega

/-- The first element of a list satisfying `p`, with the list split around
it. -/
theorem find_first_split {α : Type} (p : α → Bool) (l : List α) (h : ∃ x ∈ l, p x = true) :
    ∃ b l1 l2, l = l1 ++ b :: l2 ∧ p b = true ∧ (∀ a ∈ l1, p a = false) ∧
      l.find? p = some b := by
  cases hf : l.find? p with
  | none =>
    obtain ⟨x, hx, hpx⟩ := h
    have := List.find?_eq_none.1 hf x hx
    exact absurd hpx this
  | some b =>
    obtain ⟨hpb, l1, l2, hl, hl1⟩ := List.find?_eq_some.1 hf
    refine ⟨b, l1, l2, hl, hpb, ?_, rfl⟩
    intro a ha
    have := hl1 a ha
    simpa using this

/-- One call of `schedule_priority_rr` on a queue whose minimum priority `mp`
is held by at least two threads: the first of them is returned with
`min(remaining_time, 2)` and moved to the tail. -/
theorem priority_rr_step_contention (m : Heap) (args : threads_sched_args) (mp : Int)
    (hint : mp ≤ INT_MAX) (hmin : ∀ p ∈ args.run_queue, mp ≤ (m p).priority)
    (hcnt : 2 ≤ args.run_queue.countP (fun p => decide ((m p).priority = mp))) :
    ∃ b l1 l2, args.run_queue = l1 ++ b :: l2 ∧ (∀ q ∈ l1, (m q).priority ≠ mp) ∧
      (m b).priority = mp ∧
      schedule_priority_rr m args =
        some (⟨some b, min (m b).remaining_time 2⟩, l1 ++ l2 ++ [b]) := by
  have hex := countP_pos_exists _ args.run_queue (lt_of_lt_of_le (by decide : 0 < 2) hcnt)
  obtain ⟨b, l1, l2, hl, hpb, hl1, hfind⟩ := find_first_split _ args.run_queue hex
  have hpb2 : (m b).priority = mp := of_decide_eq_true hpb
  have hl1b : ∀ q ∈ l1, (m q).priority ≠ mp := fun q hq => of_decide_eq_false (hl1 q hq)
  have hbest : rr_best_pri m args.run_queue = mp :=
    rr_best_pri_eq m _ mp hint hmin
      (by obtain ⟨x, hx, hpx⟩ := hex; exact ⟨x, hx, of_decide_eq_true hpx⟩)
  have hne : args.run_queue ≠ [] := by
    rw [hl]; simp
  have hbl1 : b ∉ l1 := fun hb => hl1b b hb hpb2
  refine ⟨b, l1, l2, hl, hl1b, hpb2, ?_⟩
  unfold schedule_priority_rr
  rw [if_neg hne]
  dsimp only
  rw [hbest]
  unfold rr_chosen rr_group_cnt
  rw [hfind]
  dsimp only
  have hgt : List.countP (fun p => decide ((m p).priority = mp)) args.run_queue > 1 := by
    omega
  have hne1 : ¬ List.countP (fun p => decide ((m p).priority = mp)) args.run_queue = 1 := by
    omega
  rw [if_pos hgt, if_neg hne1]
  unfold list_move_tail
  have herase : args.run_queue.erase b = l1 ++ l2 := by
    rw [hl, List.erase_append_right _ hbl1, List.erase_cons_head]
  rw [herase]
  have hmin2 : (if (m b).remaining_time < 2 then (m b).remaining_time else 2)
      = min (m b).remaining_time 2 := by
    simp only [min_def]
    split_ifs <;> omega
  rw [hmin2]

/-- C11 (priority-RR under contention).  When the minimum priority `mp` of the
run queue (a C `int`) is held by at least two threads, `schedule_priority_rr`
returns the earliest thread `b` of the queue with priority `mp`, allocates
`min(remaining_time, 2)` to it, and leaves the run queue with `b` removed from
its place and appended at the tail, the other threads in their order; the
resulting queue holds the same threads as the original one. -/
theorem priority_rr_contention (m : Heap) (args : threads_sched_args) (mp : Int)
    (hint : mp ≤ INT_MAX) (hmin : ∀ p ∈ args.run_queue, mp ≤ (m p).priority)
    (hcnt : 2 ≤ args.run_queue.countP (fun p => decide ((m p).priority = mp))) :
    ∃ b l1 l2, args.run_queue = l1 ++ b :: l2 ∧ (∀ q ∈ l1, (m q).priority ≠ mp) ∧
      (m b).priority = mp ∧
      schedule_priority_rr m args =
        some (⟨some b, min (m b).remaining_time 2⟩, l1 ++ l2 ++ [b]) ∧
      (l1 ++ l2 ++ [b]).Perm args.run_queue := by
  obtain ⟨b, l1, l2, hl, hl1, hb, hrun⟩ :=
    priority_rr_step_contention m args mp hint hmin hcnt
  refine ⟨b, l1, l2, hl, hl1, hb, hrun, ?_⟩
  rw [hl, List.append_assoc]
  exact List.Perm.append_left l1 (List.perm_append_singleton b l2)

/-- Witness for C11: with priorities 5, 1, 3, 1, 1 the thread at pointer 1 is
returned with `min(7, 2) = 2` ticks and the queue `[0, 1, 2, 3, 4]` becomes
`[0, 2, 3, 4, 1]`. -/
theorem priority_rr_contention_witness :
    (1 : Int) ≤ INT_MAX ∧
    (∀ p ∈ rr_args.run_queue, 1 ≤ (rr_heap p).priority) ∧
    2 ≤ rr_args.run_queue.countP (fun p => decide ((rr_heap p).priority = 1)) ∧
    schedule_priority_rr rr_heap rr_args = some (⟨some 1, 2⟩, [0, 2, 3, 4, 1]) ∧
    ∃ b l1 l2, rr_args.run_queue = l1 ++ b :: l2 ∧
      (∀ q ∈ l1, (rr_heap q).priority ≠ 1) ∧ (rr_heap b).priority = 1 ∧
      schedule_priority_rr rr_heap rr_args =
        some (⟨some b, min (rr_heap b).remaining_time 2⟩, l1 ++ l2 ++ [b]) ∧
      (l1 ++ l2 ++ [b]).Perm rr_args.run_queue :=
  ⟨by decide, by decide, by decide, by decide,
    priority_rr_contention rr_heap rr_args 1 (by decide) (by decide) (by decide)⟩

/-- C12 (priority-RR without contention).  When exactly one thread of the run
queue has the minimum priority `mp` (a C `int`), `schedule_priority_rr` returns
that thread, allocates its full `remaining_time` and leaves the run queue as it
was. -/
theorem priority_rr_solitary (m : Heap) (args : threads_sched_args) (mp : Int)
    (hint : mp ≤ INT_MAX) (hmin : ∀ p ∈ args.run_queue, mp ≤ (m p).priority)
    (hcnt : args.run_queue.countP (fun p => decide ((m p).priority = mp)) = 1) :
    ∃ b, b ∈ args.run_queue ∧ (m b).priority = mp ∧
      (∀ q ∈ args.run_queue, (m q).priority = mp → q = b) ∧
      schedule_priority_rr m args =
        some (⟨some b, (m b).remaining_time⟩, args.run_queue) := by
  have hex := countP_pos_exists (fun p => decide ((m p).priority = mp)) args.run_queue
    (by rw [hcnt]; decide)
  obtain ⟨b, l1, l2, hl, hpb, hl1, hfind⟩ := find_first_split _ args.run_queue hex
  have hpb2 : (m b).priority = mp := of_decide_eq_true hpb
  have hbest : rr_best_pri m args.run_queue = mp :=
    rr_best_pri_eq m _ mp hint hmin
      (by obtain ⟨x, hx, hpx⟩ := hex; exact ⟨x, hx, of_decide_eq_true hpx⟩)
  have hne : args.run_queue ≠ [] := by
    rw [hl]; simp
  have hl2 : ∀ q ∈ l2, (m q).priority ≠ mp := by
    intro q hq hqp
    have hc : l2.countP (fun p => decide ((m p).priority = mp)) = 0 := by
      have h2 : List.countP (fun p => decide ((m p).priority = mp)) (b :: l2) =
          List.countP (fun p => decide ((m p).priority = mp)) l2 + 1 :=
        List.countP_cons_of_pos _ _ hpb
      rw [hl, List.countP_append, h2] at hcnt
      omega
    exact List.countP_eq_zero.1 hc q hq (decide_eq_true hqp)
  refine ⟨b, by rw [hl]; simp, hpb2, ?_, ?_⟩
  · intro q hq hqp
    rw [hl] at hq
    rcases List.mem_append.1 hq with h | h
    · exact absurd (decide_eq_true hqp) (by rw [hl1 q h]; decide)
    · rcases List.mem_cons.1 h with h | h
      · exact h
      · exact absurd hqp (hl2 q h)
  · unfold schedule_priority_rr
    rw [if_neg hne]
    dsimp only
    rw [hbest]
    unfold rr_chosen rr_group_cnt
    rw [hfind, hcnt]
    dsimp only
    rw [if_pos (rfl : (1 : Nat) = 1), if_neg (by decide : ¬ (1 : Nat) > 1)]

/-- Witness for C12: with priorities 5, 1, 3 the thread at pointer 1 is
returned with its 7 remaining ticks and the queue stays `[0, 1, 2]`. -/
theorem priority_rr_solitary_witness :
    (1 : Int) ≤ INT_MAX ∧
    (∀ p ∈ rr_solo_args.run_queue, 1 ≤ (rr_heap p).priority) ∧
    rr_solo_args.run_queue.countP (fun p => decide ((rr_heap p).priority = 1)) = 1 ∧
    schedule_priority_rr rr_heap rr_solo_args = some (⟨some 1, 7⟩, [0, 1, 2]) ∧
    ∃ b, b ∈ rr_solo_args.run_queue ∧ (rr_heap b).priority = 1 ∧
      (∀ q ∈ rr_solo_args.run_queue, (rr_heap q).priority = 1 → q = b) ∧
      schedule_priority_rr rr_heap rr_solo_args =
        some (⟨some b, (rr_heap b).remaining_time⟩, rr_solo_args.run_queue) :=
  ⟨by decide, by decide, by decide, by decide,
    priority_rr_solitary rr_heap rr_solo_args 1 (by decide) (by decide) (by decide)⟩

/-- One call on a queue whose band of minimum priority `mp` is `c :: cs` with
`cs` not empty: `c` is selected and the band of the resulting queue is
`cs ++ [c]`.  Priorities are given by `pri` and read from the heap `m`. -/
theorem priority_rr_step_band (m : Heap) (ct : Int) (rel : List release_queue_entry)
    (q : List Nat) (pri : Nat → Int) (mp : Int) (c : Nat) (cs : List Nat)
    (hpri : ∀ p ∈ q, (m p).priority = pri p) (hint : mp ≤ INT_MAX)
    (hmin : ∀ p ∈ q, mp ≤ pri p)
    (hband : q.filter (fun p => decide (pri p = mp)) = c :: cs) (hcs : cs ≠ []) :
    ∃ r q1, schedule_priority_rr m ⟨ct, q, rel⟩ = some (r, q1) ∧
      r.scheduled_thread_list_member = some c ∧ q1.Perm q ∧
      q1.filter (fun p => decide (pri p = mp)) = cs ++ [c] := by
  have hcongr : ∀ l : List Nat, (∀ p ∈ l, p ∈ q) →
      l.filter (fun p => decide ((m p).priority = mp)) =
        l.filter (fun p => decide (pri p = mp)) := by
    intro l hl
    apply List.filter_congr
    intro x hx
    rw [hpri x (hl x hx)]
  have hcnt : 2 ≤ q.countP (fun p => decide ((m p).priority = mp)) := by
    rw [List.countP_eq_length_filter, hcongr q (fun p hp => hp), hband]
    cases cs with
    | nil => exact absurd rfl hcs
    | cons d ds => simp
  obtain ⟨b, l1, l2, hl, hl1, hb, hrun⟩ :=
    priority_rr_step_contention m ⟨ct, q, rel⟩ mp hint
      (fun p hp => by rw [hpri p hp]; exact hmin p hp) hcnt
  dsimp only at hl hl1 hrun
  have hl1q : ∀ p ∈ l1, p ∈ q := fun p hp => by rw [hl]; simp [hp]
  have hl2q : ∀ p ∈ l2, p ∈ q := fun p hp => by rw [hl]; simp [hp]
  have hbq : b ∈ q := by rw [hl]; simp
  have hf1 : l1.filter (fun p => decide (pri p = mp)) = [] := by
    rw [List.filter_eq_nil_iff]
    intro a ha hpa
    exact hl1 a ha (by rw [hpri a (hl1q a ha)]; exact of_decide_eq_true hpa)
  have hpb : decide (pri b = mp) = true := by
    rw [← hpri b hbq]
    exact decide_eq_true hb
  have hfb : ∀ l : List Nat, List.filter (fun p => decide (pri p = mp)) (b :: l) =
      b :: List.filter (fun p => decide (pri p = mp)) l :=
    fun l => List.filter_cons_of_pos hpb
  have hsplit : q.filter (fun p => decide (pri p = mp)) =
      b :: l2.filter (fun p => decide (pri p = mp)) := by
    rw [hl, List.filter_append, hf1, List.nil_append, hfb]
  rw [hsplit] at hband
  have hbc : b = c := (List.cons.inj hband).1
  have hl2c : l2.filter (fun p => decide (pri p = mp)) = cs := (List.cons.inj hband).2
  subst hbc
  refine ⟨_, _, hrun, rfl, ?_, ?_⟩
  · rw [hl, List.append_assoc]
    exact List.Perm.append_left l1 (List.perm_append_singleton b l2)
  · rw [List.filter_append, List.filter_append, hf1, hl2c, List.nil_append,
      hfb, List.filter_nil]

theorem priority_rr_calls_cons (rel : List release_queue_entry) (m : Heap) (ct : Int)
    (rest : List (Heap × Int)) (q : List Nat) (r : threads_sched_result) (q1 : List Nat)
    (h : schedule_priority_rr m ⟨ct, q, rel⟩ = some (r, q1)) :
    priority_rr_calls rel ((m, ct) :: rest) q =
      (r :: (priority_rr_calls rel rest q1).1, (priority_rr_calls rel rest q1).2) := by
  rw [priority_rr_calls, h]

/-- Consecutive calls, one for each thread of the prefix `xs` of the band
`xs ++ ys`: they select the threads of `xs` in order and leave a queue whose
band is `ys ++ xs`; the calls listed after them go on from that queue. -/
theorem priority_rr_calls_band (rel : List release_queue_entry) (pri : Nat → Int) (mp : Int)
    (hint : mp ≤ INT_MAX) :
    ∀ (xs ys : List Nat) (q : List Nat) (calls rest : List (Heap × Int)),
      q.filter (fun p => decide (pri p = mp)) = xs ++ ys → 2 ≤ (xs ++ ys).length →
      calls.length = xs.length →
      (∀ c ∈ calls, ∀ p ∈ q, (c.1 p).priority = pri p) →
      (∀ p ∈ q, mp ≤ pri p) →
      ∃ q1, q1.Perm q ∧ q1.filter (fun p => decide (pri p = mp)) = ys ++ xs ∧
        (priority_rr_calls rel (calls ++ rest) q).1.map
            (fun r => r.scheduled_thread_list_member) =
          xs.map some ++
            (priority_rr_calls rel rest q1).1.map (fun r => r.scheduled_thread_list_member) := by
  intro xs
  induction xs with
  | nil =>
    intro ys q calls rest hband _ hlen _ _
    have hc : calls = [] := List.length_eq_zero.1 hlen
    subst hc
    exact ⟨q, List.Perm.refl q, by rw [hband]; simp, by simp⟩
  | cons c cs ih =>
    intro ys q calls rest hband hlen2 hlen hpri hmin
    cases calls with
    | nil => simp at hlen
    | cons call calls1 =>
      obtain ⟨m, ct⟩ := call
      have hne : cs ++ ys ≠ [] := by
        intro he
        rw [List.cons_append, he] at hlen2
        simp at hlen2
      obtain ⟨r, q1, hrun, hr, hperm, hband1⟩ :=
        priority_rr_step_band m ct rel q pri mp c (cs ++ ys)
          (fun p hp => hpri (m, ct) (by simp) p hp) hint hmin
          (by rw [hband]; rfl) hne
      have hmem : ∀ p, p ∈ q1 → p ∈ q := fun p hp => hperm.mem_iff.1 hp
      obtain ⟨q2, hperm2, hband2, htrace⟩ :=
        ih (ys ++ [c]) q1 calls1 rest
          (by rw [hband1, List.append_assoc])
          (by
            have : (cs ++ (ys ++ [c])).length = (c :: cs ++ ys).length := by
              simp only [List.length_append, List.length_cons, List.length_nil]
              omega
            rw [this]; exact hlen2)
          (by simpa using hlen)
          (fun c2 hc2 p hp => hpri c2 (List.mem_cons_of_mem _ hc2) p (hmem p hp))
          (fun p hp => hmin p (hmem p hp))
      refine ⟨q2, hperm2.trans hperm, ?_, ?_⟩
      · rw [hband2, List.append_assoc]
        rfl
      · rw [List.cons_append]
        rw [priority_rr_calls_cons rel m ct _ q r q1 hrun]
        dsimp only
        rw [List.map_cons, htrace, hr, List.map_cons, List.cons_append]

/-- C13 (priority-RR alternation).  Let the threads of minimum priority `mp` (a
C `int`) of the run queue be `b1, ..., bk` in queue order, `k ≥ 2`, and make
`k + 1` consecutive calls of `schedule_priority_rr`, each on the queue left by
the call before it, with heaps that all give the threads of the queue the same
priorities (other fields may differ from call to call).  The first `k` calls
select `b1, ..., bk` in that order and call `k + 1` selects `b1` again. -/
theorem priority_rr_alternation (rel : List release_queue_entry) (rq : List Nat)
    (pri : Nat → Int) (mp : Int) (calls : List (Heap × Int))
    (hint : mp ≤ INT_MAX) (hmin : ∀ p ∈ rq, mp ≤ pri p)
    (hk : 2 ≤ (rq.filter (fun p => decide (pri p = mp))).length)
    (hlen : calls.length = (rq.filter (fun p => decide (pri p = mp))).length + 1)
    (hpri : ∀ c ∈ calls, ∀ p ∈ rq, (c.1 p).priority = pri p) :
    (priority_rr_calls rel calls rq).1.map (fun r => r.scheduled_thread_list_member) =
      (rq.filter (fun p => decide (pri p = mp))).map some ++
        [(rq.filter (fun p => decide (pri p = mp))).head?] := by
  generalize hB : rq.filter (fun p => decide (pri p = mp)) = B at hk hlen
  have hsplit : calls = calls.take B.length ++ calls.drop B.length :=
    (List.take_append_drop _ _).symm
  have htake : (calls.take B.length).length = B.length := by
    rw [List.length_take]; omega
  have hdrop : (calls.drop B.length).length = 1 := by
    rw [List.length_drop]; omega
  obtain ⟨q1, hperm1, hband1, htrace1⟩ :=
    priority_rr_calls_band rel pri mp hint B [] rq (calls.take B.length)
      (calls.drop B.length) (by rw [hB, List.append_nil])
      (by rw [List.append_nil]; exact hk) htake
      (fun c hc p hp => hpri c (List.mem_of_mem_take hc) p hp) hmin
  rw [← hsplit] at htrace1
  rw [List.nil_append] at hband1
  cases B with
  | nil => simp at hk
  | cons b1 B1 =>
    have hmem : ∀ p, p ∈ q1 → p ∈ rq := fun p hp => hperm1.mem_iff.1 hp
    obtain ⟨q2, -, -, htrace2⟩ :=
      priority_rr_calls_band rel pri mp hint [b1] B1 q1 (calls.drop (b1 :: B1).length) []
        (by rw [hband1]; rfl) hk (by rw [hdrop]; rfl)
        (fun c hc p hp => hpri c (List.mem_of_mem_drop hc) p (hmem p hp))
        (fun p hp => hmin p (hmem p hp))
    rw [List.append_nil] at htrace2
    rw [htrace1, htrace2]
    simp [priority_rr_calls]

/-- Witness for C13: the scenario of the spec, T1 and T2 with priority 1 and 5
ticks each.  Three calls at times 0, 2 and 4 select T1 with 2 ticks, T2 with 2
ticks and T1 again. -/
theorem priority_rr_alternation_witness :
    (1 : Int) ≤ INT_MAX ∧
    (∀ p ∈ [0, 1], (1 : Int) ≤ (alt_heap p).priority) ∧
    2 ≤ (([0, 1] : List Nat).filter (fun p => decide ((alt_heap p).priority = 1))).length ∧
    alt_calls.length =
      (([0, 1] : List Nat).filter (fun p => decide ((alt_heap p).priority = 1))).length + 1 ∧
    (∀ c ∈ alt_calls, ∀ p ∈ [0, 1], (c.1 p).priority = (alt_heap p).priority) ∧
    priority_rr_calls [] alt_calls [0, 1] =
      ([⟨some 0, 2⟩, ⟨some 1, 2⟩, ⟨some 0, 2⟩], [1, 0]) ∧
    (priority_rr_calls [] alt_calls [0, 1]).1.map (fun r => r.scheduled_thread_list_member) =
      (([0, 1] : List Nat).filter (fun p => decide ((alt_heap p).priority = 1))).map some ++
        [(([0, 1] : List Nat).filter (fun p => decide ((alt_heap p).priority = 1))).head?] :=
  ⟨by decide, by decide, by decide, by decide, by decide, by decide,
    priority_rr_alternation [] [0, 1] (fun p => (alt_heap p).priority) 1 alt_calls
      (by decide) (by decide) (by decide) (by decide) (by decide)⟩

/-! ## Membership of the returned thread -/

theorem earliest_arrival_spec (rel : List release_queue_entry) :
    earliest_arrival rel ≤ INT_MAX ∧ (∀ e ∈ rel, earliest_arrival rel ≤ e.release_time) ∧
      (earliest_arrival rel = INT_MAX ∨ ∃ e ∈ rel, e.release_time = earliest_arrival rel) := by
  unfold earliest_arrival
  induction rel using List.reverseRecOn with
  | nil => simp
  | append_singleton l x ih =>
    rw [List.foldl_append, List.foldl_cons, List.foldl_nil]
    generalize List.foldl
      (fun (ea : Int) (entry : release_queue_entry) =>
        if entry.release_time < ea then entry.release_time else ea) INT_MAX l = ea at ih
    obtain ⟨h1, h2, h3⟩ := ih
    by_cases hc : x.release_time < ea
    · rw [if_pos hc]
      refine ⟨by omega, ?_, Or.inr ⟨x, by simp, rfl⟩⟩
      intro e he
      rcases List.mem_append.1 he with h | h
      · have := h2 e h
        omega
      · simp at h
        subst h
        exact le_refl _
    · rw [if_neg hc]
      refine ⟨h1, ?_, ?_⟩
      · intro e he
        rcases List.mem_append.1 he with h | h
        · exact h2 e h
        · simp at h
          subst h
          omega
      · rcases h3 with h3 | ⟨e, he, hee⟩
        · exact Or.inl h3
        · exact Or.inr ⟨e, List.mem_append_left _ he, hee⟩

theorem idle_result_nil (ct : Int) : idle_result [] ct = ⟨none, 1⟩ := by
  unfold idle_result earliest_arrival
  simp

/-- The idle decision sleeps until the smallest release time, for at least one
tick, when all release times are below `INT_MAX`. -/
theorem idle_result_min (rel : List release_queue_entry) (ct : Int)
    (hlt : ∀ e ∈ rel, e.release_time < INT_MAX) (e : release_queue_entry) (he : e ∈ rel)
    (hmin : ∀ x ∈ rel, e.release_time ≤ x.release_time) :
    idle_result rel ct = ⟨none, max (e.release_time - ct) 1⟩ := by
  obtain ⟨_, h2, h3⟩ := earliest_arrival_spec rel
  have hea : earliest_arrival rel = e.release_time := by
    have h4 := h2 e he
    have h5 := hlt e he
    rcases h3 with h3 | ⟨x, hx, hxe⟩
    · omega
    · have := hmin x hx
      omega
  unfold idle_result
  dsimp only
  rw [hea, if_pos (ne_of_lt (hlt e he))]
  have hval : (if e.release_time - ct > 0 then e.release_time - ct else 1)
      = max (e.release_time - ct) 1 := by
    simp only [max_def]
    split_ifs <;> omega
  rw [hval]

theorem schedule_dm_idle (m : Heap) (args : threads_sched_args) (hrq : args.run_queue = []) :
    schedule_dm m args = idle_result args.release_queue args.current_time := by
  unfold schedule_dm __check_deadline_miss
  rw [hrq]
  rfl

theorem schedule_edf_cbs_idle (fuel : Nat) (m : Heap) (args : threads_sched_args)
    (hrq : args.run_queue = []) :
    schedule_edf_cbs fuel m args =
      some (idle_result args.release_queue args.current_time, m) := by
  unfold schedule_edf_cbs edf_unthrottle __check_deadline_miss
  rw [hrq]
  rfl

/-- C19 (idle wake time, DM and EDF+CBS).  For an input with an empty run queue
and release times below `INT_MAX`, `schedule_dm` and `schedule_edf_cbs` return
the run-queue sentinel with allocated time `max(r - current_time, 1)` where
`r` is the smallest release time of the release queue, and with allocated
time 1 when the release queue is empty; `schedule_edf_cbs` leaves the heap as
it was. -/
theorem idle_wake_time (m : Heap) (args : threads_sched_args)
    (hrq : args.run_queue = [])
    (hlt : ∀ e ∈ args.release_queue, e.release_time < INT_MAX) :
    (args.release_queue = [] →
      schedule_dm m args = ⟨none, 1⟩ ∧
      ∀ fuel, schedule_edf_cbs fuel m args = some (⟨none, 1⟩, m)) ∧
    (∀ e ∈ args.release_queue,
      (∀ x ∈ args.release_queue, e.release_time ≤ x.release_time) →
      schedule_dm m args = ⟨none, max (e.release_time - args.current_time) 1⟩ ∧
      ∀ fuel, schedule_edf_cbs fuel m args =
        some (⟨none, max (e.release_time - args.current_time) 1⟩, m)) := by
  constructor
  · intro hrel
    have hidle : idle_result args.release_queue args.current_time = ⟨none, 1⟩ := by
      rw [hrel]; exact idle_result_nil _
    refine ⟨by rw [schedule_dm_idle m args hrq, hidle], ?_⟩
    intro fuel
    rw [schedule_edf_cbs_idle fuel m args hrq, hidle]
  · intro e he hmin
    have hidle := idle_result_min args.release_queue args.current_time hlt e he hmin
    refine ⟨by rw [schedule_dm_idle m args hrq, hidle], ?_⟩
    intro fuel
    rw [schedule_edf_cbs_idle fuel m args hrq, hidle]

/-- Witness for C19: with arrivals at times 9 and 5 and an empty run queue at
time 0 both real-time policies idle for 5 ticks. -/
theorem idle_wake_time_witness :
    wake_args.run_queue = [] ∧
    (∀ e ∈ wake_args.release_queue, e.release_time < INT_MAX) ∧
    (⟨5, 0⟩ : release_queue_entry) ∈ wake_args.release_queue ∧
    (∀ x ∈ wake_args.release_queue, (5 : Int) ≤ x.release_time) ∧
    schedule_dm fcfs_heap wake_args = ⟨none, 5⟩ ∧
    (schedule_dm fcfs_heap wake_args =
        ⟨none, max ((⟨5, 0⟩ : release_queue_entry).release_time - wake_args.current_time) 1⟩ ∧
      ∀ fuel, schedule_edf_cbs fuel fcfs_heap wake_args =
        some (⟨none,
          max ((⟨5, 0⟩ : release_queue_entry).release_time - wake_args.current_time) 1⟩,
          fcfs_heap)) :=
  ⟨rfl, by decide, by decide, by decide, by decide,
    (idle_wake_time fcfs_heap wake_args rfl (by decide)).2 ⟨5, 0⟩ (by decide) (by decide)⟩

/-- Counterexample for C20 as stated: with an empty run queue at time 0 and
arrivals at times 9 and 5 the time until the nearest arrival is 5, but
`schedule_default`, `schedule_hrrn` and `schedule_priority_rr` allocate 1. -/
theorem nonrt_idle_counterexample :
    wake_args.run_queue = [] ∧
    (⟨5, 0⟩ : release_queue_entry) ∈ wake_args.release_queue ∧
    (∀ x ∈ wake_args.release_queue, (5 : Int) ≤ x.release_time) ∧
    max ((5 : Int) - wake_args.current_time) 1 = 5 ∧
    schedule_default fcfs_heap wake_args = ⟨none, 1⟩ ∧
    schedule_hrrn fcfs_heap wake_args = ⟨none, 1⟩ ∧
    schedule_priority_rr fcfs_heap wake_args = some (⟨none, 1⟩, []) ∧
    (schedule_default fcfs_heap wake_args).allocated_time ≠
      max ((5 : Int) - wake_args.current_time) 1 := by
  refine ⟨rfl, by decide, by decide, by decide, by decide, by decide, by decide, by decide⟩

/-- C20, amended (idle contract of the non-real-time policies).  For an input
with an empty run queue `schedule_default`, `schedule_hrrn` and
`schedule_priority_rr` return the run-queue sentinel with allocated time 1,
whatever the release queue contains; `schedule_priority_rr` leaves the run
queue empty. -/
theorem nonrt_idle (m : Heap) (args : threads_sched_args) (hrq : args.run_queue = []) :
    schedule_default m args = ⟨none, 1⟩ ∧
    schedule_hrrn m args = ⟨none, 1⟩ ∧
    schedule_priority_rr m args = some (⟨none, 1⟩, []) := by
  refine ⟨?_, ?_, ?_⟩
  · unfold schedule_default
    rw [hrq]
    rfl
  · unfold schedule_hrrn hrrn_loop
    rw [hrq]
    rfl
  · unfold schedule_priority_rr
    rw [if_pos hrq, hrq]

/-- Witness for the amended C20: with an empty run queue and a single arrival
at time 3 the three policies allocate 1 tick at time 0. -/
theorem nonrt_idle_witness :
    ({ current_time := 0, run_queue := [], release_queue := [⟨3, 0⟩] } :
      threads_sched_args).run_queue = [] ∧
    (schedule_default fcfs_heap
        { current_time := 0, run_queue := [], release_queue := [⟨3, 0⟩] } = ⟨none, 1⟩ ∧
      schedule_hrrn fcfs_heap
        { current_time := 0, run_queue := [], release_queue := [⟨3, 0⟩] } = ⟨none, 1⟩ ∧
      schedule_priority_rr fcfs_heap
        { current_time := 0, run_queue := [], release_queue := [⟨3, 0⟩] } =
          some (⟨none, 1⟩, [])) :=
  ⟨rfl, nonrt_idle fcfs_heap { current_time := 0, run_queue := [], release_queue := [⟨3, 0⟩] }
    rfl⟩

/-! ## Frame properties of `schedule_edf_cbs` -/

/-- Pointwise invariant rule for a whole call: a property of the record of
thread `p` that survives step 1, the throttling loop and the postponement of an
eligible thread holds in the heap left by the call.  For a thread outside the
run queue nothing has to be shown. -/
theorem schedule_edf_cbs_pointwise (fuel : Nat) (m : Heap) (args : threads_sched_args)
    (out : threads_sched_result × Heap) (h : schedule_edf_cbs fuel m args = some out)
    (p : Nat) (Q : thread → Prop) (hq : Q (m p))
    (hu : p ∈ args.run_queue → ∀ t, Q t → Q (unthrottle_thread args.current_time t))
    (ht : p ∈ args.run_queue → ∀ t, Q t → Q (throttle_thread args.current_time t))
    (hp : p ∈ args.run_queue → ∀ t, Q t → edf_eligible t →
      edf_must_postpone args.current_time t → Q (edf_postpone args.current_time t)) :
    Q (out.2 p) := by
  obtain ⟨r, m'⟩ := out
  dsimp only
  have h1 : Q (edf_unthrottle args.current_time m args.run_queue p) := by
    rw [edf_unthrottle_apply]
    split
    · rename_i hmem
      exact hu hmem _ hq
    · exact hq
  have h2 : Q (edf_throttle args.current_time
      (edf_unthrottle args.current_time m args.run_queue) args.run_queue p) := by
    rw [edf_throttle_apply]
    split
    · rename_i hmem
      exact ht hmem _ h1
    · exact h1
  have hloop : ∀ ob, edf_cbs_loop args.current_time args.run_queue fuel
      (edf_throttle args.current_time
        (edf_unthrottle args.current_time m args.run_queue) args.run_queue)
      = some (ob, m') → Q (m' p) := by
    intro ob hl
    exact (edf_cbs_loop_inv args.current_time args.run_queue (fun h => Q (h p))
      (by
        intro h b hI hsel hmp
        by_cases hpb : p = b
        · subst hpb
          show Q ((h.set p (edf_postpone args.current_time (h p))) p)
          rw [Heap.set_same]
          obtain ⟨hmem, helig, -⟩ := edf_select_some h args.run_queue p hsel
          exact hp hmem _ hI helig hmp
        · show Q ((h.set b (edf_postpone args.current_time (h b))) p)
          rw [Heap.set_other _ _ _ _ hpb]
          exact hI)
      fuel _ ob m' h2 hl).1
  rcases schedule_edf_cbs_cases fuel m args r m' h with
    ⟨_, _, _, hm⟩ | ⟨_, _, _, hm⟩ | ⟨_, _, hl, _⟩ | ⟨c, _, _, hl, _⟩
  · rw [hm]; exact h1
  · rw [hm]; exact h1
  · exact hloop _ hl
  · exact hloop _ hl

/-- C21 (EDF+CBS all-throttled idle).  For an input with a non-empty run queue,
no deadline miss after step 1, and every run-queue thread a throttled soft
thread after steps 1 and 4, `schedule_edf_cbs` returns the run-queue sentinel
with allocated time exactly 1, whatever the release queue and the deadlines of
the throttled threads are, and leaves the heap of steps 1 and 4. -/
theorem edf_cbs_all_throttled_idle (m : Heap) (args : threads_sched_args)
    (hne : args.run_queue ≠ [])
    (hno : ∀ p ∈ args.run_queue,
      args.current_time <
        (edf_unthrottle args.current_time m args.run_queue p).current_deadline)
    (hall : ∀ p ∈ args.run_queue,
      (edf_throttle args.current_time
        (edf_unthrottle args.current_time m args.run_queue)
        args.run_queue p).cbs.is_hard_rt = 0 ∧
      (edf_throttle args.current_time
        (edf_unthrottle args.current_time m args.run_queue)
        args.run_queue p).cbs.is_throttled ≠ 0) :
    (∃ out, schedule_edf_cbs (args.run_queue.length + 1) m args = some out) ∧
    ∀ (fuel : Nat) (out : threads_sched_result × Heap),
      schedule_edf_cbs fuel m args = some out →
      out.1 = ⟨none, 1⟩ ∧
      out.2 = edf_throttle args.current_time
        (edf_unthrottle args.current_time m args.run_queue) args.run_queue := by
  refine ⟨schedule_edf_cbs_returns m args _ (Nat.lt_succ_self _), ?_⟩
  intro fuel out h
  obtain ⟨r, m'⟩ := out
  dsimp only
  have hsel : edf_select (edf_throttle args.current_time
      (edf_unthrottle args.current_time m args.run_queue) args.run_queue) args.run_queue
      = none := by
    cases hs : edf_select (edf_throttle args.current_time
        (edf_unthrottle args.current_time m args.run_queue) args.run_queue)
        args.run_queue with
    | none => rfl
    | some b =>
      obtain ⟨hb, he, -⟩ := edf_select_some _ _ b hs
      exact absurd (hall b hb) he
  have hloop : ∀ ob, edf_cbs_loop args.current_time args.run_queue fuel
      (edf_throttle args.current_time
        (edf_unthrottle args.current_time m args.run_queue) args.run_queue)
      = some (ob, m') →
      ob = none ∧ m' = edf_throttle args.current_time
        (edf_unthrottle args.current_time m args.run_queue) args.run_queue := by
    intro ob hl
    cases fuel with
    | zero => simp [edf_cbs_loop] at hl
    | succ n =>
      unfold edf_cbs_loop at hl
      rw [hsel] at hl
      simp only [Option.some.injEq, Prod.mk.injEq] at hl
      exact ⟨hl.1.symm, hl.2.symm⟩
  rcases schedule_edf_cbs_cases fuel m args r m' h with
    ⟨p, hc, _, _⟩ | ⟨_, he, _, _⟩ | ⟨_, _, hl, hr⟩ | ⟨c, _, _, hl, _⟩
  · obtain ⟨hp, hle, -⟩ := check_deadline_miss_some _ _ _ p hc
    exact absurd hle (not_le.2 (hno p hp))
  · exact absurd he hne
  · exact ⟨hr, (hloop _ hl).2⟩
  · exact absurd (hloop _ hl).1 (by simp)

/-- Witness for C21: one throttled soft thread with deadline 10 at time 0; the
call idles for 1 tick. -/
theorem edf_cbs_all_throttled_idle_witness :
    idle_args.run_queue ≠ [] ∧
    schedule_edf_cbs 2 idle_heap idle_args = some idle_out ∧
    (idle_out.1 = ⟨none, 1⟩ ∧
      idle_out.2 = edf_throttle idle_args.current_time
        (edf_unthrottle idle_args.current_time idle_heap idle_args.run_queue)
        idle_args.run_queue) :=
  ⟨by decide, rfl,
    (edf_cbs_all_throttled_idle idle_heap idle_args (by decide) (by decide) (by decide)).2
      2 idle_out rfl⟩

/-- C29 (EDF+CBS budget invariant).  `schedule_edf_cbs` returns, and on every
return path (deadline miss, empty-queue idle, all-throttled idle, dispatch) a
thread that on entry is hard or has `remaining_budget ≤ budget` is, in the heap
left by the call, hard or has `remaining_budget ≤ budget`.  So when every soft
thread of either queue satisfies the bound on entry, every soft thread satisfies
it on return. -/
theorem edf_cbs_budget_invariant (m : Heap) (args : threads_sched_args) :
    (∃ out, schedule_edf_cbs (args.run_queue.length + 1) m args = some out) ∧
    ∀ (fuel : Nat) (out : threads_sched_result × Heap) (p : Nat),
      schedule_edf_cbs fuel m args = some out →
      ((m p).cbs.is_hard_rt = 0 → (m p).cbs.remaining_budget ≤ (m p).cbs.budget) →
      (out.2 p).cbs.is_hard_rt = 0 →
      (out.2 p).cbs.remaining_budget ≤ (out.2 p).cbs.budget := by
  refine ⟨schedule_edf_cbs_returns m args _ (Nat.lt_succ_self _), ?_⟩
  intro fuel out p h hq
  refine schedule_edf_cbs_pointwise fuel m args out h p
    (fun t => t.cbs.is_hard_rt = 0 → t.cbs.remaining_budget ≤ t.cbs.budget) hq ?_ ?_ ?_
  · intro _ t ht hs
    rw [unthrottle_thread_is_hard_rt] at hs
    exact unthrottle_thread_budget_le _ t (ht hs)
  · intro _ t ht hs
    rw [throttle_thread_is_hard_rt] at hs
    rw [throttle_thread_remaining_budget, throttle_thread_budget]
    exact ht hs
  · intro _ t _ _ _ _
    exact le_refl _

/-- Witness for C29: the postponement scenario (budget 2, remaining budget 2),
where the loop rewrites the budget of pointer 0. -/
theorem edf_cbs_budget_invariant_witness :
    schedule_edf_cbs 2 post_heap post_args = some post_out ∧
    (post_heap 0).cbs.is_hard_rt = 0 ∧
    (post_heap 0).cbs.remaining_budget ≤ (post_heap 0).cbs.budget ∧
    (post_out.2 0).cbs.is_hard_rt = 0 ∧
    (post_out.2 0).cbs.remaining_budget ≤ (post_out.2 0).cbs.budget :=
  ⟨rfl, by decide, by decide, by decide,
    (edf_cbs_budget_invariant post_heap post_args).2 2 post_out 0 rfl
      (fun _ => by decide) (by decide)⟩

/-- C23 (EDF+CBS lookahead restoration).  `schedule_edf_cbs` returns, and the
record of a thread is in the heap left by the call what it was on entry when
the thread (a) is not in the run queue (in particular when it is referenced only
from the release queue), (b) is hard real-time, or (c) is a soft thread that is
throttled with a deadline that has not expired.  The temporary assignments of
the lookahead to `current_deadline` are all undone.  Disjointness of the two
queues is not needed for this. -/
theorem edf_cbs_lookahead_restores (m : Heap) (args : threads_sched_args) :
    (∃ out, schedule_edf_cbs (args.run_queue.length + 1) m args = some out) ∧
    ∀ (fuel : Nat) (out : threads_sched_result × Heap) (p : Nat),
      schedule_edf_cbs fuel m args = some out →
      (p ∉ args.run_queue ∨ (m p).cbs.is_hard_rt ≠ 0 ∨
        ((m p).cbs.is_hard_rt = 0 ∧ (m p).cbs.is_throttled ≠ 0 ∧
          args.current_time < (m p).current_deadline)) →
      out.2 p = m p := by
  refine ⟨schedule_edf_cbs_returns m args _ (Nat.lt_succ_self _), ?_⟩
  intro fuel out p h hc
  refine schedule_edf_cbs_pointwise fuel m args out h p (fun t => t = m p) rfl ?_ ?_ ?_
  · intro hmem t ht
    subst ht
    rcases hc with hc | hc | ⟨_, _, hd⟩
    · exact absurd hmem hc
    · exact unthrottle_thread_of_hard _ _ hc
    · unfold unthrottle_thread
      rw [if_neg (fun hx => absurd hx.2.2 (not_le.2 hd))]
  · intro hmem t ht
    subst ht
    rcases hc with hc | hc | ⟨_, hth, _⟩
    · exact absurd hmem hc
    · exact throttle_thread_of_hard _ _ hc
    · unfold throttle_thread
      rw [if_neg (fun hx => hth hx.2.1)]
  · intro hmem t ht helig hmp
    subst ht
    rcases hc with hc | hc | ⟨hs, hth, _⟩
    · exact absurd hmem hc
    · exact absurd hmp.1 hc
    · exact absurd ⟨hs, hth⟩ helig

/-- Witness for C23: in the lookahead scenario the release-queue thread at
pointer 2 (whose deadline the lookahead sets to 52 and back) is unchanged. -/
theorem edf_cbs_lookahead_restores_witness :
    schedule_edf_cbs 3 look_heap look_args = some look_out ∧
    2 ∉ look_args.run_queue ∧ look_out.2 2 = look_heap 2 :=
  ⟨rfl, by decide,
    (edf_cbs_lookahead_restores look_heap look_args).2 3 look_out 2 rfl
      (Or.inl (by decide))⟩

/-- Forgetting the record of `edf_cbs_loop_log` gives `edf_cbs_loop`. -/
theorem edf_cbs_loop_log_erase (ct : Int) (rq : List Nat) :
    ∀ (fuel : Nat) (m : Heap),
      edf_cbs_loop ct rq fuel m = (edf_cbs_loop_log ct rq fuel m).map (fun res => res.2) := by
  intro fuel
  induction fuel with
  | zero => intro m; rfl
  | succ n ih =>
    intro m
    unfold edf_cbs_loop edf_cbs_loop_log
    cases hsel : edf_select m rq with
    | none => rfl
    | some b =>
      dsimp only
      by_cases hp : edf_must_postpone ct (m b)
      · rw [if_pos hp, if_pos hp, ih]
        cases edf_cbs_loop_log ct rq n (m.set b (edf_postpone ct (m b))) with
        | none => rfl
        | some res => rfl
      · rw [if_neg hp, if_neg hp]
        rfl

/-- Every recorded postponement is of a run-queue thread, taken in the state in
which the loop was entered and failing the bandwidth test there; no thread is
recorded twice. -/
theorem edf_cbs_loop_log_spec (ct : Int) (rq : List Nat) :
    ∀ (fuel : Nat) (m : Heap) (res : List (Nat × thread) × Option Nat × Heap),
      (∀ p ∈ rq, ct < (m p).current_deadline ∨ edf_settled ct (m p)) →
      edf_cbs_loop_log ct rq fuel m = some res →
      (res.1.map Prod.fst).Nodup ∧
      ∀ e ∈ res.1, e.1 ∈ rq ∧ e.2 = m e.1 ∧ edf_must_postpone ct (m e.1) := by
  intro fuel
  induction fuel with
  | zero => intro m res _ h; simp [edf_cbs_loop_log] at h
  | succ n ih =>
    intro m res hinv h
    unfold edf_cbs_loop_log at h
    cases hsel : edf_select m rq with
    | none =>
      rw [hsel] at h
      simp only [Option.some.injEq] at h
      rw [← h]
      simp
    | some b =>
      rw [hsel] at h
      dsimp only at h
      obtain ⟨hb, -, -⟩ := edf_select_some m rq b hsel
      by_cases hp : edf_must_postpone ct (m b)
      · rw [if_pos hp] at h
        have hdl : ct < (m b).current_deadline := by
          rcases hinv b hb with h1 | h1
          · exact h1
          · exact absurd hp (edf_settled_not_postpone ct _ h1)
        have hset := edf_postpone_settled ct (m b) hdl hp
        have hinv1 : ∀ p ∈ rq,
            ct < ((m.set b (edf_postpone ct (m b))) p).current_deadline ∨
              edf_settled ct ((m.set b (edf_postpone ct (m b))) p) := by
          intro p hpm
          by_cases hpb : p = b
          · subst hpb
            rw [Heap.set_same]
            exact Or.inr hset
          · rw [Heap.set_other _ _ _ _ hpb]
            exact hinv p hpm
        cases hrec : edf_cbs_loop_log ct rq n (m.set b (edf_postpone ct (m b))) with
        | none => rw [hrec] at h; simp at h
        | some res1 =>
          rw [hrec] at h
          simp only [Option.some.injEq] at h
          obtain ⟨hnd, hall⟩ := ih _ res1 hinv1 hrec
          have hne : ∀ e ∈ res1.1, e.1 ≠ b := by
            intro e he hcon
            have h3 := (hall e he).2.2
            rw [hcon, Heap.set_same] at h3
            exact edf_settled_not_postpone ct _ hset h3
          rw [← h]
          dsimp only
          refine ⟨?_, ?_⟩
          · rw [List.map_cons, List.nodup_cons]
            refine ⟨?_, hnd⟩
            intro hmem
            obtain ⟨e, he, heq⟩ := List.mem_map.1 hmem
            exact hne e he heq
          · intro e he
            rcases List.mem_cons.1 he with he | he
            · subst he
              exact ⟨hb, rfl, hp⟩
            · obtain ⟨h1, h2, h3⟩ := hall e he
              rw [Heap.set_other _ _ _ _ (hne e he)] at h2 h3
              exact ⟨h1, h2, h3⟩
      · rw [if_neg hp] at h
        simp only [Option.some.injEq] at h
        rw [← h]
        simp

/-- A call that returns has a record of postponements. -/
theorem schedule_edf_cbs_log_of_some (fuel : Nat) (m : Heap) (args : threads_sched_args)
    (out : threads_sched_result × Heap) (h : schedule_edf_cbs fuel m args = some out) :
    ∃ log, schedule_edf_cbs_log fuel m args = some log := by
  unfold schedule_edf_cbs at h
  unfold schedule_edf_cbs_log
  dsimp only at h ⊢
  cases hc : __check_deadline_miss (edf_unthrottle args.current_time m args.run_queue)
      args.run_queue args.current_time with
  | some p => exact ⟨_, rfl⟩
  | none =>
    rw [hc] at h
    dsimp only at h ⊢
    by_cases he : args.run_queue = []
    · rw [if_pos he]; exact ⟨_, rfl⟩
    · rw [if_neg he] at h ⊢
      rw [edf_cbs_loop_log_erase] at h
      cases hl : edf_cbs_loop_log args.current_time args.run_queue fuel
          (edf_throttle args.current_time
            (edf_unthrottle args.current_time m args.run_queue) args.run_queue) with
      | none => rw [hl] at h; simp at h
      | some res => exact ⟨_, rfl⟩

/-- The record of a call: no thread twice, and every entry is a run-queue
thread in its state after steps 1 and 4, with its deadline still ahead and
failing the bandwidth test. -/
theorem schedule_edf_cbs_log_spec (fuel : Nat) (m : Heap) (args : threads_sched_args)
    (log : List (Nat × thread)) (h : schedule_edf_cbs_log fuel m args = some log) :
    (log.map Prod.fst).Nodup ∧
    ∀ e ∈ log, e.1 ∈ args.run_queue ∧
      e.2 = edf_throttle args.current_time
        (edf_unthrottle args.current_time m args.run_queue) args.run_queue e.1 ∧
      args.current_time < e.2.current_deadline ∧
      edf_must_postpone args.current_time e.2 := by
  unfold schedule_edf_cbs_log at h
  dsimp only at h
  cases hc : __check_deadline_miss (edf_unthrottle args.current_time m args.run_queue)
      args.run_queue args.current_time with
  | some p =>
    rw [hc] at h
    simp only [Option.some.injEq] at h
    rw [← h]; simp
  | none =>
    rw [hc] at h
    dsimp only at h
    by_cases he : args.run_queue = []
    · rw [if_pos he] at h
      simp only [Option.some.injEq] at h
      rw [← h]; simp
    · rw [if_neg he] at h
      cases hl : edf_cbs_loop_log args.current_time args.run_queue fuel
          (edf_throttle args.current_time
            (edf_unthrottle args.current_time m args.run_queue) args.run_queue) with
      | none => rw [hl] at h; simp at h
      | some res =>
        rw [hl] at h
        simp only [Option.some.injEq] at h
        obtain ⟨hnd, hall⟩ := edf_cbs_loop_log_spec args.current_time args.run_queue fuel _ res
          (fun p hp => Or.inl (edf_loop_entry_deadlines m args hc p hp)) hl
        rw [← h]
        refine ⟨hnd, ?_⟩
        intro e he
        obtain ⟨h1, h2, h3⟩ := hall e he
        refine ⟨h1, h2, ?_, ?_⟩
        · rw [h2]; exact edf_loop_entry_deadlines m args hc _ h1
        · rw [h2]; exact h3

/-- C24 (EDF+CBS loop termination).  For every run queue of `n` threads and
every assignment of the thread fields, `schedule_edf_cbs` returns with fuel
`n + 1`, that is within `n + 1` iterations of its `do ... while` loop; and in
every call that returns, the record of the postponements made by the loop names
run-queue threads only and names no thread twice, so that it has at most `n`
entries.  This holds for non-positive `period`, `budget` and
`remaining_budget` as well. -/
theorem edf_cbs_loop_terminates (m : Heap) (args : threads_sched_args) :
    (∃ out, schedule_edf_cbs (args.run_queue.length + 1) m args = some out) ∧
    ∀ (fuel : Nat) (out : threads_sched_result × Heap),
      schedule_edf_cbs fuel m args = some out →
      ∃ log, schedule_edf_cbs_log fuel m args = some log ∧
        (log.map Prod.fst).Nodup ∧ (∀ e ∈ log, e.1 ∈ args.run_queue) ∧
        log.length + 1 ≤ args.run_queue.length + 1 := by
  refine ⟨schedule_edf_cbs_returns m args _ (Nat.lt_succ_self _), ?_⟩
  intro fuel out h
  obtain ⟨log, hlog⟩ := schedule_edf_cbs_log_of_some fuel m args out h
  obtain ⟨hnd, hall⟩ := schedule_edf_cbs_log_spec fuel m args log hlog
  refine ⟨log, hlog, hnd, fun e he => (hall e he).1, ?_⟩
  have hsub : log.map Prod.fst ⊆ args.run_queue := by
    intro x hx
    obtain ⟨e, he, heq⟩ := List.mem_map.1 hx
    rw [← heq]
    exact (hall e he).1
  have hlen := (List.Nodup.subperm hnd hsub).length_le
  rw [List.length_map] at hlen
  omega

/-- Witness for C24: with two soft threads that both fail the bandwidth test
the loop postpones pointer 0, then pointer 1, and returns in its third
iteration. -/
theorem edf_cbs_loop_terminates_witness :
    schedule_edf_cbs 2 multi_heap multi_args = none ∧
    schedule_edf_cbs 3 multi_heap multi_args = some multi_out ∧
    schedule_edf_cbs_log 3 multi_heap multi_args
      = some [(0, multi_heap 0), (1, multi_heap 1)] ∧
    ∃ log, schedule_edf_cbs_log 3 multi_heap multi_args = some log ∧
      (log.map Prod.fst).Nodup ∧ (∀ e ∈ log, e.1 ∈ multi_args.run_queue) ∧
      log.length + 1 ≤ multi_args.run_queue.length + 1 :=
  ⟨rfl, rfl, rfl, (edf_cbs_loop_terminates multi_heap multi_args).2 3 multi_out rfl⟩

/-- A postponement of a thread whose deadline is ahead and whose remaining
budget does not exceed its budget moves the deadline forward. -/
theorem edf_postpone_increases (ct : Int) (t : thread) (hd : ct < t.current_deadline)
    (hb : t.cbs.remaining_budget ≤ t.cbs.budget) (hp : edf_must_postpone ct t) :
    t.current_deadline < ct + t.period := by
  obtain ⟨_, hrb, hv⟩ := hp
  rcases hv with hv | hv
  · omega
  · by_contra hcon
    have h1 : t.period ≤ t.current_deadline - ct := by omega
    have h2 : t.cbs.remaining_budget * t.period ≤
        t.cbs.remaining_budget * (t.current_deadline - ct) :=
      mul_le_mul_of_nonneg_left h1 (le_of_lt hrb)
    have h3 : t.cbs.remaining_budget * (t.current_deadline - ct) ≤
        t.cbs.budget * (t.current_deadline - ct) :=
      mul_le_mul_of_nonneg_right hb (by omega)
    omega

/-- After steps 1 and 4 a soft run-queue thread still has
`remaining_budget ≤ budget` when it had on entry. -/
theorem edf_entry_budget_le (m : Heap) (args : threads_sched_args) (p : Nat)
    (h : (m p).cbs.is_hard_rt = 0 → (m p).cbs.remaining_budget ≤ (m p).cbs.budget)
    (hs : (edf_throttle args.current_time
      (edf_unthrottle args.current_time m args.run_queue) args.run_queue p).cbs.is_hard_rt = 0) :
    (edf_throttle args.current_time
      (edf_unthrottle args.current_time m args.run_queue) args.run_queue p).cbs.remaining_budget ≤
    (edf_throttle args.current_time
      (edf_unthrottle args.current_time m args.run_queue) args.run_queue p).cbs.budget := by
  rw [edf_entry_heap_is_hard_rt] at hs
  rw [edf_throttle_apply, edf_unthrottle_apply]
  by_cases hp : p ∈ args.run_queue
  · rw [if_pos hp, if_pos hp, throttle_thread_remaining_budget, throttle_thread_budget]
    exact unthrottle_thread_budget_le _ _ (h hs)
  · rw [if_neg hp, if_neg hp]
    exact h hs

/-- Counterexample for C25 as stated, in 32-bit arithmetic: a soft thread with
`remaining_budget = 1 ≤ budget = 65536`, `period = 5` and deadline 32768 at time
0.  The product `65536 * 32768` wraps to `INT_MIN`, the test `5 > INT_MIN`
holds, and the loop postpones the thread to deadline `0 + 5`, which is earlier
than the deadline it had. -/
theorem edf_cbs_postponement_increases_counterexample :
    (∀ p ∈ back_args.run_queue, (back_heap p).cbs.is_hard_rt = 0 →
      (back_heap p).cbs.remaining_budget ≤ (back_heap p).cbs.budget) ∧
    schedule_edf_cbs_int32 2 back_heap back_args = some back_out ∧
    schedule_edf_cbs_log_int32 2 back_heap back_args = some [(0, back_heap 0)] ∧
    (back_heap 0).current_deadline = 32768 ∧
    (edf_postpone_int32 back_args.current_time (back_heap 0)).current_deadline = 5 ∧
    (back_out.2 0).current_deadline = 5 ∧
    ¬ (back_heap 0).current_deadline <
      (edf_postpone_int32 back_args.current_time (back_heap 0)).current_deadline := by
  refine ⟨by decide, rfl, by decide, by decide, by decide, by decide, by decide⟩

/-- C25, amended (EDF+CBS postponement moves deadlines forward).  If every soft
run-queue thread has `remaining_budget ≤ budget` on entry and no `int`
operation of steps 1 and 5 overflows on a run-queue thread, the call of
`schedule_edf_cbs`, computed with 32-bit arithmetic, has a record of
postponements, and every postponement made by its loop assigns a deadline
strictly later than the one the thread had. -/
theorem edf_cbs_postponement_increases (m : Heap) (args : threads_sched_args)
    (hinv : ∀ p ∈ args.run_queue, (m p).cbs.is_hard_rt = 0 →
      (m p).cbs.remaining_budget ≤ (m p).cbs.budget)
    (hfit : ∀ p ∈ args.run_queue, edf_fits args.current_time (m p)) :
    (∃ log, schedule_edf_cbs_log_int32 (args.run_queue.length + 1) m args = some log) ∧
    ∀ (fuel : Nat) (log : List (Nat × thread)),
      schedule_edf_cbs_log_int32 fuel m args = some log →
      ∀ e ∈ log, e.2.current_deadline <
        (edf_postpone_int32 args.current_time e.2).current_deadline := by
  refine ⟨?_, ?_⟩
  · obtain ⟨out, hout⟩ := schedule_edf_cbs_returns m args _ (Nat.lt_succ_self _)
    rw [schedule_edf_cbs_log_int32_eq _ m args hfit]
    exact schedule_edf_cbs_log_of_some _ m args out hout
  · intro fuel log hlog e he
    rw [schedule_edf_cbs_log_int32_eq _ m args hfit] at hlog
    obtain ⟨-, hall⟩ := schedule_edf_cbs_log_spec fuel m args log hlog
    obtain ⟨hmem, heq, hdl, hmp⟩ := hall e he
    have htf : edf_test_fits args.current_time e.2 := by
      rw [heq]
      exact edf_test_fits_entry m args hfit e.1 hmem
    rw [edf_postpone_int32_eq _ _ htf]
    show e.2.current_deadline < args.current_time + e.2.period
    refine edf_postpone_increases _ _ hdl ?_ hmp
    rw [heq]
    refine edf_entry_budget_le m args e.1 (hinv e.1 hmem) ?_
    rw [← heq]
    exact hmp.1

/-- Witness for the amended C25: in the double-postponement scenario pointer 0
goes from deadline 5 to 10 and pointer 1 from 6 to 12. -/
theorem edf_cbs_postponement_increases_witness :
    schedule_edf_cbs_log_int32 3 multi_heap multi_args
      = some [(0, multi_heap 0), (1, multi_heap 1)] ∧
    schedule_edf_cbs_int32 3 multi_heap multi_args = some multi_out_int32 ∧
    (multi_heap 0).current_deadline = 5 ∧ (multi_out_int32.2 0).current_deadline = 10 ∧
    (multi_heap 1).current_deadline = 6 ∧ (multi_out_int32.2 1).current_deadline = 12 ∧
    ∀ e ∈ [(0, multi_heap 0), (1, multi_heap 1)],
      e.2.current_deadline <
        (edf_postpone_int32 multi_args.current_time e.2).current_deadline :=
  ⟨by decide, rfl, by decide, by decide, by decide, by decide,
    (edf_cbs_postponement_increases multi_heap multi_args (by decide) (by decide)).2 3 _
      (by decide)⟩

/-- C27 (EDF+CBS no stale deadline).  If every soft run-queue thread has
`remaining_budget ≤ budget` on entry, `schedule_edf_cbs` returns, and on every
return that is not a deadline miss (non-zero allocation) every run-queue thread
has `current_deadline > current_time` in the heap left by the call. -/
theorem edf_cbs_no_stale_deadline (m : Heap) (args : threads_sched_args)
    (hinv : ∀ p ∈ args.run_queue, (m p).cbs.is_hard_rt = 0 →
      (m p).cbs.remaining_budget ≤ (m p).cbs.budget) :
    (∃ out, schedule_edf_cbs (args.run_queue.length + 1) m args = some out) ∧
    ∀ (fuel : Nat) (out : threads_sched_result × Heap),
      schedule_edf_cbs fuel m args = some out →
      out.1.allocated_time ≠ 0 →
      ∀ p ∈ args.run_queue, args.current_time < (out.2 p).current_deadline := by
  refine ⟨schedule_edf_cbs_returns m args _ (Nat.lt_succ_self _), ?_⟩
  intro fuel out h hnz
  obtain ⟨r, m'⟩ := out
  dsimp only at hnz ⊢
  have hloop : ∀ ob, edf_cbs_loop args.current_time args.run_queue fuel
      (edf_throttle args.current_time
        (edf_unthrottle args.current_time m args.run_queue) args.run_queue)
      = some (ob, m') →
      __check_deadline_miss (edf_unthrottle args.current_time m args.run_queue)
        args.run_queue args.current_time = none →
      ∀ p ∈ args.run_queue, args.current_time < (m' p).current_deadline := by
    intro ob hl hc p hp
    have hI := (edf_cbs_loop_inv args.current_time args.run_queue
      (fun h => ∀ p ∈ args.run_queue, args.current_time < (h p).current_deadline ∧
        ((h p).cbs.is_hard_rt = 0 → (h p).cbs.remaining_budget ≤ (h p).cbs.budget))
      (by
        intro h b hI hsel hmp q hq
        obtain ⟨hb, -, -⟩ := edf_select_some h args.run_queue b hsel
        by_cases hqb : q = b
        · subst hqb
          show args.current_time <
              ((h.set q (edf_postpone args.current_time (h q))) q).current_deadline ∧
            (((h.set q (edf_postpone args.current_time (h q))) q).cbs.is_hard_rt = 0 →
              ((h.set q (edf_postpone args.current_time (h q))) q).cbs.remaining_budget ≤
              ((h.set q (edf_postpone args.current_time (h q))) q).cbs.budget)
          rw [Heap.set_same]
          have hlt := edf_postpone_increases args.current_time (h q) (hI q hq).1
            ((hI q hq).2 hmp.1) hmp
          refine ⟨?_, fun _ => le_refl _⟩
          show args.current_time < args.current_time + (h q).period
          have := (hI q hq).1
          omega
        · show args.current_time <
              ((h.set b (edf_postpone args.current_time (h b))) q).current_deadline ∧
            (((h.set b (edf_postpone args.current_time (h b))) q).cbs.is_hard_rt = 0 →
              ((h.set b (edf_postpone args.current_time (h b))) q).cbs.remaining_budget ≤
              ((h.set b (edf_postpone args.current_time (h b))) q).cbs.budget)
          rw [Heap.set_other _ _ _ _ hqb]
          exact hI q hq)
      fuel _ ob m'
      (fun q hq => ⟨edf_loop_entry_deadlines m args hc q hq,
        edf_entry_budget_le m args q (hinv q hq)⟩) hl).1
    exact (hI p hp).1
  rcases schedule_edf_cbs_cases fuel m args r m' h with
    ⟨_, _, hr, _⟩ | ⟨_, he, _, _⟩ | ⟨hc, _, hl, _⟩ | ⟨c, hc, _, hl, _⟩
  · rw [hr] at hnz
    exact absurd rfl hnz
  · intro p hp
    rw [he] at hp
    simp at hp
  · exact hloop _ hl hc
  · exact hloop _ hl hc

/-- Witness for C27: after the double postponement both run-queue threads have
deadlines ahead of time 0. -/
theorem edf_cbs_no_stale_deadline_witness :
    schedule_edf_cbs 3 multi_heap multi_args = some multi_out ∧
    multi_out.1.allocated_time ≠ 0 ∧
    ∀ p ∈ multi_args.run_queue,
      multi_args.current_time < (multi_out.2 p).current_deadline :=
  ⟨rfl, by decide,
    (edf_cbs_no_stale_deadline multi_heap multi_args (by decide)).2 3 multi_out rfl
      (by decide)⟩

/-- Invariant of the loop of `schedule_hrrn` over threads whose
`processing_time` is positive, or zero with a positive waiting time: the
selected thread carries its own numerator and denominator, and it has
`processing_time = 0` as soon as a visited thread has. -/
theorem hrrn_loop_zero (m : Heap) (ct : Int) (rq : List Nat)
    (hall : ∀ p ∈ rq, ((m p).processing_time = 0 ∧ 0 < ct - (m p).arrival_time) ∨
      0 < (m p).processing_time) :
    match (hrrn_loop m ct rq).selected_thread with
    | none => rq = []
    | some b => b ∈ rq ∧
        (hrrn_loop m ct rq).highest_ratio_numerator =
          ct - (m b).arrival_time + (m b).processing_time ∧
        (hrrn_loop m ct rq).highest_ratio_denominator = (m b).processing_time ∧
        ((∃ z ∈ rq, (m z).processing_time = 0) → (m b).processing_time = 0) := by
  unfold hrrn_loop
  induction rq using List.reverseRecOn with
  | nil => simp
  | append_singleton l x ih =>
    have ih := ih (fun p hp => hall p (List.mem_append_left _ hp))
    have hx := hall x (by simp)
    rw [List.foldl_append, List.foldl_cons, List.foldl_nil]
    generalize List.foldl (hrrn_step m ct) ⟨none, 0, 1⟩ l = st at ih
    obtain ⟨sel, hn, hd⟩ := st
    unfold hrrn_step
    cases sel with
    | none =>
      dsimp only at ih ⊢
      subst ih
      refine ⟨by simp, rfl, rfl, ?_⟩
      rintro ⟨z, hz, hz0⟩
      simp at hz
      subst hz
      exact hz0
    | some b =>
      dsimp only at ih ⊢
      obtain ⟨hb, h1, h2, hzero⟩ := ih
      subst h1 h2
      have hbb := hall b (List.mem_append_left _ hb)
      by_cases hc : (ct - (m x).arrival_time + (m x).processing_time) * (m b).processing_time >
            (ct - (m b).arrival_time + (m b).processing_time) * (m x).processing_time ∨
          ((ct - (m x).arrival_time + (m x).processing_time) * (m b).processing_time =
              (ct - (m b).arrival_time + (m b).processing_time) * (m x).processing_time ∧
            (m x).ID < (m b).ID)
      · rw [if_pos hc]
        dsimp only
        refine ⟨by simp, rfl, rfl, ?_⟩
        rintro ⟨z, hz, hz0⟩
        rcases hx with ⟨hx0, _⟩ | hxp
        · exact hx0
        · exfalso
          have hzl : z ∈ l := by
            rcases List.mem_append.1 hz with h | h
            · exact h
            · simp at h
              subst h
              omega
          have hb0 : (m b).processing_time = 0 := hzero ⟨z, hzl, hz0⟩
          have hbw : 0 < ct - (m b).arrival_time := by
            rcases hbb with ⟨_, h⟩ | h
            · exact h
            · omega
          have hpos : 0 < (ct - (m b).arrival_time) * (m x).processing_time :=
            mul_pos hbw hxp
          rw [hb0] at hc
          simp only [mul_zero, add_zero] at hc
          rcases hc with hc | ⟨hc, _⟩
          · exact absurd hc (not_lt.2 (le_of_lt hpos))
          · exact absurd hc (ne_of_lt hpos)
      · rw [if_neg hc]
        dsimp only
        refine ⟨by simp [hb], rfl, rfl, ?_⟩
        rintro ⟨z, hz, hz0⟩
        rcases List.mem_append.1 hz with h | h
        · exact hzero ⟨z, h, hz0⟩
        · simp at h
          subst h
          rcases hbb with ⟨hb0, _⟩ | hbp
          · exact hb0
          · exfalso
            have hzw : 0 < ct - (m z).arrival_time := by
              rcases hx with ⟨_, h⟩ | h
              · exact h
              · omega
            have hpos : 0 < (ct - (m z).arrival_time) * (m b).processing_time :=
              mul_pos hzw hbp
            apply hc
            left
            rw [hz0]
            simp only [mul_zero, add_zero]
            exact hpos

/-- Counterexample for C28 as stated, in 32-bit arithmetic.  First scenario:
IDs 1 and 2 are distinct, the thread with ID 2 has `processing_time = 0` and
the other one has `processing_time = 5` and waiting time 3; the thread with
`processing_time = 0` has just arrived (waiting time 0), so both cross products
are 0, the comparison is a tie and the smaller ID wins.  Second scenario: both
threads have waited 65536 ticks and the other thread has
`processing_time = 65536`; the cross product `65536 * 65536` wraps to 0 and
the comparison is a tie again.  In either queue order `schedule_hrrn` returns
the thread whose `processing_time` is not 0. -/
theorem hrrn_zero_processing_time_counterexample :
    ((zero_heap 0).ID ≠ (zero_heap 1).ID ∧
      (zero_heap 1).processing_time = 0 ∧
      0 < (zero_heap 0).processing_time ∧
      0 ≤ zero_args.current_time - (zero_heap 0).arrival_time ∧
      0 ≤ zero_args.current_time - (zero_heap 1).arrival_time ∧
      schedule_hrrn_int32 zero_heap zero_args = ⟨some 0, 5⟩ ∧
      schedule_hrrn_int32 zero_heap zero_args_rev = ⟨some 0, 5⟩ ∧
      (zero_heap 0).processing_time ≠ 0) ∧
    ((wrap_heap 0).ID ≠ (wrap_heap 1).ID ∧
      (wrap_heap 1).processing_time = 0 ∧
      0 < (wrap_heap 0).processing_time ∧
      0 < wrap_args.current_time - (wrap_heap 0).arrival_time ∧
      0 < wrap_args.current_time - (wrap_heap 1).arrival_time ∧
      schedule_hrrn_int32 wrap_heap wrap_args = ⟨some 0, 65536⟩ ∧
      schedule_hrrn_int32 wrap_heap wrap_args_rev = ⟨some 0, 65536⟩ ∧
      (wrap_heap 0).processing_time ≠ 0) := by
  refine ⟨⟨by decide, by decide, by decide, by decide, by decide, by decide, by decide,
    by decide⟩, ⟨by decide, by decide, by decide, by decide, by decide, by decide,
    by decide, by decide⟩⟩

/-- C28, amended (HRRN zero denominator).  Take a run queue, in any order, that
contains a thread with `processing_time = 0`, in which every thread with
`processing_time = 0` has a positive waiting time and every other thread has
`processing_time > 0`, and for which no waiting time, numerator or cross
product of two queued threads overflows a 32-bit `int`.  Then `schedule_hrrn`,
computed with 32-bit arithmetic, returns a run-queue thread with
`processing_time = 0` and allocates its `remaining_time`. -/
theorem hrrn_zero_processing_time (m : Heap) (args : threads_sched_args)
    (hz : ∃ z ∈ args.run_queue, (m z).processing_time = 0)
    (hall : ∀ p ∈ args.run_queue,
      ((m p).processing_time = 0 ∧ 0 < args.current_time - (m p).arrival_time) ∨
        0 < (m p).processing_time)
    (hw : ∀ p ∈ args.run_queue,
      fits_int32 (args.current_time - (m p).arrival_time) ∧
      fits_int32 (args.current_time - (m p).arrival_time + (m p).processing_time))
    (hprod : ∀ p ∈ args.run_queue, ∀ q ∈ args.run_queue,
      fits_int32 ((args.current_time - (m p).arrival_time + (m p).processing_time) *
        (m q).processing_time)) :
    ∃ b, b ∈ args.run_queue ∧
      schedule_hrrn_int32 m args = ⟨some b, (m b).remaining_time⟩ ∧
      (m b).processing_time = 0 := by
  have h := hrrn_loop_zero m args.current_time args.run_queue hall
  have heq := hrrn_loop_int32_eq m args.current_time args.run_queue hw hprod
  cases hs : (hrrn_loop m args.current_time args.run_queue).selected_thread with
  | none =>
    rw [hs] at h
    obtain ⟨z, hzm, -⟩ := hz
    rw [h] at hzm
    simp at hzm
  | some b =>
    rw [hs] at h
    obtain ⟨hb, -, -, hzero⟩ := h
    refine ⟨b, hb, ?_, hzero hz⟩
    unfold schedule_hrrn_int32
    rw [heq, hs]

/-- Witness for the amended C28: at time 5 the thread with `processing_time = 0`
has waited 2 ticks and is returned. -/
theorem hrrn_zero_processing_time_witness :
    schedule_hrrn_int32 zero_heap zero_args_late = ⟨some 1, 0⟩ ∧
    ∃ b, b ∈ zero_args_late.run_queue ∧
      schedule_hrrn_int32 zero_heap zero_args_late =
        ⟨some b, (zero_heap b).remaining_time⟩ ∧
      (zero_heap b).processing_time = 0 :=
  ⟨by decide,
    hrrn_zero_processing_time zero_heap zero_args_late ⟨1, by decide, by decide⟩
      (by decide) (by decide) (by decide)⟩

/-- C26 (DM allocation and later arrivals), the code at the failing input.  At
time 0 `schedule_dm` selects the only run-queue thread (relative deadline 5, 10
ticks of work) and allocates all 10 ticks: the earliest release-queue entry
(time 2) is a thread with relative deadline 9, which does not preempt.  The
entry released at time 4, inside the allocated window, is a thread with
relative deadline 3, which has the higher DM priority; the loop of step 4 keeps
only the earliest entry and never looks at it. -/
theorem dm_misses_later_arrival :
    schedule_dm dm_later_heap dm_later_args = ⟨some 0, 10⟩ ∧
    dm_next_arrival dm_later_args.release_queue = (some ⟨2, 1⟩, 2) ∧
    ∃ e ∈ dm_later_args.release_queue,
      dm_later_args.current_time < e.release_time ∧
      e.release_time <
        dm_later_args.current_time + (schedule_dm dm_later_heap dm_later_args).allocated_time ∧
      (dm_later_heap e.thrd).deadline < (dm_later_heap 0).deadline :=
  ⟨by decide, by decide, ⟨4, 2⟩, by decide, by decide, by decide, by decide⟩

end ThreadsSched
